import Mathlib

/-!
Verification of the DB2024-OSCore query planner and external merge sorter.

This file gives a shallow embedding, in Lean 4, of the parts of the
repository that the specification talks about:

* `Planner::get_index_cols`, `pop_conds`, `push_conds`, `pop_scan`,
  `Planner::make_one_rel` and `Planner::generate_sort_plan`
  (src/planner.cpp), and
* `ExternalMergeSorter` (src/execution/external_merge_sort.h):
  `write`, `endWrite`, `beginRead`, `adjust`, `read`.

Each definition is translated from the C++ source.  In-place mutation of
vectors becomes explicit state passing; `std::unordered_map` insertion
(`map[k] = v`, later writes overwrite) becomes a fold that keeps the last
matching position; machine integers index arithmetic is carried out on
`Nat`/`Int` (no overflow is reachable at the sizes involved); libc
`qsort_r`, external to the repository, is modelled by a comparator-driven
sorting function (`List.insertionSort`), which is exactly its contract: a
sorted permutation of the array.
-/

/-! ## Data model (common.h / planner types) -/

/-- Comparison operators of a `Condition` (enum `CompOp` in the source). -/
inductive CompOp where
  | OP_EQ | OP_NE | OP_LT | OP_GT | OP_LE | OP_GE
deriving DecidableEq, Repr

/-- A qualified column reference (struct `TabCol`). -/
structure TabCol where
  tab_name : String
  col_name : String
deriving DecidableEq, Repr

/-- A predicate `lhs_col OP rhs` where `rhs` is a literal when
`is_rhs_val` is set and the column `rhs_col` otherwise (struct
`Condition`; the literal's value itself is irrelevant to the planner
logic verified here, so it is not carried). -/
structure Condition where
  lhs_col : TabCol
  op : CompOp
  is_rhs_val : Bool
  rhs_col : TabCol
deriving DecidableEq, Repr

instance : Inhabited Condition := ⟨⟨⟨"", ""⟩, CompOp.OP_EQ, true, ⟨"", ""⟩⟩⟩

/-- A column descriptor (`ColMeta`): its table and its name. -/
structure ColMeta where
  tab_name : String
  name : String
deriving DecidableEq, Repr

/-- An index descriptor (`IndexMeta`): the ordered names of its key
columns (`index.cols[j].name` in the source). -/
structure IndexMeta where
  cols : List String
deriving DecidableEq, Repr

/-- A table's schema (`TabMeta`): its columns and its declared indexes. -/
structure TabMeta where
  cols : List ColMeta
  indexes : List IndexMeta
deriving DecidableEq, Repr

/-! ## `Planner::get_index_cols`

The source builds two `unordered_map`s keyed by `lhs_col.col_name`
(`eq_index_map` for `OP_EQ` conditions, `neq_index_map` for the rest) by
iterating the condition list in order, so a later condition with the same
column name overwrites an earlier one.  `eqFind`/`neqFind` model a lookup
in the finished map: the last matching position wins. -/

/-- Position stored in `eq_index_map[c]` after the construction loop. -/
def eqFind (conds : List Condition) (c : String) : Option Nat :=
  conds.enum.foldl
    (fun acc p => if p.2.op = CompOp.OP_EQ ∧ p.2.lhs_col.col_name = c then some p.1 else acc)
    none

/-- Position stored in `neq_index_map[c]` after the construction loop. -/
def neqFind (conds : List Condition) (c : String) : Option Nat :=
  conds.enum.foldl
    (fun acc p => if ¬p.2.op = CompOp.OP_EQ ∧ p.2.lhs_col.col_name = c then some p.1 else acc)
    none

/-- The inner scoring loop of `get_index_cols`: walk the index key columns
in order; an equality column adds one and continues, a non-equality column
adds one and stops, an unmatched column stops. -/
def matchLen (conds : List Condition) : List String → Nat
  | [] => 0
  | c :: rest =>
    if (eqFind conds c).isSome then matchLen conds rest + 1
    else if (neqFind conds c).isSome then 1
    else 0

/-- The selection loop: running maximum (`max_left_match_len`, starting at
`0`) and its index (`max_left_match_index`, `none` for `-1`); an index is
adopted only on a strictly greater score. -/
def chooseIndex (conds : List Condition) (indexes : List IndexMeta) : Nat × Option Nat :=
  indexes.enum.foldl
    (fun best p =>
      if best.1 < matchLen conds p.2.cols then (matchLen conds p.2.cols, some p.1) else best)
    (0, none)

/-- The `left_match_index` vector: for each matched key column, the
position of its condition, preferring the equality map (the source checks
`eq_index_map` first). -/
def matchedIdxs (conds : List Condition) (cols : List String) : List Nat :=
  cols.foldl
    (fun acc c =>
      match eqFind conds c with
      | some j => acc ++ [j]
      | none =>
        match neqFind conds c with
        | some j => acc ++ [j]
        | none => acc)
    []

/-- `Planner::get_index_cols`.  Returns the `bool` result together with
the final contents of `index_col_names` and of `curr_conds` (both passed
by reference in the source; `index_col_names` is cleared on entry, and
`curr_conds` is overwritten only after an index has been chosen). -/
def get_index_cols (tab : TabMeta) (conds : List Condition) :
    Bool × List String × List Condition :=
  match (chooseIndex conds tab.indexes).2 with
  | none => (false, [], conds)
  | some i =>
    let idx := tab.indexes.getD i ⟨[]⟩
    let len := (chooseIndex conds tab.indexes).1
    let matched := matchedIdxs conds (idx.cols.take len)
    let newConds :=
      matched.filterMap (fun j => conds.get? j)
        ++ (conds.enum.filter (fun p => ¬matched.contains p.1)).map (·.2)
    (true, idx.cols, newConds)

example :
    get_index_cols ⟨[], [⟨["a", "b", "c"]⟩]⟩
      [⟨⟨"t", "b"⟩, CompOp.OP_EQ, true, ⟨"", ""⟩⟩,
       ⟨⟨"t", "a"⟩, CompOp.OP_EQ, true, ⟨"", ""⟩⟩,
       ⟨⟨"t", "c"⟩, CompOp.OP_GT, true, ⟨"", ""⟩⟩] =
    (true, ["a", "b", "c"],
      [⟨⟨"t", "a"⟩, CompOp.OP_EQ, true, ⟨"", ""⟩⟩,
       ⟨⟨"t", "b"⟩, CompOp.OP_EQ, true, ⟨"", ""⟩⟩,
       ⟨⟨"t", "c"⟩, CompOp.OP_GT, true, ⟨"", ""⟩⟩]) := by decide

/-! ## Selection properties of `chooseIndex` (claims about index choice)

`bestIndex` is a structurally recursive restatement of the fold inside
`chooseIndex`; the lemmas below characterise the running maximum. -/

def bestIndex (conds : List Condition) :
    List IndexMeta → Nat → Nat × Option Nat → Nat × Option Nat
  | [], _, best => best
  | x :: xs, s, best =>
    bestIndex conds xs (s + 1)
      (if best.1 < matchLen conds x.cols then (matchLen conds x.cols, some s) else best)

lemma chooseIndex_eq_aux (conds : List Condition) :
    ∀ (l : List IndexMeta) (s : Nat) (best : Nat × Option Nat),
      (l.enumFrom s).foldl
        (fun best p =>
          if best.1 < matchLen conds p.2.cols then (matchLen conds p.2.cols, some p.1) else best)
        best = bestIndex conds l s best := by
  intro l
  induction l with
  | nil => intro s best; rfl
  | cons x xs ih => intro s best; simp [List.enumFrom, bestIndex, ih]

lemma chooseIndex_eq (conds : List Condition) (indexes : List IndexMeta) :
    chooseIndex conds indexes = bestIndex conds indexes 0 (0, none) := by
  unfold chooseIndex
  rw [List.enum]
  exact chooseIndex_eq_aux conds indexes 0 (0, none)

lemma bestIndex_fst_le (conds : List Condition) :
    ∀ (l : List IndexMeta) (s : Nat) (best : Nat × Option Nat),
      best.1 ≤ (bestIndex conds l s best).1 := by
  intro l
  induction l with
  | nil => intro s best; exact Nat.le_refl _
  | cons x xs ih =>
    intro s best
    refine Nat.le_trans ?_ (ih (s + 1) _)
    by_cases hupd : best.1 < matchLen conds x.cols
    · rw [if_pos hupd]; omega
    · rw [if_neg hupd]

lemma bestIndex_bound (conds : List Condition) :
    ∀ (l : List IndexMeta) (s : Nat) (best : Nat × Option Nat),
      ∀ x ∈ l, matchLen conds x.cols ≤ (bestIndex conds l s best).1 := by
  intro l
  induction l with
  | nil => intro s best x hx; cases hx
  | cons y ys ih =>
    intro s best x hx
    rcases List.mem_cons.mp hx with h | h
    · subst h
      refine Nat.le_trans ?_ (bestIndex_fst_le conds ys (s + 1) _)
      by_cases hupd : best.1 < matchLen conds x.cols
      · rw [if_pos hupd]
      · rw [if_neg hupd]; omega
    · exact ih (s + 1) _ x h

lemma bestIndex_some_stay (conds : List Condition) :
    ∀ (l : List IndexMeta) (s : Nat) (best : Nat × Option Nat),
      best.2.isSome → (bestIndex conds l s best).2.isSome := by
  intro l
  induction l with
  | nil => intro s best h; exact h
  | cons x xs ih =>
    intro s best h
    apply ih
    split <;> simp_all

lemma bestIndex_none (conds : List Condition) :
    ∀ (l : List IndexMeta) (s : Nat) (best : Nat × Option Nat),
      (bestIndex conds l s best).2 = none → bestIndex conds l s best = best := by
  intro l
  induction l with
  | nil => intro s best _; rfl
  | cons x xs ih =>
    intro s best h
    unfold bestIndex at h ⊢
    by_cases hupd : best.1 < matchLen conds x.cols
    · exfalso
      rw [if_pos hupd] at h
      have := bestIndex_some_stay conds xs (s + 1) (matchLen conds x.cols, some s) (by simp)
      rw [h] at this
      simp at this
    · rw [if_neg hupd] at h ⊢
      exact ih (s + 1) best h

lemma bestIndex_some_char (conds : List Condition) :
    ∀ (l : List IndexMeta) (s : Nat) (best : Nat × Option Nat) (i : Nat),
      (bestIndex conds l s best).2 = some i →
      bestIndex conds l s best = best ∨
      (s ≤ i ∧ ∃ idx, l[i - s]? = some idx
        ∧ matchLen conds idx.cols = (bestIndex conds l s best).1
        ∧ best.1 < (bestIndex conds l s best).1
        ∧ ∀ j jdx, l[j]? = some jdx → j < i - s →
            matchLen conds jdx.cols < (bestIndex conds l s best).1) := by
  intro l
  induction l with
  | nil => intro s best i _; exact Or.inl rfl
  | cons x xs ih =>
    intro s best i h
    unfold bestIndex at h ⊢
    by_cases hupd : best.1 < matchLen conds x.cols
    · rw [if_pos hupd] at h ⊢
      rcases ih (s + 1) (matchLen conds x.cols, some s) i h with heq | ⟨hsi, idx, hget, hlen, hlt, hstrict⟩
      · -- the result is exactly the freshly updated accumulator
        rw [heq] at h ⊢
        simp at h
        subst h
        refine Or.inr ⟨Nat.le_refl _, x, ?_, ?_, ?_, ?_⟩
        · simp
        · simp
        · simpa using hupd
        · intro j jdx _ hj; omega
      · refine Or.inr ⟨by omega, idx, ?_, hlen, ?_, ?_⟩
        · have : i - s = (i - (s + 1)) + 1 := by omega
          rw [this]
          simpa using hget
        · exact Nat.lt_trans hupd (by simpa using hlt)
        · intro j jdx hjget hj
          match j with
          | 0 =>
            simp at hjget
            subst hjget
            simpa using hlt
          | j' + 1 =>
            refine hstrict j' jdx (by simpa using hjget) (by omega)
    · rw [if_neg hupd] at h ⊢
      rcases ih (s + 1) best i h with heq | ⟨hsi, idx, hget, hlen, hlt, hstrict⟩
      · exact Or.inl heq
      · refine Or.inr ⟨by omega, idx, ?_, hlen, hlt, ?_⟩
        · have : i - s = (i - (s + 1)) + 1 := by omega
          rw [this]
          simpa using hget
        · intro j jdx hjget hj
          match j with
          | 0 =>
            simp at hjget
            subst hjget
            omega
          | j' + 1 =>
            refine hstrict j' jdx (by simpa using hjget) (by omega)

lemma get_index_cols_fst_false (tab : TabMeta) (conds : List Condition) :
    (get_index_cols tab conds).1 = false ↔ (chooseIndex conds tab.indexes).2 = none := by
  unfold get_index_cols
  cases h : (chooseIndex conds tab.indexes).2 <;> simp

lemma chooseIndex_none_iff (conds : List Condition) (indexes : List IndexMeta) :
    (chooseIndex conds indexes).2 = none ↔ ∀ idx ∈ indexes, matchLen conds idx.cols = 0 := by
  rw [chooseIndex_eq]
  constructor
  · intro h idx hidx
    have heq := bestIndex_none conds indexes 0 (0, none) h
    have hb := bestIndex_bound conds indexes 0 (0, none) idx hidx
    rw [heq] at hb
    omega
  · intro hall
    cases hsome : (bestIndex conds indexes 0 (0, none)).2 with
    | none => rfl
    | some i =>
      exfalso
      rcases bestIndex_some_char conds indexes 0 (0, none) i hsome with heq | h
      · rw [heq] at hsome; simp at hsome
      · rcases h with ⟨-, idx, hget, hlen, hlt, -⟩
        have hmem : idx ∈ indexes := by
          have h' := List.getElem?_eq_some.mp hget
          rcases h' with ⟨hlt', hval⟩
          exact hval ▸ List.getElem_mem hlt'
        have := hall idx hmem
        omega

/-- C2: index selection scores each index with `matchLen` (walk the key
columns in order: an equality-matched column adds one and continues, a
non-equality-matched column adds one and stops, anything else stops),
reports "no index" exactly when every index scores zero, and otherwise
selects an index of strictly greatest score, ties resolving to the
earliest-declared index. -/
theorem index_selection_max (tab : TabMeta) (conds : List Condition) :
    ((get_index_cols tab conds).1 = false ↔ ∀ idx ∈ tab.indexes, matchLen conds idx.cols = 0)
    ∧ ∀ i, (chooseIndex conds tab.indexes).2 = some i →
        ∃ idx, tab.indexes[i]? = some idx
          ∧ 1 ≤ matchLen conds idx.cols
          ∧ (∀ j jdx, tab.indexes[j]? = some jdx → j < i →
              matchLen conds jdx.cols < matchLen conds idx.cols)
          ∧ (∀ jdx ∈ tab.indexes, matchLen conds jdx.cols ≤ matchLen conds idx.cols) := by
  constructor
  · rw [get_index_cols_fst_false]
    exact chooseIndex_none_iff conds tab.indexes
  · intro i hi
    rw [chooseIndex_eq] at hi
    rcases bestIndex_some_char conds tab.indexes 0 (0, none) i hi with heq | h
    · rw [heq] at hi; simp at hi
    · rcases h with ⟨-, idx, hget, hlen, hlt, hstrict⟩
      simp only [Nat.sub_zero] at hget hstrict
      refine ⟨idx, hget, by omega, ?_, ?_⟩
      · intro j jdx hj hji
        have := hstrict j jdx hj hji
        omega
      · intro jdx hjdx
        have := bestIndex_bound conds tab.indexes 0 (0, none) jdx hjdx
        omega

def tabW : TabMeta := ⟨[], [⟨["z"]⟩, ⟨["a"]⟩]⟩

def condsW : List Condition := [⟨⟨"t", "a"⟩, CompOp.OP_EQ, true, ⟨"", ""⟩⟩]

theorem index_selection_max_witness :
    ∃ idx, tabW.indexes[1]? = some idx
      ∧ 1 ≤ matchLen condsW idx.cols
      ∧ (∀ j jdx, tabW.indexes[j]? = some jdx → j < 1 →
          matchLen condsW jdx.cols < matchLen condsW idx.cols)
      ∧ (∀ jdx ∈ tabW.indexes, matchLen condsW jdx.cols ≤ matchLen condsW idx.cols) :=
  (index_selection_max tabW condsW).2 1 (by decide)

/-- C10: when `get_index_cols` selects no index (returns `false`), the
condition list is returned entirely unchanged and `index_col_names` is
left empty. -/
theorem no_index_frame (tab : TabMeta) (conds : List Condition)
    (h : (get_index_cols tab conds).1 = false) :
    (get_index_cols tab conds).2.2 = conds ∧ (get_index_cols tab conds).2.1 = [] := by
  rw [get_index_cols_fst_false] at h
  unfold get_index_cols
  rw [h]
  exact ⟨rfl, rfl⟩

theorem no_index_frame_witness :
    (get_index_cols ⟨[], []⟩ condsW).2.2 = condsW ∧ (get_index_cols ⟨[], []⟩ condsW).2.1 = [] :=
  no_index_frame ⟨[], []⟩ condsW (by decide)

/-! ## Reordering properties of `get_index_cols` (claim C3) -/

lemma matchLen_take_matched (conds : List Condition) :
    ∀ (cols : List String), ∀ c ∈ cols.take (matchLen conds cols),
      (eqFind conds c).isSome ∨ (neqFind conds c).isSome := by
  intro cols
  induction cols with
  | nil => intro c hc; simp at hc
  | cons x rest ih =>
    intro c hc
    unfold matchLen at hc
    by_cases he : (eqFind conds x).isSome
    · rw [if_pos he, List.take_succ_cons] at hc
      rcases List.mem_cons.mp hc with h | h
      · subst h; exact Or.inl he
      · exact ih c h
    · rw [if_neg he] at hc
      by_cases hn : (neqFind conds x).isSome
      · rw [if_pos hn] at hc
        simp at hc
        subst hc
        exact Or.inr hn
      · rw [if_neg hn] at hc
        simp at hc

lemma lastFold_some (P : Condition → Prop) [DecidablePred P] :
    ∀ (l : List Condition) (s : Nat) (acc : Option Nat) {j : Nat},
      (l.enumFrom s).foldl (fun a p => if P p.2 then some p.1 else a) acc = some j →
      acc = some j ∨ ∃ t cd, l[t]? = some cd ∧ j = s + t ∧ P cd := by
  intro l
  induction l with
  | nil => intro s acc j h; exact Or.inl h
  | cons x xs ih =>
    intro s acc j h
    rw [List.enumFrom_cons, List.foldl_cons] at h
    rcases ih (s + 1) _ h with hacc | ⟨t, cd, hget, hj, hP⟩
    · by_cases hx : P x
      · rw [if_pos hx] at hacc
        refine Or.inr ⟨0, x, by simp, ?_, hx⟩
        cases hacc; omega
      · rw [if_neg hx] at hacc
        exact Or.inl hacc
    · exact Or.inr ⟨t + 1, cd, by simpa using hget, by omega, hP⟩

lemma lastFold_stay (P : Condition → Prop) [DecidablePred P] :
    ∀ (l : List Condition) (s : Nat) (acc : Option Nat), acc.isSome →
      ((l.enumFrom s).foldl (fun a p => if P p.2 then some p.1 else a) acc).isSome := by
  intro l
  induction l with
  | nil => intro s acc h; exact h
  | cons x xs ih =>
    intro s acc h
    rw [List.enumFrom_cons, List.foldl_cons]
    apply ih
    by_cases hx : P x
    · rw [if_pos hx]; rfl
    · rw [if_neg hx]; exact h

lemma lastFold_mem_isSome (P : Condition → Prop) [DecidablePred P] :
    ∀ (l : List Condition) (s : Nat) (acc : Option Nat),
      (∃ cd ∈ l, P cd) →
      ((l.enumFrom s).foldl (fun a p => if P p.2 then some p.1 else a) acc).isSome := by
  intro l
  induction l with
  | nil => intro s acc h; rcases h with ⟨cd, hmem, -⟩; cases hmem
  | cons x xs ih =>
    intro s acc h
    rw [List.enumFrom_cons, List.foldl_cons]
    rcases h with ⟨cd, hmem, hP⟩
    rcases List.mem_cons.mp hmem with heq | hmem'
    · subst heq
      apply lastFold_stay
      rw [if_pos hP]
      rfl
    · exact ih (s + 1) _ ⟨cd, hmem', hP⟩

lemma eqFind_spec (conds : List Condition) (c : String) {j : Nat}
    (h : eqFind conds c = some j) :
    ∃ cd, conds[j]? = some cd ∧ cd.op = CompOp.OP_EQ ∧ cd.lhs_col.col_name = c := by
  unfold eqFind at h
  rw [List.enum] at h
  rcases lastFold_some (fun cd => cd.op = CompOp.OP_EQ ∧ cd.lhs_col.col_name = c)
      conds 0 none h with hacc | ⟨t, cd, hget, hj, hP⟩
  · cases hacc
  · exact ⟨cd, by simpa [hj] using hget, hP⟩

lemma neqFind_spec (conds : List Condition) (c : String) {j : Nat}
    (h : neqFind conds c = some j) :
    ∃ cd, conds[j]? = some cd ∧ ¬cd.op = CompOp.OP_EQ ∧ cd.lhs_col.col_name = c := by
  unfold neqFind at h
  rw [List.enum] at h
  rcases lastFold_some (fun cd => ¬cd.op = CompOp.OP_EQ ∧ cd.lhs_col.col_name = c)
      conds 0 none h with hacc | ⟨t, cd, hget, hj, hP⟩
  · cases hacc
  · exact ⟨cd, by simpa [hj] using hget, hP⟩

lemma eqFind_isSome_of (conds : List Condition) {cd0 : Condition}
    (hmem : cd0 ∈ conds) (hop : cd0.op = CompOp.OP_EQ) :
    (eqFind conds cd0.lhs_col.col_name).isSome := by
  unfold eqFind
  rw [List.enum]
  exact lastFold_mem_isSome (fun cd => cd.op = CompOp.OP_EQ ∧ cd.lhs_col.col_name = cd0.lhs_col.col_name) conds 0 none ⟨cd0, hmem, hop, rfl⟩

lemma neqFind_isSome_of (conds : List Condition) {cd0 : Condition}
    (hmem : cd0 ∈ conds) (hop : ¬cd0.op = CompOp.OP_EQ) :
    (neqFind conds cd0.lhs_col.col_name).isSome := by
  unfold neqFind
  rw [List.enum]
  exact lastFold_mem_isSome (fun cd => ¬cd.op = CompOp.OP_EQ ∧ cd.lhs_col.col_name = cd0.lhs_col.col_name) conds 0 none ⟨cd0, hmem, hop, rfl⟩

/-- The combined lookup performed for one matched key column: the
equality map first, then the non-equality map. -/
def condPos (conds : List Condition) (c : String) : Option Nat :=
  match eqFind conds c with
  | some j => some j
  | none => neqFind conds c

lemma condPos_spec (conds : List Condition) (c : String) {j : Nat}
    (h : condPos conds c = some j) :
    ∃ cd, conds[j]? = some cd ∧ cd.lhs_col.col_name = c := by
  unfold condPos at h
  cases he : eqFind conds c with
  | some j' =>
    rw [he] at h
    cases h
    rcases eqFind_spec conds c he with ⟨cd, hget, -, hname⟩
    exact ⟨cd, hget, hname⟩
  | none =>
    rw [he] at h
    rcases neqFind_spec conds c h with ⟨cd, hget, -, hname⟩
    exact ⟨cd, hget, hname⟩

lemma condPos_isSome (conds : List Condition) (c : String)
    (h : (eqFind conds c).isSome ∨ (neqFind conds c).isSome) :
    (condPos conds c).isSome := by
  unfold condPos
  cases he : eqFind conds c with
  | some j => rfl
  | none =>
    rcases h with h | h
    · rw [he] at h; cases h
    · exact h

lemma matchedStep (conds : List Condition) (c : String) (acc : List Nat) :
    (match eqFind conds c with
      | some j => acc ++ [j]
      | none =>
        match neqFind conds c with
        | some j => acc ++ [j]
        | none => acc) = acc ++ (condPos conds c).toList := by
  unfold condPos
  cases eqFind conds c with
  | some j => rfl
  | none =>
    cases neqFind conds c with
    | some j => rfl
    | none => simp

lemma matchedIdxs_aux (conds : List Condition) :
    ∀ (cols : List String) (acc : List Nat),
      cols.foldl
        (fun acc c =>
          match eqFind conds c with
          | some j => acc ++ [j]
          | none =>
            match neqFind conds c with
            | some j => acc ++ [j]
            | none => acc)
        acc = acc ++ cols.filterMap (condPos conds) := by
  intro cols
  induction cols with
  | nil => intro acc; simp
  | cons c cs ih =>
    intro acc
    rw [List.foldl_cons]
    rw [show ∀ x : List Nat, List.foldl _ x cs = x ++ cs.filterMap (condPos conds) from fun x => ih x]
    rw [matchedStep conds c acc, List.filterMap_cons]
    cases condPos conds c with
    | some j => simp
    | none => simp

lemma matchedIdxs_eq (conds : List Condition) (cols : List String) :
    matchedIdxs conds cols = cols.filterMap (condPos conds) := by
  unfold matchedIdxs
  rw [matchedIdxs_aux]
  simp

lemma matchedConds_shape (conds : List Condition) :
    ∀ (cols' : List String),
      (∀ c ∈ cols', (eqFind conds c).isSome ∨ (neqFind conds c).isSome) →
      ((cols'.filterMap fun c => (condPos conds c).bind fun j => conds[j]?).map
          (fun cd => cd.lhs_col.col_name) = cols')
      ∧ ∀ cd ∈ cols'.filterMap fun c => (condPos conds c).bind fun j => conds[j]?, cd ∈ conds := by
  intro cols'
  induction cols' with
  | nil => intro _; exact ⟨rfl, by intro cd h; cases h⟩
  | cons c cs ih =>
    intro hA
    have hsome := condPos_isSome conds c (hA c (List.mem_cons_self c cs))
    rcases Option.isSome_iff_exists.mp hsome with ⟨j, hj⟩
    rcases condPos_spec conds c hj with ⟨cd, hget, hname⟩
    have ihr := ih (fun c' hc' => hA c' (List.mem_cons_of_mem c hc'))
    rw [List.filterMap_cons]
    rw [hj]
    simp only [Option.some_bind]
    rw [hget]
    constructor
    · rw [List.map_cons, ihr.1, hname]
    · intro cd' hcd'
      rcases List.mem_cons.mp hcd' with h | h
      · subst h
        rcases List.getElem?_eq_some.mp hget with ⟨hl, hv⟩
        exact hv ▸ List.getElem_mem hl
      · exact ihr.2 cd' h

lemma condPos_valid (conds : List Condition) (c : String) {j : Nat}
    (h : condPos conds c = some j) : j < conds.length := by
  rcases condPos_spec conds c h with ⟨cd, hget, -⟩
  exact (List.getElem?_eq_some.mp hget).1

/-- Positions resolved for pairwise-distinct column names are pairwise
distinct: a position determines its condition's column name. -/
lemma posList_nodup (conds : List Condition) (cols2 : List String) (hnd : cols2.Nodup) :
    (cols2.filterMap (condPos conds)).Nodup := by
  refine List.Nodup.filterMap ?_ hnd
  intro c c2 j hj hj2
  rcases condPos_spec conds c (Option.mem_def.mp hj) with ⟨cd, hget, hname⟩
  rcases condPos_spec conds c2 (Option.mem_def.mp hj2) with ⟨cd2, hget2, hname2⟩
  rw [hget] at hget2
  cases hget2
  rw [← hname, ← hname2]

lemma map_fst_filterMap_get (conds : List Condition) :
    ∀ l2 : List (Nat × Condition), (∀ q ∈ l2, conds[q.1]? = some q.2) →
      (l2.map (fun q => q.1)).filterMap (fun j => conds[j]?) = l2.map (fun q => q.2) := by
  intro l2
  induction l2 with
  | nil => intro _; rfl
  | cons q qs ih =>
    intro h
    rw [List.map_cons, List.map_cons, List.filterMap_cons,
      h q (List.mem_cons_self q qs),
      ih (fun q2 hq2 => h q2 (List.mem_cons_of_mem q hq2))]

/-- Reading a duplicate-free list of positions out of `conds` gives the
same conditions, up to order, as filtering `conds.enum` to those
positions (which keeps the original relative order). -/
lemma posImage_perm (conds : List Condition) (P : List Nat) (hnd : P.Nodup)
    (hval : ∀ p ∈ P, p < conds.length) :
    List.Perm (P.filterMap (fun j => conds[j]?))
      ((conds.enum.filter (fun q => P.contains q.1)).map (fun q => q.2)) := by
  have hvalid : ∀ q ∈ conds.enum.filter (fun q => P.contains q.1),
      conds[q.1]? = some q.2 := by
    rintro ⟨t, a⟩ hq
    exact List.mem_enum_iff_getElem?.mp (List.mem_of_mem_filter hq)
  have hQnd : ((conds.enum.filter (fun q => P.contains q.1)).map (fun q => q.1)).Nodup := by
    have hsub : ((conds.enum.filter (fun q => P.contains q.1)).map (fun q => q.1)).Sublist
        (conds.enum.map (fun q => q.1)) :=
      (List.filter_sublist conds.enum).map _
    have hrange : conds.enum.map (fun q => q.1) = List.range conds.length := by
      simpa using List.enum_map_fst conds
    rw [hrange] at hsub
    exact hsub.nodup (List.nodup_range conds.length)
  have hmemQ : ∀ p : Nat,
      p ∈ (conds.enum.filter (fun q => P.contains q.1)).map (fun q => q.1) ↔ p ∈ P := by
    intro p
    constructor
    · intro hp
      rcases List.mem_map.mp hp with ⟨q, hq, hq1⟩
      have hc := List.of_mem_filter hq
      rw [hq1] at hc
      simpa [List.contains, List.elem_eq_mem] using hc
    · intro hp
      have hvp := hval p hp
      refine List.mem_map.mpr ⟨(p, conds[p]), ?_, rfl⟩
      refine List.mem_filter.mpr ⟨?_, ?_⟩
      · exact List.mem_enum_iff_getElem?.mpr (List.getElem?_eq_getElem hvp)
      · simpa [List.contains, List.elem_eq_mem] using hp
  have hPQ : List.Perm P ((conds.enum.filter (fun q => P.contains q.1)).map (fun q => q.1)) := by
    apply List.perm_of_nodup_nodup_toFinset_eq hnd hQnd
    ext p
    simp only [List.mem_toFinset]
    exact (hmemQ p).symm
  have h1 := hPQ.filterMap (fun j => conds[j]?)
  rw [map_fst_filterMap_get conds _ hvalid] at h1
  exact h1

lemma chooseIndex_fst_eq (conds : List Condition) (indexes : List IndexMeta)
    {i : Nat} {idx : IndexMeta}
    (hch : (chooseIndex conds indexes).2 = some i) (hidx : indexes[i]? = some idx) :
    (chooseIndex conds indexes).1 = matchLen conds idx.cols := by
  rw [chooseIndex_eq] at hch ⊢
  rcases bestIndex_some_char conds indexes 0 (0, none) i hch with heq | h
  · rw [heq] at hch; cases hch
  · rcases h with ⟨-, idx', hget, hlen, -, -⟩
    simp only [Nat.sub_zero] at hget
    rw [hidx] at hget
    cases hget
    exact hlen.symm

/-- C3: whenever an index is selected, the emitted `index_col_names` is
the full ordered column list of the chosen index (not only the matched
prefix), and the condition list is reordered into the conditions matching
the scored prefix — one per matched key column, in index-key order (the
equality map wins a column that carries both an equality and another
condition) — followed by the remaining conditions, a sublist of the
original list (hence in their original relative order); every original
condition still appears.  When the matched key columns are pairwise
distinct (any well-formed index), the reordered list is a permutation of
the original.  No distinctness of the conditions' column names is
assumed: repeated columns such as `a = 1 AND a > 2` are covered. -/
theorem index_cols_and_reorder (tab : TabMeta) (conds : List Condition)
    (i : Nat) (idx : IndexMeta)
    (hch : (chooseIndex conds tab.indexes).2 = some i)
    (hidx : tab.indexes[i]? = some idx) :
    (get_index_cols tab conds).1 = true
    ∧ (get_index_cols tab conds).2.1 = idx.cols
    ∧ ∃ matchedConds rest,
        (get_index_cols tab conds).2.2 = matchedConds ++ rest
        ∧ matchedConds.map (fun cd => cd.lhs_col.col_name)
            = idx.cols.take (matchLen conds idx.cols)
        ∧ (∀ cd ∈ matchedConds, cd ∈ conds)
        ∧ rest.Sublist conds
        ∧ (∀ cd ∈ conds, cd ∈ (get_index_cols tab conds).2.2)
        ∧ ((idx.cols.take (matchLen conds idx.cols)).Nodup →
            List.Perm (get_index_cols tab conds).2.2 conds) := by
  have hgetD : tab.indexes.getD i ⟨[]⟩ = idx := by
    rw [List.getD_eq_getElem?_getD, hidx]
    rfl
  have hlen : (chooseIndex conds tab.indexes).1 = matchLen conds idx.cols :=
    chooseIndex_fst_eq conds tab.indexes hch hidx
  have hunfold : get_index_cols tab conds
      = (true, idx.cols,
          (matchedIdxs conds (idx.cols.take (matchLen conds idx.cols))).filterMap
              (fun j => conds.get? j)
            ++ (conds.enum.filter
                  (fun p =>
                    ¬(matchedIdxs conds (idx.cols.take (matchLen conds idx.cols))).contains
                        p.1)).map (·.2)) := by
    simp only [get_index_cols, hch, hgetD, hlen]
  have hA : ∀ c ∈ idx.cols.take (matchLen conds idx.cols),
      (eqFind conds c).isSome ∨ (neqFind conds c).isSome :=
    matchLen_take_matched conds idx.cols
  have hmix : matchedIdxs conds (idx.cols.take (matchLen conds idx.cols))
      = (idx.cols.take (matchLen conds idx.cols)).filterMap (condPos conds) :=
    matchedIdxs_eq conds _
  have hshape := matchedConds_shape conds (idx.cols.take (matchLen conds idx.cols)) hA
  have hmc : (matchedIdxs conds (idx.cols.take (matchLen conds idx.cols))).filterMap
      (fun j => conds.get? j)
      = (idx.cols.take (matchLen conds idx.cols)).filterMap
          fun c => (condPos conds c).bind fun j => conds[j]? := by
    rw [hmix]
    simp only [List.get?_eq_getElem?]
    exact List.filterMap_filterMap _ _ _
  rw [hunfold]
  refine ⟨rfl, rfl, ?_⟩
  refine ⟨(idx.cols.take (matchLen conds idx.cols)).filterMap
      (fun c => (condPos conds c).bind fun j => conds[j]?),
    (conds.enum.filter
      (fun p => ¬(matchedIdxs conds (idx.cols.take (matchLen conds idx.cols))).contains
        p.1)).map (·.2),
    ?_, hshape.1, hshape.2, ?_, ?_, ?_⟩
  · simp only
    rw [hmc]
  · have hsub : ((conds.enum.filter
        (fun p => ¬(matchedIdxs conds (idx.cols.take (matchLen conds idx.cols))).contains
          p.1)).map (·.2)).Sublist (conds.enum.map (·.2)) :=
      (List.filter_sublist conds.enum).map _
    have henum : conds.enum.map (·.2) = conds := by
      simpa using List.enum_map_snd conds
    rw [henum] at hsub
    exact hsub
  · intro cd hmem
    rcases List.getElem?_of_mem hmem with ⟨t, ht⟩
    simp only
    by_cases hc :
        (matchedIdxs conds (idx.cols.take (matchLen conds idx.cols))).contains t = true
    · apply List.mem_append_left
      rw [hmc]
      have ht2 : t ∈ (idx.cols.take (matchLen conds idx.cols)).filterMap (condPos conds) := by
        rw [← hmix]
        simpa [List.contains, List.elem_eq_mem] using hc
      rcases List.mem_filterMap.mp ht2 with ⟨c, hcmem, hcpos⟩
      refine List.mem_filterMap.mpr ⟨c, hcmem, ?_⟩
      rw [hcpos, Option.some_bind, ht]
    · apply List.mem_append_right
      refine List.mem_map.mpr ⟨(t, cd), ?_, rfl⟩
      refine List.mem_filter.mpr ⟨List.mem_enum_iff_getElem?.mpr ht, ?_⟩
      simpa using hc
  · intro hpre
    simp only
    rw [hmc]
    have hM : (idx.cols.take (matchLen conds idx.cols)).filterMap
        (fun c => (condPos conds c).bind fun j => conds[j]?)
        = (matchedIdxs conds (idx.cols.take (matchLen conds idx.cols))).filterMap
            (fun j => conds[j]?) := by
      rw [hmix]
      exact (List.filterMap_filterMap _ _ _).symm
    rw [hM]
    have hPnd : (matchedIdxs conds (idx.cols.take (matchLen conds idx.cols))).Nodup := by
      rw [hmix]
      exact posList_nodup conds _ hpre
    have hval : ∀ p ∈ matchedIdxs conds (idx.cols.take (matchLen conds idx.cols)),
        p < conds.length := by
      rw [hmix]
      intro p hp
      rcases List.mem_filterMap.mp hp with ⟨c, -, hpos⟩
      exact condPos_valid conds c hpos
    have himg := posImage_perm conds
      (matchedIdxs conds (idx.cols.take (matchLen conds idx.cols))) hPnd hval
    have hfc : conds.enum.filter
          (fun q => ¬(matchedIdxs conds (idx.cols.take (matchLen conds idx.cols))).contains
            q.1)
        = conds.enum.filter
            (fun q => !((matchedIdxs conds (idx.cols.take (matchLen conds idx.cols))).contains
              q.1)) := by
      apply List.filter_congr
      intro x _
      by_cases hx :
          (matchedIdxs conds (idx.cols.take (matchLen conds idx.cols))).contains x.1
      · simp [hx]
      · simp [hx]
    rw [hfc]
    have hsplit := List.filter_append_perm
        (fun q => (matchedIdxs conds (idx.cols.take (matchLen conds idx.cols))).contains q.1)
        conds.enum
    have hsplit2 := hsplit.map (·.2)
    rw [List.map_append] at hsplit2
    have henum : conds.enum.map (·.2) = conds := by
      simpa using List.enum_map_snd conds
    rw [henum] at hsplit2
    exact (himg.append_right _).trans hsplit2

def tabS3 : TabMeta := ⟨[], [⟨["a", "b", "c"]⟩]⟩

def condsS3 : List Condition :=
  [⟨⟨"t", "b"⟩, CompOp.OP_EQ, true, ⟨"", ""⟩⟩,
   ⟨⟨"t", "a"⟩, CompOp.OP_EQ, true, ⟨"", ""⟩⟩,
   ⟨⟨"t", "c"⟩, CompOp.OP_GT, true, ⟨"", ""⟩⟩]

/-- A table with a two-column index `(a, b)` and two conditions on the
same column: `a = 1 AND a > 2` (repeated condition columns). -/
def tabC3r : TabMeta := ⟨[], [⟨["a", "b"]⟩]⟩

def condsC3r : List Condition :=
  [⟨⟨"t", "a"⟩, CompOp.OP_EQ, true, ⟨"", ""⟩⟩,
   ⟨⟨"t", "a"⟩, CompOp.OP_GT, true, ⟨"", ""⟩⟩]

theorem index_cols_and_reorder_witness :
    ((get_index_cols tabS3 condsS3).1 = true
      ∧ (get_index_cols tabS3 condsS3).2.1 = (⟨["a", "b", "c"]⟩ : IndexMeta).cols
      ∧ ∃ matchedConds rest,
          (get_index_cols tabS3 condsS3).2.2 = matchedConds ++ rest
          ∧ matchedConds.map (fun cd => cd.lhs_col.col_name)
              = (⟨["a", "b", "c"]⟩ : IndexMeta).cols.take
                  (matchLen condsS3 (⟨["a", "b", "c"]⟩ : IndexMeta).cols)
          ∧ (∀ cd ∈ matchedConds, cd ∈ condsS3)
          ∧ rest.Sublist condsS3
          ∧ (∀ cd ∈ condsS3, cd ∈ (get_index_cols tabS3 condsS3).2.2)
          ∧ (((⟨["a", "b", "c"]⟩ : IndexMeta).cols.take
                (matchLen condsS3 (⟨["a", "b", "c"]⟩ : IndexMeta).cols)).Nodup →
              List.Perm (get_index_cols tabS3 condsS3).2.2 condsS3))
    ∧ ((get_index_cols tabC3r condsC3r).1 = true
      ∧ (get_index_cols tabC3r condsC3r).2.1 = (⟨["a", "b"]⟩ : IndexMeta).cols
      ∧ ∃ matchedConds rest,
          (get_index_cols tabC3r condsC3r).2.2 = matchedConds ++ rest
          ∧ matchedConds.map (fun cd => cd.lhs_col.col_name)
              = (⟨["a", "b"]⟩ : IndexMeta).cols.take
                  (matchLen condsC3r (⟨["a", "b"]⟩ : IndexMeta).cols)
          ∧ (∀ cd ∈ matchedConds, cd ∈ condsC3r)
          ∧ rest.Sublist condsC3r
          ∧ (∀ cd ∈ condsC3r, cd ∈ (get_index_cols tabC3r condsC3r).2.2)
          ∧ (((⟨["a", "b"]⟩ : IndexMeta).cols.take
                (matchLen condsC3r (⟨["a", "b"]⟩ : IndexMeta).cols)).Nodup →
              List.Perm (get_index_cols tabC3r condsC3r).2.2 condsC3r)) :=
  ⟨index_cols_and_reorder tabS3 condsS3 0 ⟨["a", "b", "c"]⟩ (by decide) (by decide),
   index_cols_and_reorder tabC3r condsC3r 0 ⟨["a", "b"]⟩ (by decide) (by decide)⟩

/-- On the repeated-column input `a = 1 AND a > 2` with index `(a, b)`,
the planner returns the full index columns and keeps both conditions,
the matched equality first. -/
example :
    get_index_cols tabC3r condsC3r
      = (true, ["a", "b"],
        [⟨⟨"t", "a"⟩, CompOp.OP_EQ, true, ⟨"", ""⟩⟩,
         ⟨⟨"t", "a"⟩, CompOp.OP_GT, true, ⟨"", ""⟩⟩]) := by decide

/-! ## Plan trees and the join planner (`make_one_rel`) -/

/-- The plan-node tags used by the verified planner paths. -/
inductive PlanType where
  | T_SeqScan | T_IndexScan | T_NestLoop | T_SortMerge | T_SortMergeWithIndex | T_Sort
deriving DecidableEq, Repr

/-- Plan nodes reachable from `make_one_rel` / `generate_sort_plan`:
`ScanPlan`, `JoinPlan`, `SortPlan`; `null` models a `nullptr`
`shared_ptr<Plan>` (e.g. a failed `pop_scan`). -/
inductive Plan where
  | scan (ptype : PlanType) (tab : String) (conds : List Condition)
      (index_col_names : List String)
  | join (ptype : PlanType) (left right : Plan) (conds : List Condition)
  | sort (subplan : Plan) (sel_col : TabCol) (is_desc : Bool)
  | null
deriving DecidableEq, Repr

/-- The removal test of `pop_conds`: a condition leaves the list when its
left column is on `tab_names` with a literal right-hand side, or when its
two column sides name the same table (whichever table that is). -/
def popCondTest (tab_names : String) (cd : Condition) : Bool :=
  (tab_names == cd.lhs_col.tab_name && cd.is_rhs_val)
    || (cd.lhs_col.tab_name == cd.rhs_col.tab_name)

/-- `pop_conds` (planner.cpp): returns `(solved_conds, remaining conds)`;
the source erases matching conditions in place while iterating, which
preserves the relative order of both sublists. -/
def pop_conds (conds : List Condition) (tab_names : String) :
    List Condition × List Condition :=
  (conds.filter (popCondTest tab_names), conds.filter (fun cd => !popCondTest tab_names cd))

/-- The `swap_op` map of `push_conds`. -/
def swap_op : CompOp → CompOp
  | CompOp.OP_EQ => CompOp.OP_EQ
  | CompOp.OP_NE => CompOp.OP_NE
  | CompOp.OP_LT => CompOp.OP_GT
  | CompOp.OP_GT => CompOp.OP_LT
  | CompOp.OP_LE => CompOp.OP_GE
  | CompOp.OP_GE => CompOp.OP_LE

/-- Condition reversal in `push_conds` and the second join loop:
`std::swap(lhs_col, rhs_col)` followed by `op = swap_op.at(op)`. -/
def swapCond (cd : Condition) : Condition :=
  ⟨cd.rhs_col, swap_op cd.op, cd.is_rhs_val, cd.lhs_col⟩

/-- The first-join reversal swaps only the two column sides (the source
uses `std::swap(it->lhs_col, it->rhs_col)` without touching `op`). -/
def swapSides (cd : Condition) : Condition :=
  ⟨cd.rhs_col, cd.op, cd.is_rhs_val, cd.lhs_col⟩

/-- `push_conds` (planner.cpp): returns the `int` result together with
the plan (mutated in place in the source when the condition is attached).
A `ScanPlan` answers 1/2/0 for a left/right/no table match; a `JoinPlan`
tries the left child, then the right, then attaches locally, swapping the
condition when the left child matched its right-hand side; any other node
falls through to `return false` (0). -/
def push_conds (cd : Condition) : Plan → Nat × Plan
  | Plan.scan pt tab cs ics =>
    if tab == cd.lhs_col.tab_name then (1, Plan.scan pt tab cs ics)
    else if tab == cd.rhs_col.tab_name then (2, Plan.scan pt tab cs ics)
    else (0, Plan.scan pt tab cs ics)
  | Plan.join pt l r cs =>
    let lres := push_conds cd l
    if lres.1 == 3 then (3, Plan.join pt lres.2 r cs)
    else
      let rres := push_conds cd r
      if rres.1 == 3 then (3, Plan.join pt lres.2 rres.2 cs)
      else if lres.1 == 0 || rres.1 == 0 then (lres.1 + rres.1, Plan.join pt lres.2 rres.2 cs)
      else
        let cd' := if lres.1 == 2 then swapCond cd else cd
        (3, Plan.join pt lres.2 rres.2 (cs ++ [cd']))
  | p => (0, p)

/-- `pop_scan`: find the first ScanPlan of `table` among `plans`, mark its
scanned flag, record the table as joined, and return its position (`none`
for the `nullptr` fallthrough).  The source hands back the `shared_ptr`
itself; distinct vector entries are distinct allocations, so the pointer
identity the caller later tests is exactly position identity. -/
def pop_scan (scantbl : List Int) (table : String) (joined_tables : List String)
    (plans : List Plan) : Option Nat × List Int × List String :=
  match plans.enum.find? (fun p =>
    match p.2 with
    | Plan.scan _ tab _ _ => tab == table
    | _ => false) with
  | some (i, _) => (some i, scantbl.set i 1, joined_tables ++ [table])
  | none => (none, scantbl, joined_tables)

/-- The per-table loop at the top of `make_one_rel`: extract the
table-local conditions with `pop_conds`, try `get_index_cols`, and build
an IndexScan or a SeqScan accordingly. -/
def buildScans (db : String → TabMeta) (tables : List String) (conds0 : List Condition) :
    List Plan × List Condition :=
  tables.foldl
    (fun acc t =>
      let pc := pop_conds acc.2 t
      let gic := get_index_cols (db t) pc.1
      let p :=
        if gic.1 then Plan.scan PlanType.T_IndexScan t gic.2.2 gic.2.1
        else Plan.scan PlanType.T_SeqScan t gic.2.2 []
      (acc.1 ++ [p], pc.2))
    ([], conds0)

/-- The first-join step of `make_one_rel`: pop the two scans named by the
condition, reverse them (and the condition's sides) when they are exactly
the scans of `tables[1]` and `tables[0]`, and build the join whose kind
the two feature flags select; `none` models the `RMDBError` throw. -/
def firstJoin (db : String → TabMeta)
    (enable_nestedloop_join enable_sortmerge_join : Bool)
    (scans : List Plan) (cd : Condition)
    (scantbl : List Int) (joined : List String) :
    Option (Plan × List Int × List String) :=
  let lpop := pop_scan scantbl cd.lhs_col.tab_name joined scans
  let rpop := pop_scan lpop.2.1 cd.rhs_col.tab_name lpop.2.2 scans
  let swapped := lpop.1 == some 1 && rpop.1 == some 0
  let li := if swapped then rpop.1 else lpop.1
  let ri := if swapped then lpop.1 else rpop.1
  let cd1 := if swapped then swapSides cd else cd
  let leftPlan := match li with | some i => scans.getD i Plan.null | none => Plan.null
  let rightPlan := match ri with | some i => scans.getD i Plan.null | none => Plan.null
  if enable_nestedloop_join then
    some (Plan.join PlanType.T_NestLoop leftPlan rightPlan [cd1], rpop.2.1, rpop.2.2)
  else if enable_sortmerge_join then
    let lgic := get_index_cols (db cd1.lhs_col.tab_name) [cd1]
    let rgic := get_index_cols (db cd1.rhs_col.tab_name) [cd1]
    if lgic.1 && rgic.1 then
      some (Plan.join PlanType.T_SortMergeWithIndex
        (Plan.scan PlanType.T_IndexScan cd1.lhs_col.tab_name [] lgic.2.1)
        (Plan.scan PlanType.T_IndexScan cd1.rhs_col.tab_name [] rgic.2.1)
        [cd1], rpop.2.1, rpop.2.2)
    else
      some (Plan.join PlanType.T_SortMerge leftPlan rightPlan [cd1], rpop.2.1, rpop.2.2)
  else none

/-- One iteration of the second join loop of `make_one_rel`: pop a scan
for each still-unjoined side, then join the fresh scan(s) in, reversing
the condition when its right side was the popped one, or push the
condition down when both sides are already joined. -/
def joinStep (scans : List Plan) (st : Plan × List Int × List String) (cd : Condition) :
    Plan × List Int × List String :=
  let tree := st.1
  let lpop :=
    if ¬st.2.2.contains cd.lhs_col.tab_name
    then pop_scan st.2.1 cd.lhs_col.tab_name st.2.2 scans
    else (none, st.2.1, st.2.2)
  let isrev := ¬lpop.2.2.contains cd.rhs_col.tab_name
  let rpop :=
    if isrev
    then pop_scan lpop.2.1 cd.rhs_col.tab_name lpop.2.2 scans
    else (none, lpop.2.1, lpop.2.2)
  let scantbl2 := rpop.2.1
  let joined2 := rpop.2.2
  if lpop.1.isSome && rpop.1.isSome then
    let bottom := Plan.join PlanType.T_NestLoop
      (match lpop.1 with | some i => scans.getD i Plan.null | none => Plan.null)
      (match rpop.1 with | some i => scans.getD i Plan.null | none => Plan.null) [cd]
    (Plan.join PlanType.T_NestLoop bottom tree [], scantbl2, joined2)
  else if lpop.1.isSome || rpop.1.isSome then
    let pick := if isrev then (swapCond cd, rpop.1) else (cd, lpop.1)
    let leftPlan := match pick.2 with | some i => scans.getD i Plan.null | none => Plan.null
    (Plan.join PlanType.T_NestLoop leftPlan tree [pick.1], scantbl2, joined2)
  else
    ((push_conds cd tree).2, scantbl2, joined2)

/-- `Planner::make_one_rel`: build the scans, return the single scan for
one-table queries, otherwise build the first join from the first surviving
condition (none surviving: the first scan), fold the remaining conditions
through the second join loop, and finally cross-join every still-unscanned
table.  `none` models the `RMDBError` throw when no join executor is
enabled. -/
def make_one_rel (db : String → TabMeta)
    (enable_nestedloop_join enable_sortmerge_join : Bool)
    (tables : List String) (conds0 : List Condition) : Option Plan :=
  let bs := buildScans db tables conds0
  let scans := bs.1
  let conds := bs.2
  if tables.length == 1 then some (scans.getD 0 Plan.null)
  else
    let res : Option (Plan × List Int) :=
      match conds with
      | cd :: rest =>
        match firstJoin db enable_nestedloop_join enable_sortmerge_join scans cd
            (List.replicate tables.length (-1)) (List.replicate tables.length "") with
        | none => none
        | some st1 =>
          let st2 := rest.foldl (joinStep scans) st1
          some (st2.1, st2.2.1)
      | [] =>
        some (scans.getD 0 Plan.null, (List.replicate tables.length (-1 : Int)).set 0 1)
    match res with
    | none => none
    | some (tree, scantbl) =>
      some ((List.range tables.length).foldl
        (fun acc i =>
          if scantbl.getD i 0 == -1
          then Plan.join PlanType.T_NestLoop (scans.getD i Plan.null) acc []
          else acc)
        tree)

/-- `Planner::generate_sort_plan`: without ORDER BY the plan passes
through; otherwise the columns of every selected table are scanned in
order and every name match overwrites `sel_col` (so the last match wins;
`sel_col` starts default-constructed with empty strings), and the plan is
wrapped in a SortPlan. -/
def generate_sort_plan (db : String → TabMeta) (tables : List String)
    (has_sort : Bool) (order_col : String) (is_desc : Bool) (plan : Plan) : Plan :=
  if !has_sort then plan
  else
    let all_cols := tables.foldl (fun acc t => acc ++ (db t).cols) []
    let sel_col := all_cols.foldl
      (fun acc col => if col.name == order_col then (⟨col.tab_name, col.name⟩ : TabCol) else acc)
      (⟨"", ""⟩ : TabCol)
    Plan.sort plan sel_col is_desc

/-! ## Invariants of the emitted plan trees (claims C4, C5, C6) -/

/-- The tables reachable through a plan subtree. -/
def tablesOf : Plan → List String
  | Plan.scan _ tab _ _ => [tab]
  | Plan.join _ l r _ => tablesOf l ++ tablesOf r
  | Plan.sort p _ _ => tablesOf p
  | Plan.null => []

/-- The spec §6 JoinPlan normalization invariant: every condition on every
JoinPlan has its left column's table inside the left subtree. -/
def joinLhsOk : Plan → Prop
  | Plan.join _ l r cs =>
    (∀ cd ∈ cs, cd.lhs_col.tab_name ∈ tablesOf l) ∧ joinLhsOk l ∧ joinLhsOk r
  | Plan.sort p _ _ => joinLhsOk p
  | _ => True

/-- The spec §3 ScanPlan invariant exactly as claimed: every condition on
a ScanPlan references only that scan's table (left column always, right
column when it is not a literal). -/
def scanCondsLocal : Plan → Bool
  | Plan.scan _ tab cs _ =>
    cs.all (fun cd =>
      cd.lhs_col.tab_name == tab && (cd.is_rhs_val || cd.rhs_col.tab_name == tab))
  | Plan.join _ l r _ => scanCondsLocal l && scanCondsLocal r
  | Plan.sort p _ _ => scanCondsLocal p
  | Plan.null => true

/-- What actually holds of ScanPlan conditions: each one passes
`popCondTest` for the scan's table — a local literal comparison, or a
column-column comparison whose both sides name one (arbitrary) table. -/
def scanCondsWeak : Plan → Bool
  | Plan.scan _ tab cs _ => cs.all (popCondTest tab)
  | Plan.join _ l r _ => scanCondsWeak l && scanCondsWeak r
  | Plan.sort p _ _ => scanCondsWeak p
  | Plan.null => true

lemma push_conds_code_cases (cd : Condition) :
    ∀ p : Plan, (push_conds cd p).1 = 0 ∨ (push_conds cd p).1 = 1
      ∨ (push_conds cd p).1 = 2 ∨ (push_conds cd p).1 = 3 := by
  intro p
  induction p with
  | scan pt tab cs ics =>
    unfold push_conds
    by_cases h1 : tab == cd.lhs_col.tab_name
    · rw [if_pos h1]; right; left; rfl
    · rw [if_neg h1]
      by_cases h2 : tab == cd.rhs_col.tab_name
      · rw [if_pos h2]; right; right; left; rfl
      · rw [if_neg h2]; left; rfl
  | join pt l r cs ihl ihr =>
    unfold push_conds
    simp only
    by_cases h1 : (push_conds cd l).1 == 3
    · rw [if_pos h1]; right; right; right; rfl
    · rw [if_neg h1]
      by_cases h2 : (push_conds cd r).1 == 3
      · rw [if_pos h2]; right; right; right; rfl
      · rw [if_neg h2]
        by_cases h3 : (push_conds cd l).1 == 0 || (push_conds cd r).1 == 0
        · rw [if_pos h3]
          simp only [beq_iff_eq] at h1 h2 h3
          rcases Bool.or_eq_true_iff.mp h3 with h | h <;>
            simp only [beq_iff_eq] at h <;> rcases ihl with a | a | a | a <;>
            rcases ihr with b | b | b | b <;> omega
        · rw [if_neg h3]; right; right; right; rfl
  | sort sub c d ih => left; rfl
  | null => left; rfl

lemma push_conds_frame (cd : Condition) :
    ∀ p : Plan, (push_conds cd p).1 ≠ 3 → (push_conds cd p).2 = p := by
  intro p
  induction p with
  | scan pt tab cs ics =>
    intro _
    unfold push_conds
    by_cases h1 : tab == cd.lhs_col.tab_name
    · rw [if_pos h1]
    · rw [if_neg h1]
      by_cases h2 : tab == cd.rhs_col.tab_name
      · rw [if_pos h2]
      · rw [if_neg h2]
  | join pt l r cs ihl ihr =>
    intro h
    unfold push_conds at h ⊢
    simp only at h ⊢
    by_cases h1 : (push_conds cd l).1 == 3
    · rw [if_pos h1] at h; exact absurd rfl h
    · rw [if_neg h1] at h ⊢
      by_cases h2 : (push_conds cd r).1 == 3
      · rw [if_pos h2] at h; exact absurd rfl h
      · rw [if_neg h2] at h ⊢
        by_cases h3 : (push_conds cd l).1 == 0 || (push_conds cd r).1 == 0
        · rw [if_pos h3]
          simp only [beq_iff_eq] at h1 h2
          rw [ihl (by simpa using h1), ihr (by simpa using h2)]
        · rw [if_neg h3] at h; exact absurd rfl h
  | sort sub c d ih => intro _; rfl
  | null => intro _; rfl

lemma push_conds_tablesOf (cd : Condition) :
    ∀ p : Plan, tablesOf (push_conds cd p).2 = tablesOf p := by
  intro p
  induction p with
  | scan pt tab cs ics =>
    unfold push_conds
    by_cases h1 : tab == cd.lhs_col.tab_name
    · rw [if_pos h1]
    · rw [if_neg h1]
      by_cases h2 : tab == cd.rhs_col.tab_name
      · rw [if_pos h2]
      · rw [if_neg h2]
  | join pt l r cs ihl ihr =>
    unfold push_conds
    simp only
    by_cases h1 : (push_conds cd l).1 == 3
    · rw [if_pos h1]
      show tablesOf (push_conds cd l).2 ++ tablesOf r = tablesOf l ++ tablesOf r
      rw [ihl]
    · rw [if_neg h1]
      by_cases h2 : (push_conds cd r).1 == 3
      · rw [if_pos h2]
        show tablesOf (push_conds cd l).2 ++ tablesOf (push_conds cd r).2
          = tablesOf l ++ tablesOf r
        rw [ihl, ihr]
      · rw [if_neg h2]
        by_cases h3 : (push_conds cd l).1 == 0 || (push_conds cd r).1 == 0
        · rw [if_pos h3]
          show tablesOf (push_conds cd l).2 ++ tablesOf (push_conds cd r).2
            = tablesOf l ++ tablesOf r
          rw [ihl, ihr]
        · rw [if_neg h3]
          show tablesOf (push_conds cd l).2 ++ tablesOf (push_conds cd r).2
            = tablesOf l ++ tablesOf r
          rw [ihl, ihr]
  | sort sub c d ih => rfl
  | null => rfl

lemma push_conds_code1 (cd : Condition) :
    ∀ p : Plan, (push_conds cd p).1 = 1 → cd.lhs_col.tab_name ∈ tablesOf p := by
  intro p
  induction p with
  | scan pt tab cs ics =>
    intro h
    unfold push_conds at h
    by_cases h1 : tab == cd.lhs_col.tab_name
    · show cd.lhs_col.tab_name ∈ [tab]
      simp only [beq_iff_eq] at h1
      simp [h1]
    · rw [if_neg h1] at h
      by_cases h2 : tab == cd.rhs_col.tab_name
      · rw [if_pos h2] at h; cases h
      · rw [if_neg h2] at h; cases h
  | join pt l r cs ihl ihr =>
    intro h
    unfold push_conds at h
    simp only at h
    by_cases h1 : (push_conds cd l).1 == 3
    · rw [if_pos h1] at h; cases h
    · rw [if_neg h1] at h
      by_cases h2 : (push_conds cd r).1 == 3
      · rw [if_pos h2] at h; cases h
      · rw [if_neg h2] at h
        by_cases h3 : (push_conds cd l).1 == 0 || (push_conds cd r).1 == 0
        · rw [if_pos h3] at h
          simp only at h
          show cd.lhs_col.tab_name ∈ tablesOf l ++ tablesOf r
          rcases Bool.or_eq_true_iff.mp h3 with hz | hz <;> simp only [beq_iff_eq] at hz
          · have : (push_conds cd r).1 = 1 := by omega
            exact List.mem_append_right _ (ihr this)
          · have : (push_conds cd l).1 = 1 := by omega
            exact List.mem_append_left _ (ihl this)
        · rw [if_neg h3] at h; cases h
  | sort sub c d ih => intro h; cases h
  | null => intro h; cases h

lemma push_conds_code2 (cd : Condition) :
    ∀ p : Plan, (push_conds cd p).1 = 2 → cd.rhs_col.tab_name ∈ tablesOf p := by
  intro p
  induction p with
  | scan pt tab cs ics =>
    intro h
    unfold push_conds at h
    by_cases h1 : tab == cd.lhs_col.tab_name
    · rw [if_pos h1] at h; cases h
    · rw [if_neg h1] at h
      by_cases h2 : tab == cd.rhs_col.tab_name
      · show cd.rhs_col.tab_name ∈ [tab]
        simp only [beq_iff_eq] at h2
        simp [h2]
      · rw [if_neg h2] at h; cases h
  | join pt l r cs ihl ihr =>
    intro h
    unfold push_conds at h
    simp only at h
    by_cases h1 : (push_conds cd l).1 == 3
    · rw [if_pos h1] at h; cases h
    · rw [if_neg h1] at h
      by_cases h2 : (push_conds cd r).1 == 3
      · rw [if_pos h2] at h; cases h
      · rw [if_neg h2] at h
        by_cases h3 : (push_conds cd l).1 == 0 || (push_conds cd r).1 == 0
        · rw [if_pos h3] at h
          simp only at h
          show cd.rhs_col.tab_name ∈ tablesOf l ++ tablesOf r
          rcases Bool.or_eq_true_iff.mp h3 with hz | hz <;> simp only [beq_iff_eq] at hz
          · have : (push_conds cd r).1 = 2 := by omega
            exact List.mem_append_right _ (ihr this)
          · have : (push_conds cd l).1 = 2 := by omega
            exact List.mem_append_left _ (ihl this)
        · rw [if_neg h3] at h; cases h
  | sort sub c d ih => intro h; cases h
  | null => intro h; cases h

lemma push_conds_inv (cd : Condition) :
    ∀ p : Plan, joinLhsOk p → joinLhsOk (push_conds cd p).2 := by
  intro p
  induction p with
  | scan pt tab cs ics =>
    intro h
    unfold push_conds
    by_cases h1 : tab == cd.lhs_col.tab_name
    · rw [if_pos h1]; exact h
    · rw [if_neg h1]
      by_cases h2 : tab == cd.rhs_col.tab_name
      · rw [if_pos h2]; exact h
      · rw [if_neg h2]; exact h
  | join pt l r cs ihl ihr =>
    intro h
    rcases h with ⟨hcs, hl, hr⟩
    unfold push_conds
    simp only
    by_cases h1 : (push_conds cd l).1 == 3
    · rw [if_pos h1]
      refine ⟨?_, ihl hl, hr⟩
      intro cd' hcd'
      rw [push_conds_tablesOf]
      exact hcs cd' hcd'
    · rw [if_neg h1]
      simp only [beq_iff_eq] at h1
      have hfl : (push_conds cd l).2 = l := push_conds_frame cd l h1
      by_cases h2 : (push_conds cd r).1 == 3
      · rw [if_pos h2]
        refine ⟨?_, hfl ▸ ihl hl, ihr hr⟩
        intro cd' hcd'
        rw [push_conds_tablesOf]
        exact hcs cd' hcd'
      · rw [if_neg h2]
        simp only [beq_iff_eq] at h2
        have hfr : (push_conds cd r).2 = r := push_conds_frame cd r h2
        by_cases h3 : (push_conds cd l).1 == 0 || (push_conds cd r).1 == 0
        · rw [if_pos h3]
          refine ⟨?_, hfl ▸ ihl hl, hfr ▸ ihr hr⟩
          intro cd' hcd'
          rw [push_conds_tablesOf]
          exact hcs cd' hcd'
        · rw [if_neg h3]
          simp only [Bool.or_eq_true, beq_iff_eq, not_or] at h3
          refine ⟨?_, hfl ▸ ihl hl, hfr ▸ ihr hr⟩
          intro cd' hcd'
          rw [push_conds_tablesOf]
          rcases List.mem_append.mp hcd' with hold | hnew
          · exact hcs cd' hold
          · have hone : cd' = if (push_conds cd l).1 == 2 then swapCond cd else cd := by
              simpa using hnew
            by_cases hc2 : (push_conds cd l).1 == 2
            · rw [if_pos hc2] at hone
              subst hone
              show (swapCond cd).lhs_col.tab_name ∈ tablesOf l
              show cd.rhs_col.tab_name ∈ tablesOf l
              exact push_conds_code2 cd l (by simpa using hc2)
            · rw [if_neg hc2] at hone
              rw [hone]
              simp only [beq_iff_eq] at hc2
              have hone' : (push_conds cd l).1 = 1 := by
                rcases push_conds_code_cases cd l with a | a | a | a <;> omega
              exact push_conds_code1 cd l hone'
  | sort sub c d ih =>
    intro h
    exact h
  | null => intro h; exact h

lemma push_conds_scanWeak (cd : Condition) :
    ∀ p : Plan, scanCondsWeak (push_conds cd p).2 = scanCondsWeak p := by
  intro p
  induction p with
  | scan pt tab cs ics =>
    unfold push_conds
    by_cases h1 : tab == cd.lhs_col.tab_name
    · rw [if_pos h1]
    · rw [if_neg h1]
      by_cases h2 : tab == cd.rhs_col.tab_name
      · rw [if_pos h2]
      · rw [if_neg h2]
  | join pt l r cs ihl ihr =>
    unfold push_conds
    simp only
    by_cases h1 : (push_conds cd l).1 == 3
    · rw [if_pos h1]
      show (scanCondsWeak (push_conds cd l).2 && scanCondsWeak r)
        = (scanCondsWeak l && scanCondsWeak r)
      rw [ihl]
    · rw [if_neg h1]
      by_cases h2 : (push_conds cd r).1 == 3
      · rw [if_pos h2]
        show (scanCondsWeak (push_conds cd l).2 && scanCondsWeak (push_conds cd r).2)
          = (scanCondsWeak l && scanCondsWeak r)
        rw [ihl, ihr]
      · rw [if_neg h2]
        by_cases h3 : (push_conds cd l).1 == 0 || (push_conds cd r).1 == 0
        · rw [if_pos h3]
          show (scanCondsWeak (push_conds cd l).2 && scanCondsWeak (push_conds cd r).2)
            = (scanCondsWeak l && scanCondsWeak r)
          rw [ihl, ihr]
        · rw [if_neg h3]
          show (scanCondsWeak (push_conds cd l).2 && scanCondsWeak (push_conds cd r).2)
            = (scanCondsWeak l && scanCondsWeak r)
          rw [ihl, ihr]
  | sort sub c d ih => rfl
  | null => rfl

lemma get_index_cols_sub (tab : TabMeta) (conds : List Condition) :
    ∀ cd ∈ (get_index_cols tab conds).2.2, cd ∈ conds := by
  intro cd hcd
  unfold get_index_cols at hcd
  cases hch : (chooseIndex conds tab.indexes).2 with
  | none => rw [hch] at hcd; exact hcd
  | some i =>
    rw [hch] at hcd
    simp only at hcd
    rcases List.mem_append.mp hcd with h | h
    · rcases List.mem_filterMap.mp h with ⟨j, -, hj⟩
      rw [List.get?_eq_getElem?] at hj
      rcases List.getElem?_eq_some.mp hj with ⟨hl, hv⟩
      exact hv ▸ List.getElem_mem hl
    · rcases List.mem_map.mp h with ⟨pr, hpr, hv⟩
      subst hv
      have h2 := (List.mem_filter.mp hpr).1
      have h3 := List.mem_enum_iff_getElem?.mp h2
      rcases List.getElem?_eq_some.mp h3 with ⟨hl, hv⟩
      exact hv ▸ List.getElem_mem hl

/-- Structurally recursive form of the `buildScans` fold. -/
def buildScansR (db : String → TabMeta) :
    List String → List Condition → List Plan × List Condition
  | [], conds => ([], conds)
  | t :: ts, conds =>
    let pc := pop_conds conds t
    let gic := get_index_cols (db t) pc.1
    let p :=
      if gic.1 then Plan.scan PlanType.T_IndexScan t gic.2.2 gic.2.1
      else Plan.scan PlanType.T_SeqScan t gic.2.2 []
    let r := buildScansR db ts pc.2
    (p :: r.1, r.2)

lemma buildScansR_cons (db : String → TabMeta) (t : String) (ts : List String)
    (conds : List Condition) :
    buildScansR db (t :: ts) conds =
      ((if (get_index_cols (db t) (pop_conds conds t).1).1
          then Plan.scan PlanType.T_IndexScan t (get_index_cols (db t) (pop_conds conds t).1).2.2
            (get_index_cols (db t) (pop_conds conds t).1).2.1
          else Plan.scan PlanType.T_SeqScan t
            (get_index_cols (db t) (pop_conds conds t).1).2.2 [])
        :: (buildScansR db ts (pop_conds conds t).2).1,
       (buildScansR db ts (pop_conds conds t).2).2) := rfl

lemma buildScans_eq_aux (db : String → TabMeta) :
    ∀ (tables : List String) (acc : List Plan) (conds : List Condition),
      tables.foldl
        (fun acc t =>
          let pc := pop_conds acc.2 t
          let gic := get_index_cols (db t) pc.1
          let p :=
            if gic.1 then Plan.scan PlanType.T_IndexScan t gic.2.2 gic.2.1
            else Plan.scan PlanType.T_SeqScan t gic.2.2 []
          (acc.1 ++ [p], pc.2))
        (acc, conds)
      = (acc ++ (buildScansR db tables conds).1, (buildScansR db tables conds).2) := by
  intro tables
  induction tables with
  | nil => intro acc conds; simp [buildScansR]
  | cons t ts ih =>
    intro acc conds
    rw [List.foldl_cons]
    rw [ih]
    rw [buildScansR_cons]
    simp

lemma buildScans_eq (db : String → TabMeta) (tables : List String) (conds : List Condition) :
    buildScans db tables conds = buildScansR db tables conds := by
  unfold buildScans
  rw [buildScans_eq_aux db tables [] conds]
  simp

lemma buildScansR_shape (db : String → TabMeta) :
    ∀ (tables : List String) (conds : List Condition) (i : Nat) (t : String),
      tables[i]? = some t →
      ∃ pt cs ics, (buildScansR db tables conds).1[i]? = some (Plan.scan pt t cs ics) := by
  intro tables
  induction tables with
  | nil => intro conds i t h; cases h
  | cons t0 ts ih =>
    intro conds i t h
    match i with
    | 0 =>
      simp at h
      subst h
      rw [buildScansR_cons]
      by_cases hg : (get_index_cols (db t0) (pop_conds conds t0).1).1
      · exact ⟨PlanType.T_IndexScan, (get_index_cols (db t0) (pop_conds conds t0).1).2.2,
          (get_index_cols (db t0) (pop_conds conds t0).1).2.1, by simp [hg]⟩
      · exact ⟨PlanType.T_SeqScan, (get_index_cols (db t0) (pop_conds conds t0).1).2.2,
          [], by simp [hg]⟩
    | i' + 1 =>
      simp only [List.getElem?_cons_succ] at h
      rcases ih (pop_conds conds t0).2 i' t h with ⟨pt, cs, ics, hh⟩
      exact ⟨pt, cs, ics, by rw [buildScansR_cons]; simpa using hh⟩

lemma buildScansR_weak (db : String → TabMeta) :
    ∀ (tables : List String) (conds : List Condition) (s : Plan),
      s ∈ (buildScansR db tables conds).1 → scanCondsWeak s = true := by
  intro tables
  induction tables with
  | nil => intro conds s h; cases h
  | cons t ts ih =>
    intro conds s h
    rw [buildScansR_cons] at h
    simp only [List.mem_cons] at h
    rcases h with h | h
    · subst h
      by_cases hg : (get_index_cols (db t) (pop_conds conds t).1).1
      · rw [if_pos hg]
        show ((get_index_cols (db t) (pop_conds conds t).1).2.2).all (popCondTest t) = true
        rw [List.all_eq_true]
        intro cd hcd
        have hsub := get_index_cols_sub (db t) (pop_conds conds t).1 cd hcd
        exact (List.mem_filter.mp hsub).2
      · rw [if_neg hg]
        show ((get_index_cols (db t) (pop_conds conds t).1).2.2).all (popCondTest t) = true
        rw [List.all_eq_true]
        intro cd hcd
        have hsub := get_index_cols_sub (db t) (pop_conds conds t).1 cd hcd
        exact (List.mem_filter.mp hsub).2
    · exact ih _ s h

lemma buildScansR_conds (db : String → TabMeta) :
    ∀ (tables : List String) (conds : List Condition) (cd : Condition),
      cd ∈ (buildScansR db tables conds).2 →
      cd ∈ conds ∧ ∀ t ∈ tables, popCondTest t cd = false := by
  intro tables
  induction tables with
  | nil =>
    intro conds cd h
    exact ⟨h, by intro t ht; cases ht⟩
  | cons t0 ts ih =>
    intro conds cd h
    rw [buildScansR_cons] at h
    simp only at h
    rcases ih (pop_conds conds t0).2 cd h with ⟨hmem, hall⟩
    have hmf := List.mem_filter.mp hmem
    refine ⟨hmf.1, ?_⟩
    intro t ht
    rcases List.mem_cons.mp ht with heq | hmem'
    · subst heq
      have := hmf.2
      simp only [Bool.not_eq_true'] at this
      exact this
    · exact hall t hmem'

lemma pop_scan_found (scantbl : List Int) (table : String) (joined : List String)
    (plans : List Plan)
    (h : ∃ (j : Nat), ∃ pt cs ics, plans[j]? = some (Plan.scan pt table cs ics)) :
    ∃ i, (pop_scan scantbl table joined plans).1 = some i
      ∧ (∃ pt cs ics, plans.getD i Plan.null = Plan.scan pt table cs ics)
      ∧ (pop_scan scantbl table joined plans).2.2 = joined ++ [table] := by
  rcases h with ⟨j, pt, cs, ics, hj⟩
  have hmem : ((j, Plan.scan pt table cs ics) : Nat × Plan) ∈ plans.enum := by
    rw [List.mem_enum_iff_getElem?]
    exact hj
  have hsome : (plans.enum.find? (fun p =>
      match p.2 with
      | Plan.scan _ tab _ _ => tab == table
      | _ => false)).isSome := by
    rw [List.find?_isSome]
    exact ⟨(j, Plan.scan pt table cs ics), hmem, by simp⟩
  rcases Option.isSome_iff_exists.mp hsome with ⟨pr, hpr⟩
  have hprop := List.find?_some hpr
  have hprmem := List.mem_of_find?_eq_some hpr
  have hget : plans[pr.1]? = some pr.2 := List.mem_enum_iff_getElem?.mp hprmem
  refine ⟨pr.1, ?_, ?_, ?_⟩
  · unfold pop_scan
    rw [show pr = (pr.1, pr.2) from rfl] at hpr
    rw [hpr]
  · match hpr2 : pr.2 with
    | Plan.scan pt' tab' cs' ics' =>
      rw [hpr2] at hprop hget
      simp only [beq_iff_eq] at hprop
      subst hprop
      rw [List.getD_eq_getElem?_getD, hget]
      exact ⟨pt', cs', ics', rfl⟩
    | Plan.join _ _ _ _ => rw [hpr2] at hprop; cases hprop
    | Plan.sort _ _ _ => rw [hpr2] at hprop; cases hprop
    | Plan.null => rw [hpr2] at hprop; cases hprop
  · unfold pop_scan
    rw [show pr = (pr.1, pr.2) from rfl] at hpr
    rw [hpr]

lemma scanCondsWeak_getD (scans : List Plan) (i : Nat)
    (hweak : ∀ s ∈ scans, scanCondsWeak s = true) :
    scanCondsWeak (scans.getD i Plan.null) = true := by
  rw [List.getD_eq_getElem?_getD]
  cases hg : scans[i]? with
  | none => rfl
  | some s =>
    rcases List.getElem?_eq_some.mp hg with ⟨hl, hv⟩
    exact hv ▸ hweak _ (List.getElem_mem hl)

lemma joinLhsOk_getD_of_shape (scans : List Plan) (i : Nat) :
    (∃ pt t cs ics, scans.getD i Plan.null = Plan.scan pt t cs ics) ∨
      scans.getD i Plan.null = Plan.null → joinLhsOk (scans.getD i Plan.null) := by
  intro h
  rcases h with ⟨pt, t, cs, ics, hh⟩ | hh <;> rw [hh] <;> trivial

/-- Generic fold invariant. -/
lemma foldl_inv {β γ : Type _} (f : γ → β → γ) (P : β → Prop) (I : γ → Prop)
    (hstep : ∀ st b, I st → P b → I (f st b)) :
    ∀ (l : List β) (st : γ), I st → (∀ b ∈ l, P b) → I (l.foldl f st) := by
  intro l
  induction l with
  | nil => intro st h _; exact h
  | cons b bs ih =>
    intro st h hall
    rw [List.foldl_cons]
    exact ih (f st b) (hstep st b h (hall b (List.mem_cons_self b bs)))
      (fun x hx => hall x (List.mem_cons_of_mem b hx))

lemma buildScansR_members (db : String → TabMeta) :
    ∀ (tables : List String) (conds : List Condition) (s : Plan),
      s ∈ (buildScansR db tables conds).1 →
      ∃ pt t cs ics, s = Plan.scan pt t cs ics := by
  intro tables
  induction tables with
  | nil => intro conds s h; cases h
  | cons t0 ts ih =>
    intro conds s h
    rw [buildScansR_cons] at h
    rcases List.mem_cons.mp h with h | h
    · by_cases hg : (get_index_cols (db t0) (pop_conds conds t0).1).1
      · rw [if_pos hg] at h
        exact ⟨_, _, _, _, h⟩
      · rw [if_neg hg] at h
        exact ⟨_, _, _, _, h⟩
    · exact ih _ s h

lemma joinLhsOk_getD (scans : List Plan) (i : Nat)
    (hjall : ∀ s ∈ scans, joinLhsOk s) : joinLhsOk (scans.getD i Plan.null) := by
  rw [List.getD_eq_getElem?_getD]
  cases hg : scans[i]? with
  | none => trivial
  | some s =>
    rcases List.getElem?_eq_some.mp hg with ⟨hl, hv⟩
    exact hv ▸ hjall _ (List.getElem_mem hl)

lemma firstJoin_ok (db : String → TabMeta) (nl sm : Bool) (scans : List Plan)
    (cd : Condition) (st : List Int) (jd : List String)
    (hjall : ∀ s ∈ scans, joinLhsOk s)
    (hwall : ∀ s ∈ scans, scanCondsWeak s = true)
    (hlf : ∃ (j : Nat), ∃ pt cs ics, scans[j]? = some (Plan.scan pt cd.lhs_col.tab_name cs ics))
    (hrf : ∃ (j : Nat), ∃ pt cs ics, scans[j]? = some (Plan.scan pt cd.rhs_col.tab_name cs ics)) :
    ∀ res, firstJoin db nl sm scans cd st jd = some res →
      joinLhsOk res.1 ∧ scanCondsWeak res.1 = true := by
  intro res heq
  rcases pop_scan_found st cd.lhs_col.tab_name jd scans hlf with ⟨li, hli, hlscan, -⟩
  rcases pop_scan_found (pop_scan st cd.lhs_col.tab_name jd scans).2.1 cd.rhs_col.tab_name
      (pop_scan st cd.lhs_col.tab_name jd scans).2.2 scans hrf with ⟨ri, hri, hrscan, -⟩
  unfold firstJoin at heq
  simp only [hli, hri] at heq
  rcases hlscan with ⟨lpt, lcs, lics, hlscan⟩
  rcases hrscan with ⟨rpt, rcs, rics, hrscan⟩
  by_cases hsw : ((some li == some 1) && (some ri == some 0)) = true
  · rw [if_pos hsw, if_pos hsw, if_pos hsw] at heq
    by_cases hnl : nl
    · rw [if_pos hnl] at heq
      cases heq
      refine ⟨⟨?_, ?_, ?_⟩, ?_⟩
      · intro cd' hcd'
        simp only [List.mem_singleton] at hcd'
        subst hcd'
        show (swapSides cd).lhs_col.tab_name ∈ tablesOf (scans.getD ri Plan.null)
        rw [hrscan]
        exact List.mem_singleton.mpr rfl
      · exact joinLhsOk_getD scans ri hjall
      · exact joinLhsOk_getD scans li hjall
      · show (scanCondsWeak (scans.getD ri Plan.null)
            && scanCondsWeak (scans.getD li Plan.null)) = true
        rw [scanCondsWeak_getD scans ri hwall, scanCondsWeak_getD scans li hwall]
        rfl
    · rw [if_neg hnl] at heq
      by_cases hsm : sm
      · rw [if_pos hsm] at heq
        by_cases hix : ((get_index_cols (db (swapSides cd).lhs_col.tab_name) [swapSides cd]).1
            && (get_index_cols (db (swapSides cd).rhs_col.tab_name) [swapSides cd]).1) = true
        · rw [if_pos hix] at heq
          cases heq
          refine ⟨⟨?_, trivial, trivial⟩, rfl⟩
          intro cd' hcd'
          simp only [List.mem_singleton] at hcd'
          subst hcd'
          exact List.mem_singleton.mpr rfl
        · rw [if_neg hix] at heq
          cases heq
          refine ⟨⟨?_, ?_, ?_⟩, ?_⟩
          · intro cd' hcd'
            simp only [List.mem_singleton] at hcd'
            subst hcd'
            show (swapSides cd).lhs_col.tab_name ∈ tablesOf (scans.getD ri Plan.null)
            rw [hrscan]
            exact List.mem_singleton.mpr rfl
          · exact joinLhsOk_getD scans ri hjall
          · exact joinLhsOk_getD scans li hjall
          · show (scanCondsWeak (scans.getD ri Plan.null)
                && scanCondsWeak (scans.getD li Plan.null)) = true
            rw [scanCondsWeak_getD scans ri hwall, scanCondsWeak_getD scans li hwall]
            rfl
      · rw [if_neg hsm] at heq
        cases heq
  · rw [if_neg hsw, if_neg hsw, if_neg hsw] at heq
    by_cases hnl : nl
    · rw [if_pos hnl] at heq
      cases heq
      refine ⟨⟨?_, ?_, ?_⟩, ?_⟩
      · intro cd' hcd'
        simp only [List.mem_singleton] at hcd'
        rw [hcd']
        show cd.lhs_col.tab_name ∈ tablesOf (scans.getD li Plan.null)
        rw [hlscan]
        exact List.mem_singleton.mpr rfl
      · exact joinLhsOk_getD scans li hjall
      · exact joinLhsOk_getD scans ri hjall
      · show (scanCondsWeak (scans.getD li Plan.null)
            && scanCondsWeak (scans.getD ri Plan.null)) = true
        rw [scanCondsWeak_getD scans li hwall, scanCondsWeak_getD scans ri hwall]
        rfl
    · rw [if_neg hnl] at heq
      by_cases hsm : sm
      · rw [if_pos hsm] at heq
        by_cases hix : ((get_index_cols (db cd.lhs_col.tab_name) [cd]).1
            && (get_index_cols (db cd.rhs_col.tab_name) [cd]).1) = true
        · rw [if_pos hix] at heq
          cases heq
          refine ⟨⟨?_, trivial, trivial⟩, rfl⟩
          intro cd' hcd'
          simp only [List.mem_singleton] at hcd'
          subst hcd'
          exact List.mem_singleton.mpr rfl
        · rw [if_neg hix] at heq
          cases heq
          refine ⟨⟨?_, ?_, ?_⟩, ?_⟩
          · intro cd' hcd'
            simp only [List.mem_singleton] at hcd'
            rw [hcd']
            show cd.lhs_col.tab_name ∈ tablesOf (scans.getD li Plan.null)
            rw [hlscan]
            exact List.mem_singleton.mpr rfl
          · exact joinLhsOk_getD scans li hjall
          · exact joinLhsOk_getD scans ri hjall
          · show (scanCondsWeak (scans.getD li Plan.null)
                && scanCondsWeak (scans.getD ri Plan.null)) = true
            rw [scanCondsWeak_getD scans li hwall, scanCondsWeak_getD scans ri hwall]
            rfl
      · rw [if_neg hsm] at heq
        cases heq

lemma joinStep_ok (scans : List Plan) (tables : List String)
    (hjall : ∀ s ∈ scans, joinLhsOk s)
    (hwall : ∀ s ∈ scans, scanCondsWeak s = true)
    (hshape : ∀ t ∈ tables, ∃ (j : Nat), ∃ pt cs ics,
      scans[j]? = some (Plan.scan pt t cs ics)) :
    ∀ (st : Plan × List Int × List String) (cd : Condition),
      joinLhsOk st.1 ∧ scanCondsWeak st.1 = true →
      cd.lhs_col.tab_name ∈ tables ∧ cd.rhs_col.tab_name ∈ tables →
      joinLhsOk (joinStep scans st cd).1 ∧ scanCondsWeak (joinStep scans st cd).1 = true := by
  intro st cd hst hcd
  unfold joinStep
  dsimp only
  by_cases hlc : st.2.2.contains cd.lhs_col.tab_name = true
  · -- left table already joined: no left pop
    rw [if_neg (not_not_intro hlc)]
    dsimp only
    by_cases hrc : st.2.2.contains cd.rhs_col.tab_name = true
    · -- right also joined: both pops skipped, condition pushed down
      rw [if_neg (not_not_intro hrc)]
      dsimp only
      rw [if_neg (show ¬(((none : Option Nat).isSome || (none : Option Nat).isSome) = true)
        by simp)]
      refine ⟨push_conds_inv cd st.1 hst.1, ?_⟩
      show scanCondsWeak (push_conds cd st.1).2 = true
      rw [push_conds_scanWeak]
      exact hst.2
    · -- only the right side is fresh: reversed one-sided join
      rw [if_pos hrc]
      rcases pop_scan_found st.2.1 cd.rhs_col.tab_name st.2.2 scans
          (hshape _ hcd.2) with ⟨ri, hri, ⟨rpt, rcs, rics, hrscan⟩, -⟩
      rw [hri]
      rw [if_pos hrc]
      refine ⟨⟨?_, ?_, hst.1⟩, ?_⟩
      · intro cd' hcd'
        simp only [List.mem_singleton] at hcd'
        rw [hcd']
        show (swapCond cd).lhs_col.tab_name ∈ tablesOf (scans.getD ri Plan.null)
        rw [hrscan]
        exact List.mem_singleton.mpr rfl
      · exact joinLhsOk_getD scans ri hjall
      · show (scanCondsWeak (scans.getD ri Plan.null) && scanCondsWeak st.1) = true
        rw [scanCondsWeak_getD scans ri hwall, hst.2]
        rfl
  · -- left side fresh: pop its scan
    rw [if_pos hlc]
    rcases pop_scan_found st.2.1 cd.lhs_col.tab_name st.2.2 scans
        (hshape _ hcd.1) with ⟨li, hli, ⟨lpt, lcs, lics, hlscan⟩, hlj⟩
    by_cases hrc : (pop_scan st.2.1 cd.lhs_col.tab_name st.2.2 scans).2.2.contains
        cd.rhs_col.tab_name = true
    · -- right joined: plain one-sided join on the left scan
      rw [if_neg (not_not_intro hrc)]
      dsimp only
      rw [hli]
      rw [if_neg (not_not_intro hrc)]
      refine ⟨⟨?_, ?_, hst.1⟩, ?_⟩
      · intro cd' hcd'
        simp only [List.mem_singleton] at hcd'
        rw [hcd']
        show cd.lhs_col.tab_name ∈ tablesOf (scans.getD li Plan.null)
        rw [hlscan]
        exact List.mem_singleton.mpr rfl
      · exact joinLhsOk_getD scans li hjall
      · show (scanCondsWeak (scans.getD li Plan.null) && scanCondsWeak st.1) = true
        rw [scanCondsWeak_getD scans li hwall, hst.2]
        rfl
    · -- both sides fresh: bottom join of the two scans
      rw [if_pos hrc]
      rcases pop_scan_found (pop_scan st.2.1 cd.lhs_col.tab_name st.2.2 scans).2.1
          cd.rhs_col.tab_name (pop_scan st.2.1 cd.lhs_col.tab_name st.2.2 scans).2.2 scans
          (hshape _ hcd.2) with ⟨ri, hri, ⟨rpt, rcs, rics, hrscan⟩, -⟩
      rw [hli, hri]
      refine ⟨⟨?_, ⟨?_, ?_, ?_⟩, hst.1⟩, ?_⟩
      · intro cd' hcd'
        cases hcd'
      · intro cd' hcd'
        simp only [List.mem_singleton] at hcd'
        rw [hcd']
        show cd.lhs_col.tab_name ∈ tablesOf (scans.getD li Plan.null)
        rw [hlscan]
        exact List.mem_singleton.mpr rfl
      · exact joinLhsOk_getD scans li hjall
      · exact joinLhsOk_getD scans ri hjall
      · show ((scanCondsWeak (scans.getD li Plan.null)
            && scanCondsWeak (scans.getD ri Plan.null)) && scanCondsWeak st.1) = true
        rw [scanCondsWeak_getD scans li hwall, scanCondsWeak_getD scans ri hwall, hst.2]
        rfl

lemma closure_ok (scans : List Plan) (scantbl : List Int)
    (hjall : ∀ s ∈ scans, joinLhsOk s)
    (hwall : ∀ s ∈ scans, scanCondsWeak s = true) :
    ∀ (l : List Nat) (tree : Plan),
      joinLhsOk tree ∧ scanCondsWeak tree = true →
      joinLhsOk (l.foldl (fun acc i =>
          if scantbl.getD i 0 == -1
          then Plan.join PlanType.T_NestLoop (scans.getD i Plan.null) acc []
          else acc) tree)
      ∧ scanCondsWeak (l.foldl (fun acc i =>
          if scantbl.getD i 0 == -1
          then Plan.join PlanType.T_NestLoop (scans.getD i Plan.null) acc []
          else acc) tree) = true := by
  intro l
  induction l with
  | nil => intro tree h; exact h
  | cons i is ih =>
    intro tree h
    rw [List.foldl_cons]
    apply ih
    by_cases hi : (scantbl.getD i 0 == -1) = true
    · rw [if_pos hi]
      refine ⟨⟨?_, joinLhsOk_getD scans i hjall, h.1⟩, ?_⟩
      · intro cd hcd; cases hcd
      · show (scanCondsWeak (scans.getD i Plan.null) && scanCondsWeak tree) = true
        rw [scanCondsWeak_getD scans i hwall, h.2]
        rfl
    · rw [if_neg hi]
      exact h

lemma make_one_rel_ok (db : String → TabMeta) (nl sm : Bool)
    (tables : List String) (conds0 : List Condition) (p : Plan)
    (hwf : ∀ cd ∈ conds0, cd.lhs_col.tab_name ∈ tables
      ∧ (cd.is_rhs_val = false → cd.rhs_col.tab_name ∈ tables))
    (hres : make_one_rel db nl sm tables conds0 = some p) :
    joinLhsOk p ∧ scanCondsWeak p = true := by
  have hjall : ∀ s ∈ (buildScansR db tables conds0).1, joinLhsOk s := by
    intro s hs
    rcases buildScansR_members db tables conds0 s hs with ⟨pt, t, cs, ics, hh⟩
    rw [hh]
    trivial
  have hwall := buildScansR_weak db tables conds0
  have hshape : ∀ t ∈ tables, ∃ (j : Nat), ∃ pt cs ics,
      (buildScansR db tables conds0).1[j]? = some (Plan.scan pt t cs ics) := by
    intro t ht
    rcases List.getElem?_of_mem ht with ⟨i, hi⟩
    rcases buildScansR_shape db tables conds0 i t hi with ⟨pt, cs, ics, hh⟩
    exact ⟨i, pt, cs, ics, hh⟩
  have hP : ∀ cd ∈ (buildScansR db tables conds0).2,
      cd.lhs_col.tab_name ∈ tables ∧ cd.rhs_col.tab_name ∈ tables := by
    intro cd hcd
    rcases buildScansR_conds db tables conds0 cd hcd with ⟨hmem, hall⟩
    have hl := (hwf cd hmem).1
    have htest := hall _ hl
    unfold popCondTest at htest
    simp only [beq_self_eq_true, Bool.true_and, Bool.or_eq_false_iff] at htest
    exact ⟨hl, (hwf cd hmem).2 (by
      rcases Bool.eq_false_iff.mp htest.1 with h
      cases hv : cd.is_rhs_val
      · rfl
      · exfalso; exact h (by rw [hv]))⟩
  unfold make_one_rel at hres
  rw [buildScans_eq] at hres
  dsimp only at hres
  by_cases h1 : (tables.length == 1) = true
  · rw [if_pos h1] at hres
    cases hres
    exact ⟨joinLhsOk_getD _ 0 hjall, scanCondsWeak_getD _ 0 hwall⟩
  · rw [if_neg h1] at hres
    cases hc : (buildScansR db tables conds0).2 with
    | nil =>
      rw [hc] at hres
      dsimp only at hres
      cases hres
      apply closure_ok _ _ hjall hwall
      exact ⟨joinLhsOk_getD _ 0 hjall, scanCondsWeak_getD _ 0 hwall⟩
    | cons cd rest =>
      rw [hc] at hres
      dsimp only at hres
      have hcdP : cd.lhs_col.tab_name ∈ tables ∧ cd.rhs_col.tab_name ∈ tables := by
        apply hP
        rw [hc]
        exact List.mem_cons_self cd rest
      cases hfj : firstJoin db nl sm (buildScansR db tables conds0).1 cd
          (List.replicate tables.length (-1)) (List.replicate tables.length "") with
      | none => rw [hfj] at hres; cases hres
      | some st1 =>
        rw [hfj] at hres
        dsimp only at hres
        cases hres
        have hst1 : joinLhsOk st1.1 ∧ scanCondsWeak st1.1 = true := by
          apply firstJoin_ok db nl sm _ cd _ _ hjall hwall
              (hshape _ hcdP.1) (hshape _ hcdP.2) st1 hfj
        have hst2 : joinLhsOk (rest.foldl (joinStep (buildScansR db tables conds0).1) st1).1
            ∧ scanCondsWeak (rest.foldl (joinStep (buildScansR db tables conds0).1) st1).1
              = true := by
          apply foldl_inv (joinStep (buildScansR db tables conds0).1)
            (fun cd' => cd'.lhs_col.tab_name ∈ tables ∧ cd'.rhs_col.tab_name ∈ tables)
            (fun st => joinLhsOk st.1 ∧ scanCondsWeak st.1 = true)
            (joinStep_ok _ tables hjall hwall hshape) rest st1 hst1
          intro cd' hcd'
          apply hP
          rw [hc]
          exact List.mem_cons_of_mem cd hcd'
        apply closure_ok _ _ hjall hwall
        exact hst2

/-- An empty catalog: every table has no columns and no indexes. -/
def dbEmpty : String → TabMeta := fun _ => ⟨[], []⟩

/-- The same-table condition `s.x = s.y` of the C4 counterexample. -/
def cdSameTab : Condition := ⟨⟨"s", "x"⟩, CompOp.OP_EQ, false, ⟨"s", "y"⟩⟩

/-- C4 counterexample: for `SELECT`-style tables `[r, s]` with the single
condition `s.x = s.y`, the `pop_conds` test also fires for a column-column
condition on any single table, so the condition is popped while table `r`
is processed and ends up attached to the ScanPlan of `r` — a condition
that references only table `s` sits on the scan of `r`, violating the
claimed ScanPlan table-locality invariant. -/
theorem scan_conds_local_cex :
    (make_one_rel dbEmpty true true ["r", "s"] [cdSameTab]).map scanCondsLocal = some false
    ∧ make_one_rel dbEmpty true true ["r", "s"] [cdSameTab]
      = some (Plan.join PlanType.T_NestLoop
          (Plan.scan PlanType.T_SeqScan "s" [] [])
          (Plan.scan PlanType.T_SeqScan "r" [cdSameTab] [])
          [])
    ∧ (pop_conds [cdSameTab] "r").1 = [cdSameTab] := by decide

/-- C4 amended: what `pop_conds` removes for table `t` are exactly the
conditions passing `popCondTest t` — table-local literal comparisons on
`t`, or column-column comparisons whose both sides name one (arbitrary)
table; consequently, for queries whose conditions reference the listed
tables, every condition attached to a ScanPlan by `make_one_rel` passes
`popCondTest` for that scan's table, but need not be local to it. -/
theorem scan_conds_weak_local (db : String → TabMeta) (nl sm : Bool)
    (tables : List String) (conds0 : List Condition) (p : Plan)
    (hwf : ∀ cd ∈ conds0, cd.lhs_col.tab_name ∈ tables
      ∧ (cd.is_rhs_val = false → cd.rhs_col.tab_name ∈ tables))
    (hres : make_one_rel db nl sm tables conds0 = some p) :
    scanCondsWeak p = true
    ∧ ∀ (conds : List Condition) (t : String) (cd : Condition),
        (cd ∈ (pop_conds conds t).1 ↔ cd ∈ conds ∧ popCondTest t cd = true)
        ∧ (cd ∈ (pop_conds conds t).2 ↔ cd ∈ conds ∧ popCondTest t cd = false) := by
  refine ⟨(make_one_rel_ok db nl sm tables conds0 p hwf hres).2, ?_⟩
  intro conds t cd
  constructor
  · unfold pop_conds
    rw [List.mem_filter]
  · unfold pop_conds
    rw [List.mem_filter]
    constructor
    · rintro ⟨h1, h2⟩
      exact ⟨h1, by simpa using h2⟩
    · rintro ⟨h1, h2⟩
      exact ⟨h1, by simpa using h2⟩

/-- The cross-table condition `r.x = s.y` of scenario S4. -/
def cdS4 : Condition := ⟨⟨"r", "x"⟩, CompOp.OP_EQ, false, ⟨"s", "y"⟩⟩

theorem scan_conds_weak_local_witness :
    scanCondsWeak (Plan.join PlanType.T_NestLoop
        (Plan.scan PlanType.T_SeqScan "r" [] [])
        (Plan.scan PlanType.T_SeqScan "s" [] []) [cdS4]) = true
    ∧ ∀ (conds : List Condition) (t : String) (cd : Condition),
        (cd ∈ (pop_conds conds t).1 ↔ cd ∈ conds ∧ popCondTest t cd = true)
        ∧ (cd ∈ (pop_conds conds t).2 ↔ cd ∈ conds ∧ popCondTest t cd = false) :=
  scan_conds_weak_local dbEmpty true true ["r", "s"] [cdS4] _ (by decide) (by decide)

/-- C5: in every finished `make_one_rel` plan (for queries whose
conditions reference the listed tables) every JoinPlan condition has its
left column's table among the tables of the join's left subtree; and
`push_conds`, whenever the left child matched the condition's right-hand
side (code 2) and the right child matched one of its sides, swaps
`lhs_col`/`rhs_col` and replaces the operator by `swap_op` (`<`↔`>`,
`≤`↔`≥`, `=`/`≠` unchanged) before attaching, and returns 3. -/
theorem join_lhs_normalized (db : String → TabMeta) (nl sm : Bool)
    (tables : List String) (conds0 : List Condition) (p : Plan)
    (hwf : ∀ cd ∈ conds0, cd.lhs_col.tab_name ∈ tables
      ∧ (cd.is_rhs_val = false → cd.rhs_col.tab_name ∈ tables))
    (hres : make_one_rel db nl sm tables conds0 = some p) :
    joinLhsOk p
    ∧ ∀ (pt : PlanType) (l r : Plan) (cs : List Condition) (cd : Condition),
        (push_conds cd l).1 = 2 →
        ((push_conds cd r).1 = 1 ∨ (push_conds cd r).1 = 2) →
        push_conds cd (Plan.join pt l r cs)
          = (3, Plan.join pt l r
              (cs ++ [⟨cd.rhs_col, swap_op cd.op, cd.is_rhs_val, cd.lhs_col⟩])) := by
  refine ⟨(make_one_rel_ok db nl sm tables conds0 p hwf hres).1, ?_⟩
  intro pt l r cs cd h2 hr
  have hl3 : ¬((push_conds cd l).1 == 3) = true := by simp [h2]
  have hr3 : ¬((push_conds cd r).1 == 3) = true := by
    rcases hr with h | h <;> simp [h]
  have h0 : ¬(((push_conds cd l).1 == 0) || ((push_conds cd r).1 == 0)) = true := by
    rcases hr with h | h <;> simp [h, h2]
  unfold push_conds
  dsimp only
  rw [if_neg hl3, if_neg hr3, if_neg h0, if_pos (show ((push_conds cd l).1 == 2) = true
    by simp [h2])]
  rw [push_conds_frame cd l (by omega), push_conds_frame cd r (by rcases hr with h | h <;> omega)]
  rfl

/-- The S4 plan: `r ⋈ s` on `r.x = s.y`. -/
def planS4 : Plan :=
  Plan.join PlanType.T_NestLoop
    (Plan.scan PlanType.T_SeqScan "r"
      [⟨⟨"r", "z"⟩, CompOp.OP_GT, true, ⟨"", ""⟩⟩] [])
    (Plan.scan PlanType.T_SeqScan "s" [] []) [cdS4]

theorem join_lhs_normalized_witness :
    joinLhsOk planS4
    ∧ ∀ (pt : PlanType) (l r : Plan) (cs : List Condition) (cd : Condition),
        (push_conds cd l).1 = 2 →
        ((push_conds cd r).1 = 1 ∨ (push_conds cd r).1 = 2) →
        push_conds cd (Plan.join pt l r cs)
          = (3, Plan.join pt l r
              (cs ++ [⟨cd.rhs_col, swap_op cd.op, cd.is_rhs_val, cd.lhs_col⟩])) :=
  join_lhs_normalized dbEmpty true true ["r", "s"]
    [cdS4, ⟨⟨"r", "z"⟩, CompOp.OP_GT, true, ⟨"", ""⟩⟩] planS4 (by decide) (by decide)

lemma matchLen_nil_conds : ∀ cols : List String, matchLen [] cols = 0
  | [] => rfl
  | _ :: _ => rfl

lemma get_index_cols_nil (tab : TabMeta) : get_index_cols tab [] = (false, [], []) := by
  have h : (chooseIndex [] tab.indexes).2 = none := by
    rw [chooseIndex_none_iff]
    intro idx _
    exact matchLen_nil_conds idx.cols
  unfold get_index_cols
  rw [h]

/-- The join condition of the C6 counterexample: `c.x = b.y` over the
FROM list `a, b, c`. -/
def cdCB : Condition := ⟨⟨"c", "x"⟩, CompOp.OP_EQ, false, ⟨"b", "y"⟩⟩

/-- C6 counterexample: with three tables `FROM a, b, c` and the condition
`c.x = b.y`, the two located scans are those of `c` (left) and `b`
(right) — tables in reverse FROM order — yet no swap happens, because the
source only tests `left == table_scan_executors[1] && right ==
table_scan_executors[0]`: the first JoinPlan keeps `c` on the left and
the condition sides unswapped, so the first join does not honor the FROM
clause. -/
theorem from_order_cex :
    make_one_rel dbEmpty true true ["a", "b", "c"] [cdCB]
      = some (Plan.join PlanType.T_NestLoop
          (Plan.scan PlanType.T_SeqScan "a" [] [])
          (Plan.join PlanType.T_NestLoop
            (Plan.scan PlanType.T_SeqScan "c" [] [])
            (Plan.scan PlanType.T_SeqScan "b" [] [])
            [cdCB])
          []) := by decide

/-- C6 amended: the first-join reversal fires exactly when the two
located children are the scans at positions 1 and 0 — that is, the first
condition names `tables[1]` on its left and `tables[0]` on its right.
For a two-table query that is the general case, so FROM order is honored
there: the children are swapped, the condition's column sides are swapped
(the operator is kept), and the first JoinPlan has the first FROM table
on the left.  (With three or more tables the reversal does not fire for
other reversed pairs; see the counterexample.) -/
theorem from_order_two_tables (db : String → TabMeta) (sm : Bool)
    (t0 t1 : String) (c : Condition)
    (hne : t0 ≠ t1)
    (hl : c.lhs_col.tab_name = t1) (hr : c.rhs_col.tab_name = t0)
    (hv : c.is_rhs_val = false) :
    make_one_rel db true sm [t0, t1] [c]
      = some (Plan.join PlanType.T_NestLoop
          (Plan.scan PlanType.T_SeqScan t0 [] [])
          (Plan.scan PlanType.T_SeqScan t1 [] [])
          [swapSides c]) := by
  have hb01 : (t0 == t1) = false := by
    rw [beq_eq_false_iff_ne]
    exact hne
  have hb10 : (t1 == t0) = false := by
    rw [beq_eq_false_iff_ne]
    exact Ne.symm hne
  have htest0 : popCondTest t0 c = false := by
    unfold popCondTest
    rw [hl, hr, hv, hb10]
    simp
  have htest1 : popCondTest t1 c = false := by
    unfold popCondTest
    rw [hl, hr, hv, hb10]
    simp
  have hbs : buildScansR db [t0, t1] [c]
      = ([Plan.scan PlanType.T_SeqScan t0 [] [], Plan.scan PlanType.T_SeqScan t1 [] []], [c]) := by
    rw [buildScansR_cons]
    unfold pop_conds
    rw [show [c].filter (popCondTest t0) = [] by simp [htest0]]
    rw [show [c].filter (fun cd => !popCondTest t0 cd) = [c] by simp [htest0]]
    rw [get_index_cols_nil]
    rw [buildScansR_cons]
    unfold pop_conds
    rw [show [c].filter (popCondTest t1) = [] by simp [htest1]]
    rw [show [c].filter (fun cd => !popCondTest t1 cd) = [c] by simp [htest1]]
    rw [get_index_cols_nil]
    rfl
  have hfj : firstJoin db true sm
      [Plan.scan PlanType.T_SeqScan t0 [] [], Plan.scan PlanType.T_SeqScan t1 [] []] c
      (List.replicate 2 (-1)) (List.replicate 2 "")
      = some (Plan.join PlanType.T_NestLoop
          (Plan.scan PlanType.T_SeqScan t0 [] [])
          (Plan.scan PlanType.T_SeqScan t1 [] [])
          [swapSides c],
        ((List.replicate 2 (-1 : Int)).set 1 1).set 0 1,
        (List.replicate 2 "" ++ [c.lhs_col.tab_name]) ++ [c.rhs_col.tab_name]) := by
    have hpop1 : pop_scan (List.replicate 2 (-1)) c.lhs_col.tab_name (List.replicate 2 "")
        [Plan.scan PlanType.T_SeqScan t0 [] [], Plan.scan PlanType.T_SeqScan t1 [] []]
        = (some 1, (List.replicate 2 (-1 : Int)).set 1 1,
           List.replicate 2 "" ++ [c.lhs_col.tab_name]) := by
      unfold pop_scan
      rw [hl]
      simp [List.enum, List.enumFrom, List.find?, hb01]
    have hpop0 : pop_scan ((List.replicate 2 (-1 : Int)).set 1 1) c.rhs_col.tab_name
        (List.replicate 2 "" ++ [c.lhs_col.tab_name])
        [Plan.scan PlanType.T_SeqScan t0 [] [], Plan.scan PlanType.T_SeqScan t1 [] []]
        = (some 0, ((List.replicate 2 (-1 : Int)).set 1 1).set 0 1,
           (List.replicate 2 "" ++ [c.lhs_col.tab_name]) ++ [c.rhs_col.tab_name]) := by
      unfold pop_scan
      rw [hr]
      simp [List.enum, List.enumFrom, List.find?]
    unfold firstJoin
    rw [hpop1]
    dsimp only
    rw [hpop0]
    dsimp only
    rfl
  unfold make_one_rel
  rw [buildScans_eq, hbs]
  dsimp only
  rw [show (List.replicate 2 (-1 : Int)) = List.replicate ([t0, t1].length) (-1 : Int) from rfl,
    show (List.replicate 2 "") = List.replicate ([t0, t1].length) "" from rfl] at hfj
  rw [hfj]
  dsimp only
  rfl

theorem from_order_two_tables_witness :
    make_one_rel dbEmpty true true ["item", "stock"]
      [⟨⟨"stock", "s_i_id"⟩, CompOp.OP_EQ, false, ⟨"item", "i_id"⟩⟩]
      = some (Plan.join PlanType.T_NestLoop
          (Plan.scan PlanType.T_SeqScan "item" [] [])
          (Plan.scan PlanType.T_SeqScan "stock" [] [])
          [swapSides ⟨⟨"stock", "s_i_id"⟩, CompOp.OP_EQ, false, ⟨"item", "i_id"⟩⟩]) :=
  from_order_two_tables dbEmpty true "item" "stock"
    ⟨⟨"stock", "s_i_id"⟩, CompOp.OP_EQ, false, ⟨"item", "i_id"⟩⟩
    (by decide) rfl rfl rfl

/-! ## `generate_sort_plan` (claim C8) -/

/-- The catalog of the C8 counterexample: tables `t1` and `t2` both own a
column named `c`. -/
def dbC8 : String → TabMeta := fun t =>
  if t == "t1" then ⟨[⟨"t1", "c"⟩], []⟩
  else if t == "t2" then ⟨[⟨"t2", "c"⟩], []⟩
  else ⟨[], []⟩

/-- C8 counterexample: with `ORDER BY c` over two tables that both own a
column `c`, `generate_sort_plan` silently returns a SortPlan on the last
matching column (`t2.c`) instead of reporting AmbiguousColumn; with an
unknown ORDER BY column it silently returns the default-constructed
(empty) column instead of reporting UnknownColumn. -/
theorem sort_plan_silent_cex :
    generate_sort_plan dbC8 ["t1", "t2"] true "c" false Plan.null
      = Plan.sort Plan.null ⟨"t2", "c"⟩ false
    ∧ generate_sort_plan dbC8 ["t1", "t2"] true "nosuch" false Plan.null
      = Plan.sort Plan.null ⟨"", ""⟩ false := by decide

lemma sort_fold_last (order_col : String) :
    ∀ (l : List ColMeta) (acc : TabCol),
      l.foldl (fun acc col =>
        if col.name == order_col then (⟨col.tab_name, col.name⟩ : TabCol) else acc) acc
      = match (l.filter (fun col => col.name == order_col)).getLast? with
        | some col => (⟨col.tab_name, col.name⟩ : TabCol)
        | none => acc := by
  intro l
  induction l with
  | nil => intro acc; rfl
  | cons col rest ih =>
    intro acc
    rw [List.foldl_cons, List.filter_cons]
    by_cases hc : (col.name == order_col) = true
    · rw [if_pos hc, if_pos hc, ih]
      cases hrest : rest.filter (fun col => col.name == order_col) with
      | nil => rfl
      | cons y ys =>
        cases hgl : (y :: ys).getLast? with
        | none => simp at hgl
        | some z => rw [List.getLast?_cons_cons, hgl]
    · rw [if_neg hc, if_neg hc, ih]

/-- C8 amended: `generate_sort_plan` performs no ambiguity or
unknown-column check at all: with ORDER BY present it always returns a
SortPlan whose sort column is the LAST column matching the ORDER BY name
across the selected tables' schemas in order — and the
default-constructed empty column when no column matches. -/
theorem sort_plan_last_match (db : String → TabMeta) (tables : List String)
    (order_col : String) (d : Bool) (plan : Plan) :
    generate_sort_plan db tables true order_col d plan
      = Plan.sort plan
          (match ((tables.foldl (fun acc t => acc ++ (db t).cols) []).filter
              (fun col => col.name == order_col)).getLast? with
            | some col => (⟨col.tab_name, col.name⟩ : TabCol)
            | none => (⟨"", ""⟩ : TabCol))
          d := by
  unfold generate_sort_plan
  rw [if_neg (by simp)]
  dsimp only
  rw [sort_fold_last]

/-! ## External merge sorter (external_merge_sort.h)

Records are an abstract type `α`; the comparator is `cmp : α → α → Int`
(the `qsort_r`-style three-way comparator of the source).  The write
phase models the mmap-backed run files: `runs` holds the contents of the
flushed files, `cur` the records of the currently mapped file in arrival
order; libc `qsort_r` (external code) is modelled by its contract, a
comparator-sorted permutation (`List.insertionSort` on `cmp a b ≤ 0`).
The read phase models `record_list` (`fronts`), the unread remainders of
the run files (`rems`) and the loser-tree array (`heap`, value `-1` for
the dummy); array cells are total functions `Nat → _`, all source
accesses being in bounds at the sizes involved. -/

/-- Pointwise array update (`v[i] = x`). -/
def upd {β : Type _} (f : Nat → β) (i : Nat) (v : β) : Nat → β :=
  fun j => if j = i then v else f j

/-- Fuel-driven ceiling base-2 logarithm: `clog2F fuel k = ⌈log₂ k⌉`
whenever `k ≤ fuel`, by the identity `⌈log₂ k⌉ = ⌈log₂ ⌈k/2⌉⌉ + 1`. -/
def clog2F : Nat → Nat → Nat
  | 0, _ => 0
  | fuel + 1, k => if k ≤ 1 then 0 else clog2F fuel ((k + 1) / 2) + 1

/-- `⌈log₂ k⌉` for `k ≥ 1`: the value `std::ceil(std::log2(k))` computes
(exact in double precision at any realistic `k`). -/
def clog2 (k : Nat) : Nat := clog2F k k

example : (List.range 17).map clog2 = [0, 0, 1, 2, 2, 3, 3, 3, 3, 4, 4, 4, 4, 4, 4, 4, 4] := by
  decide

/-- `int height = std::ceil(std::log2(k))`: for `k = 0`, `std::log2`
returns `-∞` and the conversion to `int` is undefined behaviour, which
`none` models; otherwise the exact ceiling. -/
def heightOfK (k : Nat) : Option Nat := if k = 0 then none else some (clog2 k)

/-- The model of one `qsort_r` call: a sorted permutation under the
comparator order `cmp a b ≤ 0`. -/
def qsortModel {α : Type} (cmp : α → α → Int) (l : List α) : List α :=
  List.insertionSort (fun a b => cmp a b ≤ 0) l

/-- Write-phase state: flushed run files, current mapped file contents,
`data != nullptr`, and the `isFull` flag. -/
structure EMSWriter (α : Type) where
  runs : List (List α)
  cur : List α
  dataOpen : Bool
  isFull : Bool

/-- Constructed sorter: no file yet (`data == nullptr`, `isFull = true`). -/
def emsInit {α : Type} : EMSWriter α := ⟨[], [], false, true⟩

/-- `ExternalMergeSorter::write`: on a full file, sort and flush the
previous mapping (if any) and open a fresh file, then append the record
and mark the file full when it reaches `NUM_RECORD_PER_FILE`. -/
def emsWrite {α : Type} (cmp : α → α → Int) (nrpf : Nat) (s : EMSWriter α) (r : α) :
    EMSWriter α :=
  let s1 := if s.isFull
    then (⟨if s.dataOpen then s.runs ++ [qsortModel cmp s.cur] else s.runs, [], true, false⟩ :
      EMSWriter α)
    else s
  let cur1 := s1.cur ++ [r]
  ⟨s1.runs, cur1, s1.dataOpen, cur1.length == nrpf⟩

/-- `ExternalMergeSorter::endWrite`: sort and flush the partially filled
last file (truncated to its `index` records). -/
def emsEndWrite {α : Type} (cmp : α → α → Int) (s : EMSWriter α) : List (List α) :=
  if s.dataOpen then s.runs ++ [qsortModel cmp s.cur] else s.runs

/-- Read-phase state: run count `k`, tree height `h`, the loser-tree
array `heap` (run index, or `-1` for dummies), the per-run front records
(`record_list`) and the per-run unread remainders. -/
structure MergeState (α : Type) where
  k : Nat
  h : Nat
  heap : Nat → Int
  fronts : Nat → α
  rems : Nat → List α

/-- Initial leaf layout of both `heap` and `winners` in `beginRead`:
leaves `[2^h, 2^h + k)` hold run indices, leaves `[2^h + k, 2^(h+1))`
are dummies, everything else is the vector's zero initialisation. -/
def initHeap (k h : Nat) : Nat → Int := fun j =>
  if 2 ^ h ≤ j ∧ j < 2 ^ h + k then ((j - 2 ^ h : Nat) : Int)
  else if 2 ^ h + k ≤ j ∧ j < 2 ^ (h + 1) then -1
  else 0

/-- One round of the bottom-up build at internal node `i`: the winner of
the two children's winners moves up, the loser is stored at `heap[i]`;
a dummy (`-1`) loses to everything, ties go to the left child. -/
def buildStep {α : Type} [Inhabited α] (cmp : α → α → Int) (fronts : Nat → α)
    (hw : (Nat → Int) × (Nat → Int)) (i : Nat) : (Nat → Int) × (Nat → Int) :=
  let l := hw.2 (2 * i)
  let r := hw.2 (2 * i + 1)
  if l ≠ -1 ∧ (r = -1 ∨ cmp (fronts l.toNat) (fronts r.toNat) ≤ 0)
  then (upd hw.1 i r, upd hw.2 i l)
  else (upd hw.1 i l, upd hw.2 i r)

/-- The build loop `for (i = (1 << height) - 1; i >= 1; i--)`. -/
def buildDown {α : Type} [Inhabited α] (cmp : α → α → Int) (fronts : Nat → α) :
    Nat → (Nat → Int) × (Nat → Int) → (Nat → Int) × (Nat → Int)
  | 0, hw => hw
  | i + 1, hw => buildDown cmp fronts i (buildStep cmp fronts hw (i + 1))

/-- `beginRead` after the files are opened: fronts are the first record
of each run, the loser tree is built bottom-up, `heap[0]` receives the
overall winner. -/
def mkMerge {α : Type} [Inhabited α] (cmp : α → α → Int) (runs : List (List α)) :
    MergeState α :=
  let k := runs.length
  let h := clog2 k
  let fronts := fun i => (runs.getD i []).headD default
  let rems := fun i => (runs.getD i []).tail
  let hw := buildDown cmp fronts (2 ^ h - 1) (initHeap k h, initHeap k h)
  ⟨k, h, upd hw.1 0 (hw.2 1), fronts, rems⟩

/-- `ExternalMergeSorter::beginRead`: `none` models the undefined height
computation at `k = 0` (`(int)ceil(log2(0))`). -/
def beginRead {α : Type} [Inhabited α] (cmp : α → α → Int) (runs : List (List α)) :
    Option (MergeState α) :=
  (heightOfK runs.length).map (fun _ => mkMerge cmp runs)

/-- The `while (cur != 1)` walk of `adjust`, counted by tree levels
(`cur` starts at a leaf, so exactly `h` halvings reach the root): the
travelling `winner` is compared with the stored loser `heap[parent]`; the
winner of that match travels on and the loser is stored back.  A dummy
(`-1`) loses to everything; on ties (`cmp ≤ 0`) the travelling record
wins. -/
def adjustLoopN {α : Type} [Inhabited α] (cmp : α → α → Int) (fronts : Nat → α) :
    Nat → Nat → (Nat → Int) → Int → (Nat → Int) × Int
  | 0, _, heap, w => (heap, w)
  | t + 1, cur, heap, w =>
    if cur = 1 then (heap, w)
    else
      let parent := cur / 2
      if w ≠ -1 ∧ (heap parent = -1 ∨ cmp (fronts w.toNat) (fronts (heap parent).toNat) ≤ 0)
      then adjustLoopN cmp fronts t parent heap w
      else adjustLoopN cmp fronts t parent (upd heap parent w) (heap parent)

/-- `ExternalMergeSorter::adjust`: refill the winner's front record from
its run (on end-of-file, mark the leaf as dummy and travel with `-1`),
then walk the loser tree from that leaf to the root and store the final
winner at `heap[0]`. -/
def adjust {α : Type} [Inhabited α] (cmp : α → α → Int) (s : MergeState α) : MergeState α :=
  let f := (s.heap 0).toNat
  match s.rems f with
  | x :: xs =>
    let fronts1 := upd s.fronts f x
    let rems1 := upd s.rems f xs
    let r := adjustLoopN cmp fronts1 s.h (f + 2 ^ s.h) s.heap ((f : Nat) : Int)
    ⟨s.k, s.h, upd r.1 0 r.2, fronts1, rems1⟩
  | [] =>
    let heap1 := upd s.heap (f + 2 ^ s.h) (-1)
    let r := adjustLoopN cmp s.fronts s.h (f + 2 ^ s.h) heap1 (-1)
    ⟨s.k, s.h, upd r.1 0 r.2, s.fronts, s.rems⟩

/-- `ExternalMergeSorter::read`: copy out the winner's record, then
adjust the tree. -/
def emsRead {α : Type} [Inhabited α] (cmp : α → α → Int) (s : MergeState α) :
    α × MergeState α :=
  (s.fronts (s.heap 0).toNat, adjust cmp s)

/-- `n` consecutive `read` calls. -/
def readN {α : Type} [Inhabited α] (cmp : α → α → Int) :
    Nat → MergeState α → List α × MergeState α
  | 0, s => ([], s)
  | n + 1, s =>
    let p := emsRead cmp s
    let q := readN cmp n p.2
    (p.1 :: q.1, q.2)

/-- The full sort session of claim C1: `N` writes, `end_write`,
`begin_read`, then `N` reads. -/
def emsSort {α : Type} [Inhabited α] (cmp : α → α → Int) (nrpf : Nat) (input : List α) :
    List α :=
  let runs := emsEndWrite cmp (input.foldl (emsWrite cmp nrpf) emsInit)
  match beginRead cmp runs with
  | none => []
  | some s => (readN cmp input.length s).1

lemma clog2F_ge : ∀ (fuel k : Nat), k ≤ fuel → k ≤ 2 ^ clog2F fuel k := by
  intro fuel
  induction fuel with
  | zero => intro k hk; interval_cases k; simp
  | succ fuel ih =>
    intro k hk
    unfold clog2F
    by_cases h1 : k ≤ 1
    · rw [if_pos h1]; simpa using h1
    · rw [if_neg h1]
      have hrec := ih ((k + 1) / 2) (by omega)
      rw [pow_succ]
      omega

lemma clog2_ge (k : Nat) : k ≤ 2 ^ clog2 k := clog2F_ge k k (Nat.le_refl k)

/-- C9 (code defect at `k = 0`): with zero records written there are no
run files, and `begin_read` evaluates `int height =
std::ceil(std::log2(0))` — `log2(0)` is `-∞`, whose conversion to `int`
is undefined behaviour, followed by a shift by a negative amount when the
heap is sized.  In the model: `end_write` after zero writes leaves no
runs, and the height computation (hence `begin_read`) is undefined
(`none`) — it does not terminate normally with all arithmetic in
bounds as the claim states. -/
theorem begin_read_empty_undefined :
    emsEndWrite (fun a b : Int => a - b) emsInit = []
    ∧ heightOfK 0 = none
    ∧ beginRead (fun a b : Int => a - b) (emsEndWrite (fun a b : Int => a - b) emsInit)
        = none :=
  ⟨rfl, rfl, rfl⟩

/-- The integer comparator over `Nat` used by the concrete merge
scenarios. -/
def intCmp : Nat → Nat → Int := fun a b => (a : Int) - b

/-- C7 counterexample: merge the runs `[5]` (run 0) and `[3, 5]` (run 1).
The first read returns 3 from run 1; `adjust` refills run 1's front with
5 and compares it against the stored loser, run 0's equal record 5.  The
travelling candidate wins the tie (`cmp ≤ 0`), so `heap[0] = 1`: during
`adjust` the tie goes to the refilled run, NOT to the leftmost leaf (run
0).  The bottom-up build does give ties to the left: with equal fronts
`[[7], [7]]` the initial winner is run 0. -/
theorem tie_adjust_cex :
    beginRead intCmp [[5], [3, 5]] = some (mkMerge intCmp [[5], [3, 5]])
    ∧ (mkMerge intCmp [[5], [3, 5]]).heap 0 = 1
    ∧ (mkMerge intCmp [[5], [3, 5]]).fronts 0 = 5
    ∧ ((emsRead intCmp (mkMerge intCmp [[5], [3, 5]])).2).fronts 1 = 5
    ∧ intCmp 5 5 = 0
    ∧ ((emsRead intCmp (mkMerge intCmp [[5], [3, 5]])).2).heap 0 = 1
    ∧ (mkMerge intCmp [[7], [7]]).heap 0 = 0 :=
  ⟨rfl, by decide, by decide, by decide, by decide, by decide, by decide⟩

/-- C7 amended: tie-breaking differs between the two phases.  In the
bottom-up build a tie (`cmp = 0`) between two real contenders is won by
the LEFT child's winner (the leftmost leaf wins).  In `adjust`, a tie
between the travelling candidate and the stored loser is won by the
TRAVELLING candidate — the refilled run — regardless of which of the two
sits at the leftmost leaf. -/
theorem tie_break_behavior {α : Type} [Inhabited α] (cmp : α → α → Int)
    (fronts : Nat → α) (hw : (Nat → Int) × (Nat → Int)) (i : Nat)
    (t cur : Nat) (heap : Nat → Int) (w : Int)
    (hl : hw.2 (2 * i) ≠ -1)
    (htie : cmp (fronts (hw.2 (2 * i)).toNat) (fronts (hw.2 (2 * i + 1)).toNat) = 0)
    (hcur : ¬cur = 1)
    (hw1 : w ≠ -1)
    (htie2 : cmp (fronts w.toNat) (fronts (heap (cur / 2)).toNat) = 0) :
    buildStep cmp fronts hw i = (upd hw.1 i (hw.2 (2 * i + 1)), upd hw.2 i (hw.2 (2 * i)))
    ∧ adjustLoopN cmp fronts (t + 1) cur heap w
        = adjustLoopN cmp fronts t (cur / 2) heap w := by
  constructor
  · unfold buildStep
    rw [if_pos ⟨hl, Or.inr htie.le⟩]
  · conv_lhs => unfold adjustLoopN
    rw [if_neg hcur, if_pos ⟨hw1, Or.inr htie2.le⟩]

theorem tie_break_behavior_witness :
    buildStep intCmp (fun _ => 5) (fun _ => 0, fun j => if j = 3 then 1 else 0) 1
      = (upd (fun _ => 0) 1 ((fun j : Nat => if j = 3 then (1 : Int) else 0) 3),
         upd (fun j : Nat => if j = 3 then (1 : Int) else 0) 1
           ((fun j : Nat => if j = 3 then (1 : Int) else 0) 2))
    ∧ adjustLoopN intCmp (fun _ => 5) (0 + 1) 2 (fun _ => 0) 1
        = adjustLoopN intCmp (fun _ => 5) 0 (2 / 2) (fun _ => 0) 1 :=
  tie_break_behavior intCmp (fun _ => 5) (fun _ => 0, fun j => if j = 3 then 1 else 0) 1
    0 2 (fun _ => 0) 1 (by decide) (by decide) (by decide) (by decide) (by decide)

lemma upd_self {β : Type _} (f : Nat → β) (p : Nat) (v : β) : upd f p v p = v := by
  simp [upd]

lemma upd_ne {β : Type _} (f : Nat → β) (p j : Nat) (v : β) (h : j ≠ p) : upd f p v j = f j := by
  simp [upd, h]

/-- `x` wins a match of the loser tree against `y`: `y` is a dummy, or
`x` is real and its front record compares `≤ 0` against that of `y`. -/
def beats {α : Type} (cmp : α → α → Int) (fr : Nat → α) (x y : Int) : Prop :=
  y = -1 ∨ (x ≠ -1 ∧ cmp (fr x.toNat) (fr y.toNat) ≤ 0)

lemma beats_refl {α : Type} (cmp : α → α → Int) (fr : Nat → α)
    (htot : ∀ a b, cmp a b ≤ 0 ∨ cmp b a ≤ 0) (x : Int) : beats cmp fr x x := by
  by_cases hx : x = -1
  · exact Or.inl hx
  · exact Or.inr ⟨hx, (htot _ _).elim id id⟩

lemma beats_trans {α : Type} (cmp : α → α → Int) (fr : Nat → α)
    (htrans : ∀ a b c, cmp a b ≤ 0 → cmp b c ≤ 0 → cmp a c ≤ 0)
    {x y z : Int} (h1 : beats cmp fr x y) (h2 : beats cmp fr y z) : beats cmp fr x z := by
  rcases h2 with h2 | ⟨hy, h2⟩
  · exact Or.inl h2
  · rcases h1 with h1 | ⟨hx, h1⟩
    · exact absurd h1 hy
    · exact Or.inr ⟨hx, htrans _ _ _ h1 h2⟩

/-- The local loser-tree condition at internal node `i`: the stored value
`heap i` and the winner label `w i` are the two children's winner labels,
and the winner beats the stored loser. -/
def nodeOK {α : Type} (cmp : α → α → Int) (fr : Nat → α) (heap w : Nat → Int) (i : Nat) : Prop :=
  ((w i = w (2 * i) ∧ heap i = w (2 * i + 1)) ∨ (w i = w (2 * i + 1) ∧ heap i = w (2 * i)))
  ∧ beats cmp fr (w i) (heap i)

/-- A winner labeling `w` certifying that `heap` is a well-formed loser
tree of height `hh` over the fronts `fr`. -/
structure LTreeInv {α : Type} (cmp : α → α → Int) (hh : Nat) (heap w : Nat → Int)
    (fr : Nat → α) : Prop where
  leaf_eq : ∀ j, 2 ^ hh ≤ j → j < 2 ^ (hh + 1) → w j = heap j
  node : ∀ i, 1 ≤ i → i < 2 ^ hh → nodeOK cmp fr heap w i

lemma nodeOK_upd_heap {α : Type} (cmp : α → α → Int) (fr : Nat → α) (heap w : Nat → Int)
    (i p : Nat) (v : Int) (h : nodeOK cmp fr heap w i) (hip : i ≠ p) :
    nodeOK cmp fr (upd heap p v) w i := by
  unfold nodeOK
  rw [upd_ne _ _ _ _ hip]
  exact h

lemma nodeOK_upd_w {α : Type} (cmp : α → α → Int) (fr : Nat → α) (heap w : Nat → Int)
    (i p : Nat) (v : Int) (h : nodeOK cmp fr heap w i)
    (hip : i ≠ p) (hlp : 2 * i ≠ p) (hrp : 2 * i + 1 ≠ p) :
    nodeOK cmp fr heap (upd w p v) i := by
  unfold nodeOK
  rw [upd_ne _ _ _ _ hip, upd_ne _ _ _ _ hlp, upd_ne _ _ _ _ hrp]
  exact h

/-- The merge-phase invariant: a valid loser tree whose root mirrors
`heap 0`, leaves holding their run index or `-1`, dummy leaves past `k`,
and sorted per-run contents. -/
structure MInv {α : Type} [Inhabited α] (cmp : α → α → Int) (s : MergeState α) : Prop where
  hk : s.k ≤ 2 ^ s.h
  tree : ∃ w, LTreeInv cmp s.h s.heap w s.fronts ∧ s.heap 0 = w 1
  leafval : ∀ i, i < s.k → s.heap (2 ^ s.h + i) = (i : Int) ∨ s.heap (2 ^ s.h + i) = -1
  dummy : ∀ j, 2 ^ s.h + s.k ≤ j → j < 2 ^ (s.h + 1) → s.heap j = -1
  sorted : ∀ i, i < s.k → s.heap (2 ^ s.h + i) ≠ -1 →
    (s.fronts i :: s.rems i).Pairwise (fun a b => cmp a b ≤ 0)

/-- The unread records contributed by run `i`: nothing when its leaf is
a dummy, else its front record followed by its unread remainder. -/
def remSlot {α : Type} [Inhabited α] (s : MergeState α) (i : Nat) : List α :=
  if s.heap (2 ^ s.h + i) = -1 then [] else s.fronts i :: s.rems i

/-- All records not yet returned by `read`. -/
def remaining {α : Type} [Inhabited α] (s : MergeState α) : List α :=
  (List.range s.k).flatMap (remSlot s)

lemma flatMap_range_congr {β : Type} (g g' : Nat → List β) :
    ∀ k, (∀ i, i < k → g i = g' i) →
      (List.range k).flatMap g = (List.range k).flatMap g' := by
  intro k
  induction k with
  | zero => intro _; rfl
  | succ k ih =>
    intro h
    rw [List.range_succ, List.flatMap_append, List.flatMap_append,
      ih (fun i hi => h i (by omega))]
    simp [h k (by omega)]

lemma flatMap_range_nil {β : Type} :
    ∀ k, (List.range k).flatMap (fun _ => ([] : List β)) = [] := by
  intro k
  induction k with
  | zero => rfl
  | succ k ih => rw [List.range_succ, List.flatMap_append, ih]; simp

lemma flatMap_extract {β : Type} (g g' : Nat → List β) (f0 : Nat) (a : β) :
    ∀ k, f0 < k → (∀ i, i < k → i ≠ f0 → g' i = g i) → g f0 = a :: g' f0 →
      List.Perm ((List.range k).flatMap g) (a :: (List.range k).flatMap g') := by
  intro k
  induction k with
  | zero => intro h; omega
  | succ k ih =>
    intro hf0 hg hgf
    rw [List.range_succ, List.flatMap_append, List.flatMap_append]
    simp only [List.flatMap_cons, List.flatMap_nil, List.append_nil]
    by_cases hfk : f0 = k
    · subst hfk
      have hcong : (List.range f0).flatMap g = (List.range f0).flatMap g' :=
        flatMap_range_congr g g' f0 (fun i hi => (hg i (by omega) (by omega)).symm)
      rw [hcong, hgf]
      exact List.perm_middle
    · have ih2 := ih (by omega) (fun i hi hne => hg i (by omega) hne) hgf
      have hk2 : g k = g' k := (hg k (by omega) (by omega)).symm
      rw [hk2]
      exact ih2.append_right (g' k)

lemma headD_cons_tail {β : Type} (l : List β) (d : β) (h : l ≠ []) :
    l.headD d :: l.tail = l := by
  cases l with
  | nil => exact absurd rfl h
  | cons a t => rfl

lemma two_le_two_pow {d : Nat} (hd : 1 ≤ d) : 2 ≤ 2 ^ d := by
  calc (2:Nat) = 2 ^ 1 := (pow_one 2).symm
  _ ≤ 2 ^ d := Nat.pow_le_pow_right (by omega) hd

/-- The sibling of a node in the heap. -/
def sib (x : Nat) : Nat := if x % 2 = 0 then x + 1 else x - 1

lemma sib_ne (x : Nat) (hx : 1 ≤ x) : sib x ≠ x := by
  unfold sib
  by_cases h : x % 2 = 0
  · rw [if_pos h]; omega
  · rw [if_neg h]; omega

lemma sib_le_succ (x : Nat) : sib x ≤ x + 1 := by
  unfold sib
  by_cases h : x % 2 = 0
  · rw [if_pos h]
  · rw [if_neg h]; omega

lemma sib_two_mul (p : Nat) : sib (2 * p) = 2 * p + 1 := by
  unfold sib; rw [if_pos (by omega)]

lemma sib_two_mul_add_one (p : Nat) : sib (2 * p + 1) = 2 * p := by
  unfold sib; rw [if_neg (by omega)]; omega

lemma sib_path_ne (x d : Nat) (hd : 1 ≤ d) (ha : 1 ≤ x / 2 ^ d) : sib (x / 2 ^ (d - 1)) ≠ x := by
  have hx : 2 ^ d ≤ x := (Nat.one_le_div_iff (Nat.two_pow_pos d)).mp ha
  by_cases hd1 : d = 1
  · subst hd1
    rw [show (1:Nat) - 1 = 0 from rfl, pow_zero, Nat.div_one]
    exact sib_ne x (by rw [pow_one] at hx; omega)
  · have h4 : 4 ≤ 2 ^ d := by
      calc (4:Nat) = 2 ^ 2 := by norm_num
      _ ≤ 2 ^ d := Nat.pow_le_pow_right (by omega) (by omega)
    have h2e : 2 ≤ 2 ^ (d - 1) := two_le_two_pow (by omega)
    have hc : x / 2 ^ (d - 1) ≤ x / 2 := Nat.div_le_div_left h2e (by omega)
    have hs : sib (x / 2 ^ (d - 1)) ≤ x / 2 ^ (d - 1) + 1 := sib_le_succ _
    omega

/-- `i` is a proper ancestor of `cur` in the heap. -/
def properAnc (cur i : Nat) : Prop := ∃ d, 1 ≤ d ∧ cur / 2 ^ d = i

lemma properAnc_one (i : Nat) (hi : 1 ≤ i) : ¬ properAnc 1 i := by
  rintro ⟨d, hd, he⟩
  have h2 : 2 ≤ 2 ^ d := two_le_two_pow hd
  have : (1:Nat) / 2 ^ d = 0 := Nat.div_eq_of_lt (by omega)
  omega

lemma properAnc_div (cur d : Nat) (hd : 1 ≤ d) : cur / 2 ^ d = (cur / 2) / 2 ^ (d - 1) := by
  obtain ⟨e, rfl⟩ : ∃ e, d = e + 1 := ⟨d - 1, by omega⟩
  rw [Nat.add_sub_cancel, Nat.div_div_eq_div_mul, ← pow_succ']

/-- In a well-formed loser tree, the winner label of the node `c` (whose
subtree spans the leaves `[c * 2 ^ e, (c + 1) * 2 ^ e)`) is one of its
subtree's leaf values and beats every leaf value of its subtree. -/
lemma winner_minimal {α : Type} (cmp : α → α → Int) (fr : Nat → α) (hh : Nat)
    (heap w : Nat → Int)
    (htot : ∀ a b, cmp a b ≤ 0 ∨ cmp b a ≤ 0)
    (htrans : ∀ a b c, cmp a b ≤ 0 → cmp b c ≤ 0 → cmp a c ≤ 0)
    (hLT : LTreeInv cmp hh heap w fr) :
    ∀ e, e ≤ hh → ∀ c, 2 ^ hh ≤ c * 2 ^ e → (c + 1) * 2 ^ e ≤ 2 ^ (hh + 1) →
      (∃ j0, c * 2 ^ e ≤ j0 ∧ j0 < (c + 1) * 2 ^ e ∧ w c = heap j0) ∧
      (∀ j, c * 2 ^ e ≤ j → j < (c + 1) * 2 ^ e → beats cmp fr (w c) (heap j)) := by
  intro e
  induction e with
  | zero =>
    intro _ c h1 h2
    rw [pow_zero, mul_one] at h1 h2 ⊢
    have hle := hLT.leaf_eq c h1 (by omega)
    constructor
    · exact ⟨c, by omega, by omega, hle⟩
    · intro j hj1 hj2
      have hjc : j = c := by omega
      subst hjc
      rw [hle]
      exact beats_refl cmp fr htot _
  | succ e ih =>
    intro he c h1 h2
    have hA : (2 * c) * 2 ^ e = c * 2 ^ (e + 1) := by ring
    have hB : (2 * c + 2) * 2 ^ e = (c + 1) * 2 ^ (e + 1) := by ring
    have hstep : (2 * c + 1) * 2 ^ e ≤ (2 * c + 2) * 2 ^ e :=
      Nat.mul_le_mul_right _ (by omega)
    have hstep0 : (2 * c) * 2 ^ e ≤ (2 * c + 1) * 2 ^ e :=
      Nat.mul_le_mul_right _ (by omega)
    have hc1 : 1 ≤ c := by
      rcases Nat.eq_zero_or_pos c with hc | hc
      · subst hc
        simp only [Nat.zero_mul] at h1
        have := Nat.two_pow_pos hh
        omega
      · omega
    have hc2 : c < 2 ^ hh := by
      have h2' : (c + 1) * 2 ≤ 2 ^ hh * 2 := by
        have hee : 2 ≤ 2 ^ (e + 1) := two_le_two_pow (by omega)
        calc (c + 1) * 2 ≤ (c + 1) * 2 ^ (e + 1) := Nat.mul_le_mul_left _ hee
        _ ≤ 2 ^ (hh + 1) := h2
        _ = 2 ^ hh * 2 := by rw [pow_succ]
      omega
    obtain ⟨hstruct, hbeats⟩ := hLT.node c hc1 hc2
    obtain ⟨⟨j0l, hj0l1, hj0l2, hj0lv⟩, hminl⟩ := ih (by omega) (2 * c)
      (by rw [hA]; exact h1)
      (le_trans hstep (by rw [hB]; exact h2))
    obtain ⟨⟨j0r, hj0r1, hj0r2, hj0rv⟩, hminr⟩ := ih (by omega) (2 * c + 1)
      (le_trans (by rw [hA]; exact h1) hstep0)
      (by rw [hB]; exact h2)
    have hbl : beats cmp fr (w c) (w (2 * c)) := by
      rcases hstruct with ⟨hw, hp⟩ | ⟨hw, hp⟩
      · rw [hw]; exact beats_refl cmp fr htot _
      · rw [← hp]; exact hbeats
    have hbr : beats cmp fr (w c) (w (2 * c + 1)) := by
      rcases hstruct with ⟨hw, hp⟩ | ⟨hw, hp⟩
      · rw [← hp]; exact hbeats
      · rw [hw]; exact beats_refl cmp fr htot _
    constructor
    · rcases hstruct with ⟨hw, hp⟩ | ⟨hw, hp⟩
      · exact ⟨j0l, by rw [← hA]; exact hj0l1,
          by rw [← hB]; exact lt_of_lt_of_le hj0l2 hstep, hw.trans hj0lv⟩
      · exact ⟨j0r, by rw [← hA]; exact le_trans hstep0 hj0r1,
          by rw [← hB]; exact hj0r2, hw.trans hj0rv⟩
    · intro j hj1 hj2
      rw [← hA] at hj1
      rw [← hB] at hj2
      by_cases hsplit : j < (2 * c + 1) * 2 ^ e
      · exact beats_trans cmp fr htrans hbl (hminl j hj1 hsplit)
      · exact beats_trans cmp fr htrans hbr (hminr j (Nat.le_of_not_lt hsplit) hj2)

lemma div_pow_ge (L hh d : Nat) (hL : 2 ^ hh ≤ L) (hd : d ≤ hh) : 2 ^ (hh - d) ≤ L / 2 ^ d := by
  have h1 : 2 ^ (hh - d) * 2 ^ d = 2 ^ hh := by rw [← pow_add]; congr 1; omega
  have h2 : 2 ^ (hh - d) ≤ 2 ^ hh / 2 ^ d := by
    rw [Nat.le_div_iff_mul_le (Nat.two_pow_pos d), h1]
  exact le_trans h2 (Nat.div_le_div_right hL)

lemma div_pow_lt (L hh d : Nat) (hL : L < 2 ^ (hh + 1)) (hd : d ≤ hh + 1) :
    L / 2 ^ d < 2 ^ (hh + 1 - d) := by
  apply Nat.div_lt_of_lt_mul
  have hEq : 2 ^ d * 2 ^ (hh + 1 - d) = 2 ^ (hh + 1) := by rw [← pow_add]; congr 1; omega
  omega

/-- The winner label of a node whose subtree does not contain the leaf
`f + 2 ^ hh` is a dummy or the index of a run other than `f`. -/
lemma winner_val_ne {α : Type} (cmp : α → α → Int) (fr : Nat → α) (hh k f : Nat)
    (heap w : Nat → Int)
    (htot : ∀ a b, cmp a b ≤ 0 ∨ cmp b a ≤ 0)
    (htrans : ∀ a b c, cmp a b ≤ 0 → cmp b c ≤ 0 → cmp a c ≤ 0)
    (hLT : LTreeInv cmp hh heap w fr)
    (hleafval : ∀ i, i < k → heap (2 ^ hh + i) = (i : Int) ∨ heap (2 ^ hh + i) = -1)
    (hdummy : ∀ j, 2 ^ hh + k ≤ j → j < 2 ^ (hh + 1) → heap j = -1)
    (c e : Nat) (he : e ≤ hh) (hc1 : 2 ^ hh ≤ c * 2 ^ e) (hc2 : (c + 1) * 2 ^ e ≤ 2 ^ (hh + 1))
    (hcell : (f + 2 ^ hh) / 2 ^ e ≠ c) :
    w c = -1 ∨ ∃ i1, i1 < k ∧ i1 ≠ f ∧ w c = (i1 : Int) := by
  obtain ⟨⟨j0, hj01, hj02, hj0v⟩, _⟩ :=
    winner_minimal cmp fr hh heap w htot htrans hLT e he c hc1 hc2
  have hj0leaf1 : 2 ^ hh ≤ j0 := le_trans hc1 hj01
  have hj0leaf2 : j0 < 2 ^ (hh + 1) := lt_of_lt_of_le hj02 hc2
  have hj0ne : j0 ≠ f + 2 ^ hh := by
    intro hEq
    apply hcell
    rw [← hEq]
    exact Nat.div_eq_of_lt_le hj01 hj02
  have hj0eq : 2 ^ hh + (j0 - 2 ^ hh) = j0 := by omega
  by_cases hik : j0 - 2 ^ hh < k
  · rcases hleafval (j0 - 2 ^ hh) hik with hv | hv
    · right
      refine ⟨j0 - 2 ^ hh, hik, by omega, ?_⟩
      rw [hj0eq] at hv
      rw [hj0v, hv]
    · left
      rw [hj0eq] at hv
      rw [hj0v, hv]
  · left
    rw [hj0v]
    exact hdummy j0 (by omega) hj0leaf2

/-- The winner label of the sibling of a node on the path from leaf
`f + 2 ^ hh` to the root differs from run index `f`. -/
lemma sib_winner_ne {α : Type} (cmp : α → α → Int) (fr : Nat → α) (hh k f : Nat)
    (heap w : Nat → Int)
    (htot : ∀ a b, cmp a b ≤ 0 ∨ cmp b a ≤ 0)
    (htrans : ∀ a b c, cmp a b ≤ 0 → cmp b c ≤ 0 → cmp a c ≤ 0)
    (hLT : LTreeInv cmp hh heap w fr)
    (hk : k ≤ 2 ^ hh) (hfk : f < k)
    (hleafval : ∀ i, i < k → heap (2 ^ hh + i) = (i : Int) ∨ heap (2 ^ hh + i) = -1)
    (hdummy : ∀ j, 2 ^ hh + k ≤ j → j < 2 ^ (hh + 1) → heap j = -1)
    (d : Nat) (hd : 1 ≤ d) (hdh : d ≤ hh) :
    w (sib ((f + 2 ^ hh) / 2 ^ (d - 1))) ≠ (f : Int) := by
  have hL1 : 2 ^ hh ≤ f + 2 ^ hh := by omega
  have hL2 : f + 2 ^ hh < 2 ^ (hh + 1) := by
    have hp : 2 ^ (hh + 1) = 2 ^ hh + 2 ^ hh := by rw [pow_succ]; ring
    omega
  have e2 : 2 ^ (d - 1) * 2 = 2 ^ d := by rw [← pow_succ]; congr 1; omega
  have hage : 2 ^ (hh - d) ≤ (f + 2 ^ hh) / 2 ^ d := div_pow_ge _ hh d hL1 hdh
  have halt : (f + 2 ^ hh) / 2 ^ d < 2 ^ (hh + 1 - d) := div_pow_lt _ hh d hL2 (by omega)
  have hadd : 2 ^ (hh - d) * 2 ^ d = 2 ^ hh := by rw [← pow_add]; congr 1; omega
  have hadd2 : 2 ^ (hh + 1 - d) * 2 ^ d = 2 ^ (hh + 1) := by rw [← pow_add]; congr 1; omega
  set a := (f + 2 ^ hh) / 2 ^ d with ha
  set c := (f + 2 ^ hh) / 2 ^ (d - 1) with hc
  have hca : c / 2 = a := by
    rw [hc, ha, Nat.div_div_eq_div_mul, ← pow_succ]
    congr 2
    omega
  have hsplit : c = 2 * a ∨ c = 2 * a + 1 := by omega
  have hmul1 : 2 ^ hh ≤ (2 * a) * 2 ^ (d - 1) := by
    calc 2 ^ hh = 2 ^ (hh - d) * 2 ^ d := hadd.symm
    _ ≤ a * 2 ^ d := Nat.mul_le_mul_right _ hage
    _ = (2 * a) * 2 ^ (d - 1) := by rw [← e2]; ring
  have hmul2 : (2 * a + 2) * 2 ^ (d - 1) ≤ 2 ^ (hh + 1) := by
    calc (2 * a + 2) * 2 ^ (d - 1) = (a + 1) * 2 ^ d := by rw [← e2]; ring
    _ ≤ 2 ^ (hh + 1 - d) * 2 ^ d := Nat.mul_le_mul_right _ (by omega)
    _ = 2 ^ (hh + 1) := hadd2
  have hmul15 : (2 * a) * 2 ^ (d - 1) ≤ (2 * a + 1) * 2 ^ (d - 1) :=
    Nat.mul_le_mul_right _ (by omega)
  have hmul25 : (2 * a + 1) * 2 ^ (d - 1) ≤ (2 * a + 2) * 2 ^ (d - 1) :=
    Nat.mul_le_mul_right _ (by omega)
  have hfinish : ∀ s0, (w s0 = -1 ∨ ∃ i1, i1 < k ∧ i1 ≠ f ∧ w s0 = (i1 : Int)) →
      w s0 ≠ (f : Int) := by
    rintro s0 (hv | ⟨i1, _, hne, hv⟩) <;> rw [hv]
    · intro hcontra; omega
    · intro hcontra
      have : i1 = f := by exact_mod_cast hcontra
      omega
  rcases hsplit with hsp | hsp
  · rw [hsp, sib_two_mul]
    refine hfinish _ (winner_val_ne cmp fr hh k f heap w htot htrans hLT hleafval hdummy
      (2 * a + 1) (d - 1) (by omega) (le_trans hmul1 hmul15) hmul2 ?_)
    rw [← hc]
    omega
  · rw [hsp, sib_two_mul_add_one]
    refine hfinish _ (winner_val_ne cmp fr hh k f heap w htot htrans hLT hleafval hdummy
      (2 * a) (d - 1) (by omega) hmul1 (le_trans hmul25 hmul2) ?_)
    rw [← hc]
    omega

/-- The winner labels along the path from the champion's leaf to the
root all carry the champion `f`. -/
lemma path_winner {α : Type} (cmp : α → α → Int) (fr : Nat → α) (hh k f : Nat)
    (heap w : Nat → Int)
    (htot : ∀ a b, cmp a b ≤ 0 ∨ cmp b a ≤ 0)
    (htrans : ∀ a b c, cmp a b ≤ 0 → cmp b c ≤ 0 → cmp a c ≤ 0)
    (hLT : LTreeInv cmp hh heap w fr)
    (hk : k ≤ 2 ^ hh) (hfk : f < k)
    (hleafval : ∀ i, i < k → heap (2 ^ hh + i) = (i : Int) ∨ heap (2 ^ hh + i) = -1)
    (hdummy : ∀ j, 2 ^ hh + k ≤ j → j < 2 ^ (hh + 1) → heap j = -1)
    (hw1 : w 1 = (f : Int)) :
    ∀ m, m ≤ hh → w ((f + 2 ^ hh) / 2 ^ (hh - m)) = (f : Int) := by
  have hL1 : 2 ^ hh ≤ f + 2 ^ hh := by omega
  have hL2 : f + 2 ^ hh < 2 ^ (hh + 1) := by
    have hp : 2 ^ (hh + 1) = 2 ^ hh + 2 ^ hh := by rw [pow_succ]; ring
    omega
  intro m
  induction m with
  | zero =>
    intro _
    rw [Nat.sub_zero]
    have hroot : (f + 2 ^ hh) / 2 ^ hh = 1 := by
      apply Nat.div_eq_of_lt_le
      · rw [one_mul]; exact hL1
      · rw [show (1 + 1) * 2 ^ hh = 2 ^ hh + 2 ^ hh from by ring]
        have hp : 2 ^ (hh + 1) = 2 ^ hh + 2 ^ hh := by rw [pow_succ]; ring
        omega
    rw [hroot, hw1]
  | succ m ih =>
    intro hm
    have hwa := ih (by omega)
    set d := hh - m with hdd
    have hd1 : 1 ≤ d := by omega
    rw [show hh - (m + 1) = d - 1 from by omega]
    have hage : 2 ^ (hh - d) ≤ (f + 2 ^ hh) / 2 ^ d := div_pow_ge _ hh d hL1 (by omega)
    have halt : (f + 2 ^ hh) / 2 ^ d < 2 ^ (hh + 1 - d) := div_pow_lt _ hh d hL2 (by omega)
    set a := (f + 2 ^ hh) / 2 ^ d with ha
    set c := (f + 2 ^ hh) / 2 ^ (d - 1) with hc
    have hca : c / 2 = a := by
      rw [hc, ha, Nat.div_div_eq_div_mul, ← pow_succ]
      congr 2
      omega
    have hsplit : c = 2 * a ∨ c = 2 * a + 1 := by omega
    have ha1 : 1 ≤ a := by
      have := Nat.two_pow_pos (hh - d)
      omega
    have ha2 : a < 2 ^ hh := by
      have hle : 2 ^ (hh + 1 - d) ≤ 2 ^ hh := Nat.pow_le_pow_right (by omega) (by omega)
      omega
    obtain ⟨hstruct, _⟩ := hLT.node a ha1 ha2
    have hsib := sib_winner_ne cmp fr hh k f heap w htot htrans hLT hk hfk hleafval hdummy
      d hd1 (by omega)
    rw [← hc] at hsib
    rcases hsplit with hsp | hsp
    · rcases hstruct with ⟨hwstruct, _⟩ | ⟨hwstruct, _⟩
      · rw [hsp, ← hwstruct, hwa]
      · exfalso
        apply hsib
        rw [hsp, sib_two_mul, ← hwstruct, hwa]
    · rcases hstruct with ⟨hwstruct, _⟩ | ⟨hwstruct, _⟩
      · exfalso
        apply hsib
        rw [hsp, sib_two_mul_add_one, ← hwstruct, hwa]
      · rw [hsp, ← hwstruct, hwa]

/-- Along the champion's path, each internal node stores the winner
label of the sibling subtree. -/
lemma path_loser {α : Type} (cmp : α → α → Int) (fr : Nat → α) (hh k f : Nat)
    (heap w : Nat → Int)
    (htot : ∀ a b, cmp a b ≤ 0 ∨ cmp b a ≤ 0)
    (htrans : ∀ a b c, cmp a b ≤ 0 → cmp b c ≤ 0 → cmp a c ≤ 0)
    (hLT : LTreeInv cmp hh heap w fr)
    (hk : k ≤ 2 ^ hh) (hfk : f < k)
    (hleafval : ∀ i, i < k → heap (2 ^ hh + i) = (i : Int) ∨ heap (2 ^ hh + i) = -1)
    (hdummy : ∀ j, 2 ^ hh + k ≤ j → j < 2 ^ (hh + 1) → heap j = -1)
    (hw1 : w 1 = (f : Int)) :
    ∀ d, 1 ≤ d → d ≤ hh →
      heap ((f + 2 ^ hh) / 2 ^ d) = w (sib ((f + 2 ^ hh) / 2 ^ (d - 1))) := by
  intro d hd hdh
  have hL1 : 2 ^ hh ≤ f + 2 ^ hh := by omega
  have hL2 : f + 2 ^ hh < 2 ^ (hh + 1) := by
    have hp : 2 ^ (hh + 1) = 2 ^ hh + 2 ^ hh := by rw [pow_succ]; ring
    omega
  have hwa : w ((f + 2 ^ hh) / 2 ^ d) = (f : Int) := by
    have hpw := path_winner cmp fr hh k f heap w htot htrans hLT hk hfk hleafval hdummy hw1
      (hh - d) (by omega)
    rw [show hh - (hh - d) = d from by omega] at hpw
    exact hpw
  have hage : 2 ^ (hh - d) ≤ (f + 2 ^ hh) / 2 ^ d := div_pow_ge _ hh d hL1 hdh
  have halt : (f + 2 ^ hh) / 2 ^ d < 2 ^ (hh + 1 - d) := div_pow_lt _ hh d hL2 (by omega)
  set a := (f + 2 ^ hh) / 2 ^ d with ha
  set c := (f + 2 ^ hh) / 2 ^ (d - 1) with hc
  have hca : c / 2 = a := by
    rw [hc, ha, Nat.div_div_eq_div_mul, ← pow_succ]
    congr 2
    omega
  have hsplit : c = 2 * a ∨ c = 2 * a + 1 := by omega
  have ha1 : 1 ≤ a := by
    have := Nat.two_pow_pos (hh - d)
    omega
  have ha2 : a < 2 ^ hh := by
    have hle : 2 ^ (hh + 1 - d) ≤ 2 ^ hh := Nat.pow_le_pow_right (by omega) (by omega)
    omega
  obtain ⟨hstruct, _⟩ := hLT.node a ha1 ha2
  have hsib := sib_winner_ne cmp fr hh k f heap w htot htrans hLT hk hfk hleafval hdummy
    d hd hdh
  rw [← hc] at hsib
  rcases hsplit with hsp | hsp
  · rw [hsp, sib_two_mul]
    rcases hstruct with ⟨_, hpstruct⟩ | ⟨hwstruct, _⟩
    · exact hpstruct
    · exfalso
      apply hsib
      rw [hsp, sib_two_mul, ← hwstruct, hwa]
  · rw [hsp, sib_two_mul_add_one]
    rcases hstruct with ⟨hwstruct, _⟩ | ⟨_, hpstruct⟩
    · exfalso
      apply hsib
      rw [hsp, sib_two_mul_add_one, ← hwstruct, hwa]
    · exact hpstruct

lemma beats_upd_ne {α : Type} (cmp : α → α → Int) (fr : Nat → α) (f : Nat) (x : α)
    (a b : Int) (h : beats cmp fr a b)
    (ha : a = -1 ∨ ∃ i1, i1 ≠ f ∧ a = (i1 : Int))
    (hb : b = -1 ∨ ∃ i1, i1 ≠ f ∧ b = (i1 : Int)) :
    beats cmp (upd fr f x) a b := by
  by_cases hb1 : b = -1
  · exact Or.inl hb1
  · rcases h with h | ⟨hane, hle⟩
    · exact absurd h hb1
    · rcases ha with ha | ⟨ia, hia, rfl⟩
      · exact absurd ha hane
      · rcases hb with hb | ⟨ib, hib, rfl⟩
        · exact absurd hb hb1
        · refine Or.inr ⟨hane, ?_⟩
          rw [Int.toNat_natCast, Int.toNat_natCast] at hle ⊢
          rw [upd_ne _ _ _ _ hia, upd_ne _ _ _ _ hib]
          exact hle

/-- Every internal node off the champion's path keeps its local
loser-tree condition when the champion run's front record changes. -/
lemma offpath_nodeOK {α : Type} (cmp : α → α → Int) (fr : Nat → α) (hh k f : Nat)
    (heap w : Nat → Int) (x : α)
    (htot : ∀ a b, cmp a b ≤ 0 ∨ cmp b a ≤ 0)
    (htrans : ∀ a b c, cmp a b ≤ 0 → cmp b c ≤ 0 → cmp a c ≤ 0)
    (hLT : LTreeInv cmp hh heap w fr)
    (hleafval : ∀ i, i < k → heap (2 ^ hh + i) = (i : Int) ∨ heap (2 ^ hh + i) = -1)
    (hdummy : ∀ j, 2 ^ hh + k ≤ j → j < 2 ^ (hh + 1) → heap j = -1)
    (i : Nat) (h1 : 1 ≤ i) (h2 : i < 2 ^ hh) (hnp : ¬ properAnc (f + 2 ^ hh) i) :
    nodeOK cmp (upd fr f x) heap w i := by
  obtain ⟨hstruct, hbeats⟩ := hLT.node i h1 h2
  set t := Nat.log 2 i with ht
  have ht1 : 2 ^ t ≤ i := Nat.pow_log_le_self 2 (by omega)
  have ht2 : i < 2 ^ (t + 1) := Nat.lt_pow_succ_log_self (by norm_num) i
  have hth : t < hh := by
    have hlt : 2 ^ t < 2 ^ hh := lt_of_le_of_lt ht1 h2
    exact (Nat.pow_lt_pow_iff_right (by norm_num)).mp hlt
  have hadd : 2 ^ t * 2 ^ (hh - t) = 2 ^ hh := by rw [← pow_add]; congr 1; omega
  have hadd2 : 2 ^ (t + 1) * 2 ^ (hh - t) = 2 ^ (hh + 1) := by rw [← pow_add]; congr 1; omega
  have hadd3 : 2 ^ (t + 1) * 2 ^ (hh - t - 1) = 2 ^ hh := by rw [← pow_add]; congr 1; omega
  have hadd4 : 2 ^ (t + 2) * 2 ^ (hh - t - 1) = 2 ^ (hh + 1) := by rw [← pow_add]; congr 1; omega
  have hp1 : 2 ^ (t + 1) = 2 * 2 ^ t := by rw [pow_succ]; ring
  have hp2 : 2 ^ (t + 2) = 2 * 2 ^ (t + 1) := by rw [pow_succ (2 : Nat) (t + 1)]; ring
  have hb1 : 2 ^ hh ≤ i * 2 ^ (hh - t) := by
    calc 2 ^ hh = 2 ^ t * 2 ^ (hh - t) := hadd.symm
    _ ≤ i * 2 ^ (hh - t) := Nat.mul_le_mul_right _ ht1
  have hb2 : (i + 1) * 2 ^ (hh - t) ≤ 2 ^ (hh + 1) := by
    calc (i + 1) * 2 ^ (hh - t) ≤ 2 ^ (t + 1) * 2 ^ (hh - t) :=
      Nat.mul_le_mul_right _ (by omega)
    _ = 2 ^ (hh + 1) := hadd2
  have hcelli : (f + 2 ^ hh) / 2 ^ (hh - t) ≠ i := by
    intro hEq
    exact hnp ⟨hh - t, by omega, hEq⟩
  have hwi := winner_val_ne cmp fr hh k f heap w htot htrans hLT hleafval hdummy i (hh - t)
    (by omega) hb1 hb2 hcelli
  have hchild : ∀ c0, 2 * i ≤ c0 → c0 ≤ 2 * i + 1 →
      w c0 = -1 ∨ ∃ i1, i1 < k ∧ i1 ≠ f ∧ w c0 = (i1 : Int) := by
    intro c0 hc01 hc02
    have hcb1 : 2 ^ hh ≤ c0 * 2 ^ (hh - t - 1) := by
      calc 2 ^ hh = 2 ^ (t + 1) * 2 ^ (hh - t - 1) := hadd3.symm
      _ ≤ c0 * 2 ^ (hh - t - 1) := Nat.mul_le_mul_right _ (by omega)
    have hcb2 : (c0 + 1) * 2 ^ (hh - t - 1) ≤ 2 ^ (hh + 1) := by
      calc (c0 + 1) * 2 ^ (hh - t - 1) ≤ 2 ^ (t + 2) * 2 ^ (hh - t - 1) :=
        Nat.mul_le_mul_right _ (by omega)
      _ = 2 ^ (hh + 1) := hadd4
    have hcellc : (f + 2 ^ hh) / 2 ^ (hh - t - 1) ≠ c0 := by
      intro hEq
      apply hnp
      refine ⟨hh - t, by omega, ?_⟩
      have hcomp : (f + 2 ^ hh) / 2 ^ (hh - t) = ((f + 2 ^ hh) / 2 ^ (hh - t - 1)) / 2 := by
        rw [Nat.div_div_eq_div_mul, ← pow_succ,
          show hh - t - 1 + 1 = hh - t from by omega]
      rw [hcomp, hEq]
      omega
    exact winner_val_ne cmp fr hh k f heap w htot htrans hLT hleafval hdummy c0 (hh - t - 1)
      (by omega) hcb1 hcb2 hcellc
  have hconv : ∀ v : Int, (v = -1 ∨ ∃ i1, i1 < k ∧ i1 ≠ f ∧ v = (i1 : Int)) →
      (v = -1 ∨ ∃ i1, i1 ≠ f ∧ v = (i1 : Int)) := by
    rintro v (hv | ⟨i1, _, hne, hv⟩)
    · exact Or.inl hv
    · exact Or.inr ⟨i1, hne, hv⟩
  have hbv : heap i = -1 ∨ ∃ i1, i1 ≠ f ∧ heap i = (i1 : Int) := by
    rcases hstruct with ⟨_, hp⟩ | ⟨_, hp⟩
    · rw [hp]; exact hconv _ (hchild (2 * i + 1) (by omega) (by omega))
    · rw [hp]; exact hconv _ (hchild (2 * i) (by omega) (by omega))
  exact ⟨hstruct, beats_upd_ne cmp fr f x _ _ hbeats (hconv _ hwi) hbv⟩

/-- A non-dummy root names an in-range run whose leaf is active. -/
lemma champion {α : Type} [Inhabited α] (cmp : α → α → Int) (s : MergeState α)
    (htot : ∀ a b, cmp a b ≤ 0 ∨ cmp b a ≤ 0)
    (htrans : ∀ a b c, cmp a b ≤ 0 → cmp b c ≤ 0 → cmp a c ≤ 0)
    (hM : MInv cmp s) (hne : s.heap 0 ≠ -1) :
    ∃ f, f < s.k ∧ s.heap 0 = (f : Int) ∧ s.heap (2 ^ s.h + f) = (f : Int) := by
  obtain ⟨w, hLT, hroot⟩ := hM.tree
  have hpp : 2 ^ (s.h + 1) = 2 ^ s.h + 2 ^ s.h := by rw [pow_succ]; ring
  obtain ⟨⟨j0, hj01, hj02, hj0v⟩, _⟩ :=
    winner_minimal cmp s.fronts s.h s.heap w htot htrans hLT s.h (le_refl _) 1
      (by rw [one_mul]) (by rw [show (1 + 1) * 2 ^ s.h = 2 ^ s.h + 2 ^ s.h from by ring]; omega)
  rw [one_mul] at hj01
  rw [show (1 + 1) * 2 ^ s.h = 2 ^ s.h + 2 ^ s.h from by ring] at hj02
  have hj0eq : 2 ^ s.h + (j0 - 2 ^ s.h) = j0 := by omega
  by_cases hik : j0 - 2 ^ s.h < s.k
  · rcases hM.leafval (j0 - 2 ^ s.h) hik with hv | hv
    · rw [hj0eq] at hv
      exact ⟨j0 - 2 ^ s.h, hik, by rw [hroot, hj0v, hv], by rw [hj0eq]; exact hv⟩
    · exfalso
      apply hne
      rw [hj0eq] at hv
      rw [hroot, hj0v, hv]
  · exfalso
    apply hne
    rw [hroot, hj0v]
    exact hM.dummy j0 (by omega) (by omega)

/-- The record at the root of the loser tree compares `≤ 0` against
every unread record. -/
lemma root_min {α : Type} [Inhabited α] (cmp : α → α → Int) (s : MergeState α)
    (htot : ∀ a b, cmp a b ≤ 0 ∨ cmp b a ≤ 0)
    (htrans : ∀ a b c, cmp a b ≤ 0 → cmp b c ≤ 0 → cmp a c ≤ 0)
    (hM : MInv cmp s) (f : Nat) (hfk : f < s.k) (hf : s.heap 0 = (f : Int)) :
    ∀ y, y ∈ remaining s → cmp (s.fronts f) y ≤ 0 := by
  obtain ⟨w, hLT, hroot⟩ := hM.tree
  obtain ⟨_, hmin⟩ :=
    winner_minimal cmp s.fronts s.h s.heap w htot htrans hLT s.h (le_refl _) 1
      (by rw [one_mul])
      (by rw [show (1 + 1) * 2 ^ s.h = 2 ^ s.h + 2 ^ s.h from by ring, pow_succ]; omega)
  intro y hy
  rw [remaining, List.mem_flatMap] at hy
  obtain ⟨i, hi, hyi⟩ := hy
  rw [List.mem_range] at hi
  rw [remSlot] at hyi
  by_cases hact : s.heap (2 ^ s.h + i) = -1
  · rw [if_pos hact] at hyi
    cases hyi
  · rw [if_neg hact] at hyi
    have hleafv : s.heap (2 ^ s.h + i) = (i : Int) := (hM.leafval i hi).resolve_right hact
    have hbi : beats cmp s.fronts (w 1) (s.heap (2 ^ s.h + i)) := by
      apply hmin (2 ^ s.h + i)
      · rw [one_mul]; omega
      · rw [show (1 + 1) * 2 ^ s.h = 2 ^ s.h + 2 ^ s.h from by ring]
        have := hM.hk
        omega
    rw [← hroot, hf, hleafv] at hbi
    have hcmp : cmp (s.fronts f) (s.fronts i) ≤ 0 := by
      rcases hbi with hbi | ⟨_, hbi⟩
      · exact absurd hbi (by omega)
      · rw [Int.toNat_natCast, Int.toNat_natCast] at hbi
        exact hbi
    rcases List.mem_cons.mp hyi with rfl | hmem
    · exact hcmp
    · have hp := hM.sorted i hi hact
      have hhd := (List.pairwise_cons.mp hp).1 y hmem
      exact htrans _ _ _ hcmp hhd

/-- When the root is a dummy, no records remain. -/
lemma remaining_eq_nil {α : Type} [Inhabited α] (cmp : α → α → Int) (s : MergeState α)
    (htot : ∀ a b, cmp a b ≤ 0 ∨ cmp b a ≤ 0)
    (htrans : ∀ a b c, cmp a b ≤ 0 → cmp b c ≤ 0 → cmp a c ≤ 0)
    (hM : MInv cmp s) (h0 : s.heap 0 = -1) : remaining s = [] := by
  obtain ⟨w, hLT, hroot⟩ := hM.tree
  obtain ⟨_, hmin⟩ :=
    winner_minimal cmp s.fronts s.h s.heap w htot htrans hLT s.h (le_refl _) 1
      (by rw [one_mul])
      (by rw [show (1 + 1) * 2 ^ s.h = 2 ^ s.h + 2 ^ s.h from by ring, pow_succ]; omega)
  have hcong : ∀ i, i < s.k → remSlot s i = [] := by
    intro i hi
    have hbi : beats cmp s.fronts (w 1) (s.heap (2 ^ s.h + i)) := by
      apply hmin (2 ^ s.h + i)
      · rw [one_mul]
        omega
      · rw [show (1 + 1) * 2 ^ s.h = 2 ^ s.h + 2 ^ s.h from by ring]
        have := hM.hk
        omega
    rw [← hroot, h0] at hbi
    have hdum : s.heap (2 ^ s.h + i) = -1 := by
      rcases hbi with hbi | ⟨hbne, _⟩
      · exact hbi
      · exact absurd rfl hbne
    rw [remSlot, if_pos hdum]
  rw [remaining, flatMap_range_congr _ _ s.k hcong, flatMap_range_nil]

/-- The `adjust` walk restores the loser tree: starting at node `cur`
of level `t` with all nodes off the path to the root already locally
consistent, the walk produces a consistent tree whose root winner is the
returned travelling value; the leaves are never written. -/
lemma adjustLoop_ok {α : Type} [Inhabited α] (cmp : α → α → Int) (fr : Nat → α) (hh : Nat)
    (htot : ∀ a b, cmp a b ≤ 0 ∨ cmp b a ≤ 0) :
    ∀ t cur heapC w0 wlab,
      2 ^ t ≤ cur → cur < 2 ^ (t + 1) → t ≤ hh →
      (∀ i, 1 ≤ i → i < 2 ^ hh → ¬ properAnc cur i → nodeOK cmp fr heapC wlab i) →
      (∀ j, 2 ^ hh ≤ j → j < 2 ^ (hh + 1) → wlab j = heapC j) →
      wlab cur = w0 →
      (∀ d, 1 ≤ d → 1 ≤ cur / 2 ^ d → heapC (cur / 2 ^ d) = wlab (sib (cur / 2 ^ (d - 1)))) →
      ∃ wl, LTreeInv cmp hh (adjustLoopN cmp fr t cur heapC w0).1 wl fr
        ∧ wl 1 = (adjustLoopN cmp fr t cur heapC w0).2
        ∧ (∀ j, 2 ^ hh ≤ j → (adjustLoopN cmp fr t cur heapC w0).1 j = heapC j) := by
  intro t
  induction t with
  | zero =>
    intro cur heapC w0 wlab hg1 hg2 _ hH1 hH2 hH3 _
    have hcur : cur = 1 := by
      rw [pow_zero] at hg1
      rw [pow_one] at hg2
      omega
    subst hcur
    refine ⟨wlab, ⟨hH2, ?_⟩, hH3, fun j _ => rfl⟩
    intro i hi1 hi2
    exact hH1 i hi1 hi2 (properAnc_one i hi1)
  | succ t ih =>
    intro cur heapC w0 wlab hg1 hg2 hth hH1 hH2 hH3 hH4
    have h2t : 2 ≤ 2 ^ (t + 1) := two_le_two_pow (by omega)
    have hcne : cur ≠ 1 := by omega
    have hp1 : 2 ^ (t + 2) = 2 * 2 ^ (t + 1) := by rw [pow_succ (2:Nat) (t + 1)]; ring
    have hp0 : 2 ^ (t + 1) = 2 * 2 ^ t := by rw [pow_succ]; ring
    have hpar1 : 2 ^ t ≤ cur / 2 := by omega
    have hpar2 : cur / 2 < 2 ^ (t + 1) := by omega
    have hparlt : cur / 2 < 2 ^ hh := by
      have hmono : 2 ^ (t + 1) ≤ 2 ^ hh := Nat.pow_le_pow_right (by omega) hth
      omega
    have hpar0 : 1 ≤ cur / 2 := by
      have := Nat.two_pow_pos t
      omega
    have hH41 : heapC (cur / 2) = wlab (sib cur) := by
      have hx := hH4 1 (le_refl 1) (by rw [pow_one]; exact hpar0)
      rw [pow_one, pow_zero, Nat.div_one] at hx
      exact hx
    have hred : adjustLoopN cmp fr (t + 1) cur heapC w0 =
        if w0 ≠ -1 ∧ (heapC (cur / 2) = -1 ∨
            cmp (fr w0.toNat) (fr (heapC (cur / 2)).toNat) ≤ 0)
        then adjustLoopN cmp fr t (cur / 2) heapC w0
        else adjustLoopN cmp fr t (cur / 2) (upd heapC (cur / 2) w0) (heapC (cur / 2)) := by
      conv_lhs => unfold adjustLoopN
      rw [if_neg hcne]
    rw [hred]
    obtain ⟨p, hpdef⟩ : ∃ p, cur / 2 = p := ⟨cur / 2, rfl⟩
    rw [hpdef] at hH41 hpar1 hpar2 hparlt hpar0 ⊢
    have hsplitc : cur = 2 * p ∨ cur = 2 * p + 1 := by omega
    have hpne2 : 2 * p ≠ p := by omega
    have hpne3 : 2 * p + 1 ≠ p := by omega
    have hdiv1 : ∀ d, 1 ≤ d → p / 2 ^ (d - 1) = cur / 2 ^ d := by
      intro d hd
      rw [← hpdef, ← properAnc_div cur d hd]
    have hdiv2 : ∀ d, p / 2 ^ d = cur / 2 ^ (d + 1) := by
      intro d
      rw [← hpdef, ← Nat.add_sub_cancel d 1, ← properAnc_div cur (d + 1) (by omega),
        Nat.add_sub_cancel]
    have htrans_anc : ∀ i, 1 ≤ i → i ≠ p → ¬ properAnc p i → ¬ properAnc cur i := by
      intro i hi1 hine hnpi hai
      obtain ⟨d, hd1, hde⟩ := hai
      by_cases hd : d = 1
      · subst hd
        rw [pow_one, hpdef] at hde
        exact hine hde.symm
      · apply hnpi
        refine ⟨d - 1, by omega, ?_⟩
        rw [hdiv1 d hd1]
        exact hde
    have hchild_ne : ∀ i, ¬ properAnc p i → 2 * i ≠ p ∧ 2 * i + 1 ≠ p := by
      intro i hnpi
      constructor
      · intro hEq
        apply hnpi
        refine ⟨1, le_refl 1, ?_⟩
        rw [pow_one]
        omega
      · intro hEq
        apply hnpi
        refine ⟨1, le_refl 1, ?_⟩
        rw [pow_one]
        omega
    have hH4new : ∀ (heapN : Nat → Int) (wN : Nat → Int),
        (∀ d, 1 ≤ d → 1 ≤ p / 2 ^ d → heapN (p / 2 ^ d) = heapC (p / 2 ^ d)) →
        (∀ d, 1 ≤ d → 1 ≤ p / 2 ^ d → wN (sib (p / 2 ^ (d - 1))) = wlab (sib (p / 2 ^ (d - 1)))) →
        (∀ d, 1 ≤ d → 1 ≤ p / 2 ^ d → heapN (p / 2 ^ d) = wN (sib (p / 2 ^ (d - 1)))) := by
      intro heapN wN hhp hwp d hd hd1
      rw [hhp d hd hd1, hwp d hd hd1, hdiv2 d, hdiv1 d hd]
      have hx := hH4 (d + 1) (by omega) (by rw [← hdiv2 d]; exact hd1)
      rw [Nat.add_sub_cancel] at hx
      exact hx
    by_cases hC : w0 ≠ -1 ∧ (heapC p = -1 ∨ cmp (fr w0.toNat) (fr (heapC p).toNat) ≤ 0)
    · rw [if_pos hC]
      refine ih p heapC w0 (upd wlab p w0) hpar1 hpar2 (by omega) ?_ ?_ ?_ ?_
      · intro i hi1 hi2 hnpi
        by_cases hip : i = p
        · subst hip
          constructor
          · rcases hsplitc with hsp | hsp
            · left
              constructor
              · rw [upd_self, upd_ne _ _ _ _ hpne2, ← hsp, hH3]
              · rw [upd_ne _ _ _ _ hpne3, hH41, hsp, sib_two_mul]
            · right
              constructor
              · rw [upd_self, upd_ne _ _ _ _ hpne3, ← hsp, hH3]
              · rw [upd_ne _ _ _ _ hpne2, hH41, hsp, sib_two_mul_add_one]
          · rw [upd_self]
            obtain ⟨hw0ne, hOr⟩ := hC
            rcases hOr with hOr | hOr
            · exact Or.inl hOr
            · exact Or.inr ⟨hw0ne, hOr⟩
        · obtain ⟨hc1ne, hc2ne⟩ := hchild_ne i hnpi
          exact nodeOK_upd_w cmp fr heapC wlab i p w0
            (hH1 i hi1 hi2 (htrans_anc i hi1 hip hnpi)) hip hc1ne hc2ne
      · intro j hj1 hj2
        rw [upd_ne _ _ _ _ (by omega)]
        exact hH2 j hj1 hj2
      · exact upd_self _ _ _
      · intro d hd hd1
        rw [upd_ne _ _ _ _ (sib_path_ne p d hd hd1)]
        exact hH4new heapC wlab (fun _ _ _ => rfl) (fun _ _ _ => rfl) d hd hd1
    · rw [if_neg hC]
      have hbeats2 : beats cmp fr (heapC p) w0 := by
        by_cases hw0 : w0 = -1
        · exact Or.inl hw0
        · have hnot : ¬(heapC p = -1 ∨ cmp (fr w0.toNat) (fr (heapC p).toNat) ≤ 0) := by
            intro hcon
            exact hC ⟨hw0, hcon⟩
          push_neg at hnot
          obtain ⟨hpne, hgt⟩ := hnot
          refine Or.inr ⟨hpne, ?_⟩
          rcases htot (fr (heapC p).toNat) (fr w0.toNat) with hcase | hcase
          · exact hcase
          · omega
      have hB1 : ∀ i, 1 ≤ i → i < 2 ^ hh → ¬ properAnc p i →
          nodeOK cmp fr (upd heapC p w0) (upd wlab p (heapC p)) i := by
        intro i hi1 hi2 hnpi
        by_cases hip : i = p
        · subst hip
          constructor
          · rcases hsplitc with hsp | hsp
            · right
              constructor
              · rw [upd_self, upd_ne _ _ _ _ hpne3, hH41, hsp, sib_two_mul]
              · rw [upd_self, upd_ne _ _ _ _ hpne2, ← hsp, hH3]
            · left
              constructor
              · rw [upd_self, upd_ne _ _ _ _ hpne2, hH41, hsp, sib_two_mul_add_one]
              · rw [upd_self, upd_ne _ _ _ _ hpne3, ← hsp, hH3]
          · rw [upd_self, upd_self]
            exact hbeats2
        · obtain ⟨hc1ne, hc2ne⟩ := hchild_ne i hnpi
          exact nodeOK_upd_w cmp fr (upd heapC p w0) wlab i p (heapC p)
            (nodeOK_upd_heap cmp fr heapC wlab i p w0
              (hH1 i hi1 hi2 (htrans_anc i hi1 hip hnpi)) hip) hip hc1ne hc2ne
      have hB2 : ∀ j, 2 ^ hh ≤ j → j < 2 ^ (hh + 1) →
          (upd wlab p (heapC p)) j = (upd heapC p w0) j := by
        intro j hj1 hj2
        rw [upd_ne _ _ _ _ (by omega), upd_ne _ _ _ _ (by omega)]
        exact hH2 j hj1 hj2
      have hB4 : ∀ d, 1 ≤ d → 1 ≤ p / 2 ^ d →
          (upd heapC p w0) (p / 2 ^ d) = (upd wlab p (heapC p)) (sib (p / 2 ^ (d - 1))) := by
        intro d hd hd1
        have hdivlt : p / 2 ^ d < p := Nat.div_lt_self (by omega) (two_le_two_pow hd)
        rw [upd_ne _ _ _ _ (by omega), upd_ne _ _ _ _ (sib_path_ne p d hd hd1)]
        exact hH4new heapC wlab (fun _ _ _ => rfl) (fun _ _ _ => rfl) d hd hd1
      obtain ⟨wl, hl1, hl2, hl3⟩ :=
        ih p (upd heapC p w0) (heapC p) (upd wlab p (heapC p)) hpar1 hpar2 (by omega)
          hB1 hB2 (upd_self _ _ _) hB4
      refine ⟨wl, hl1, hl2, ?_⟩
      intro j hj
      rw [hl3 j hj]
      exact upd_ne _ _ _ _ (by omega)

lemma adjust_eq_refill {α : Type} [Inhabited α] (cmp : α → α → Int) (s : MergeState α)
    (f : Nat) (x : α) (xs : List α)
    (hf0 : (s.heap 0).toNat = f) (hrf : s.rems f = x :: xs) :
    adjust cmp s = ⟨s.k, s.h,
      upd (adjustLoopN cmp (upd s.fronts f x) s.h (f + 2 ^ s.h) s.heap ((f : Nat) : Int)).1 0
        (adjustLoopN cmp (upd s.fronts f x) s.h (f + 2 ^ s.h) s.heap ((f : Nat) : Int)).2,
      upd s.fronts f x, upd s.rems f xs⟩ := by
  simp only [adjust, hf0, hrf]

lemma adjust_eq_eof {α : Type} [Inhabited α] (cmp : α → α → Int) (s : MergeState α)
    (f : Nat)
    (hf0 : (s.heap 0).toNat = f) (hrf : s.rems f = []) :
    adjust cmp s = ⟨s.k, s.h,
      upd (adjustLoopN cmp s.fronts s.h (f + 2 ^ s.h)
            (upd s.heap (f + 2 ^ s.h) (-1)) (-1)).1 0
        (adjustLoopN cmp s.fronts s.h (f + 2 ^ s.h)
            (upd s.heap (f + 2 ^ s.h) (-1)) (-1)).2,
      s.fronts, s.rems⟩ := by
  simp only [adjust, hf0, hrf]

lemma remaining_perm_extract {α : Type} [Inhabited α] (s s2 : MergeState α) (f : Nat)
    (hfk : f < s.k) (hk : s2.k = s.k)
    (hslots : ∀ i, i < s.k → i ≠ f → remSlot s2 i = remSlot s i)
    (hsf : remSlot s f = s.fronts f :: remSlot s2 f) :
    List.Perm (remaining s) (s.fronts f :: remaining s2) := by
  rw [remaining, remaining, hk]
  exact flatMap_extract (remSlot s) (remSlot s2) f (s.fronts f) s.k hfk hslots hsf

/-- `adjust` preserves the merge invariant and removes exactly the
record at the root from the remaining records. -/
lemma adjust_ok {α : Type} [Inhabited α] (cmp : α → α → Int) (s : MergeState α)
    (htot : ∀ a b, cmp a b ≤ 0 ∨ cmp b a ≤ 0)
    (htrans : ∀ a b c, cmp a b ≤ 0 → cmp b c ≤ 0 → cmp a c ≤ 0)
    (hM : MInv cmp s) (f : Nat) (hfk : f < s.k)
    (hf : s.heap 0 = (f : Int)) (hfleaf : s.heap (2 ^ s.h + f) = (f : Int)) :
    MInv cmp (adjust cmp s)
    ∧ List.Perm (remaining s) (s.fronts f :: remaining (adjust cmp s)) := by
  obtain ⟨w, hLT, hroot⟩ := hM.tree
  have hf0 : (s.heap 0).toNat = f := by rw [hf]; exact Int.toNat_natCast f
  have hkpos : 1 ≤ 2 ^ s.h := Nat.two_pow_pos s.h
  have hL1 : 2 ^ s.h ≤ f + 2 ^ s.h := by omega
  have hLlt : f + 2 ^ s.h < 2 ^ (s.h + 1) := by
    have hp : 2 ^ (s.h + 1) = 2 ^ s.h + 2 ^ s.h := by rw [pow_succ]; ring
    have := hM.hk
    omega
  have hw1 : w 1 = (f : Int) := by rw [← hroot, hf]
  have hfleafL : s.heap (f + 2 ^ s.h) = (f : Int) := by
    rw [Nat.add_comm]
    exact hfleaf
  have hpath := path_loser cmp s.fronts s.h s.k f s.heap w htot htrans hLT hM.hk hfk
    hM.leafval hM.dummy hw1
  have hH4gen : ∀ d, 1 ≤ d → 1 ≤ (f + 2 ^ s.h) / 2 ^ d → d ≤ s.h := by
    intro d hd hd1
    by_contra hcon
    have h1 : 2 ^ d ≤ f + 2 ^ s.h := (Nat.one_le_div_iff (Nat.two_pow_pos d)).mp hd1
    have h2 : 2 ^ (s.h + 1) ≤ 2 ^ d := Nat.pow_le_pow_right (by omega) (by omega)
    omega
  rcases hrf : s.rems f with _ | ⟨x, xs⟩
  · rw [adjust_eq_eof cmp s f hf0 hrf]
    have hA1 : ∀ i, 1 ≤ i → i < 2 ^ s.h → ¬ properAnc (f + 2 ^ s.h) i →
        nodeOK cmp s.fronts (upd s.heap (f + 2 ^ s.h) (-1)) (upd w (f + 2 ^ s.h) (-1)) i := by
      intro i hi1 hi2 hnpi
      have hine : i ≠ f + 2 ^ s.h := by omega
      have hc1 : 2 * i ≠ f + 2 ^ s.h := by
        intro hEq
        exact hnpi ⟨1, le_refl 1, by rw [pow_one]; omega⟩
      have hc2 : 2 * i + 1 ≠ f + 2 ^ s.h := by
        intro hEq
        exact hnpi ⟨1, le_refl 1, by rw [pow_one]; omega⟩
      exact nodeOK_upd_w cmp s.fronts (upd s.heap _ (-1)) w i _ (-1)
        (nodeOK_upd_heap cmp s.fronts s.heap w i _ (-1) (hLT.node i hi1 hi2) hine)
        hine hc1 hc2
    have hA2 : ∀ j, 2 ^ s.h ≤ j → j < 2 ^ (s.h + 1) →
        (upd w (f + 2 ^ s.h) (-1)) j = (upd s.heap (f + 2 ^ s.h) (-1)) j := by
      intro j hj1 hj2
      by_cases hjL : j = f + 2 ^ s.h
      · subst hjL
        rw [upd_self, upd_self]
      · rw [upd_ne _ _ _ _ hjL, upd_ne _ _ _ _ hjL]
        exact hLT.leaf_eq j hj1 hj2
    have hA4 : ∀ d, 1 ≤ d → 1 ≤ (f + 2 ^ s.h) / 2 ^ d →
        (upd s.heap (f + 2 ^ s.h) (-1)) ((f + 2 ^ s.h) / 2 ^ d)
          = (upd w (f + 2 ^ s.h) (-1)) (sib ((f + 2 ^ s.h) / 2 ^ (d - 1))) := by
      intro d hd hd1
      have hdivlt : (f + 2 ^ s.h) / 2 ^ d < f + 2 ^ s.h :=
        Nat.div_lt_self (by omega) (two_le_two_pow hd)
      rw [upd_ne _ _ _ _ (by omega), upd_ne _ _ _ _ (sib_path_ne _ d hd hd1)]
      exact hpath d hd (hH4gen d hd hd1)
    obtain ⟨wl, hl1, hl2, hl3⟩ := adjustLoop_ok cmp s.fronts s.h htot s.h (f + 2 ^ s.h)
      (upd s.heap (f + 2 ^ s.h) (-1)) (-1) (upd w (f + 2 ^ s.h) (-1))
      hL1 hLlt (le_refl _) hA1 hA2 (upd_self _ _ _) hA4
    constructor
    · constructor
      · exact hM.hk
      · refine ⟨wl, ⟨?_, ?_⟩, ?_⟩
        · intro j hj1 hj2
          show wl j = upd _ 0 _ j
          rw [upd_ne _ _ _ _ (show j ≠ 0 from by omega)]
          exact hl1.leaf_eq j hj1 hj2
        · intro i hi1 hi2
          exact nodeOK_upd_heap cmp s.fronts _ wl i 0 _ (hl1.node i hi1 hi2) (by omega)
        · dsimp only
          rw [upd_self]
          exact hl2.symm
      · intro i hi
        show upd _ 0 _ (2 ^ s.h + i) = (i : Int) ∨ upd _ 0 _ (2 ^ s.h + i) = -1
        rw [upd_ne _ _ _ _ (show 2 ^ s.h + i ≠ 0 from by omega),
          hl3 (2 ^ s.h + i) (by omega)]
        by_cases hif : i = f
        · subst hif
          rw [Nat.add_comm (2 ^ s.h) i, upd_self]
          exact Or.inr rfl
        · rw [upd_ne _ _ _ _ (by omega)]
          exact hM.leafval i hi
      · intro j hj1 hj2
        dsimp only at hj1 hj2
        show (upd _ 0 _ j : Int) = -1
        rw [upd_ne _ _ _ _ (show j ≠ 0 from by omega), hl3 j (by omega),
          upd_ne _ _ _ _ (show j ≠ f + 2 ^ s.h from by omega)]
        exact hM.dummy j hj1 hj2
      · intro i hi hact
        apply hM.sorted i hi
        intro hcon
        apply hact
        show (upd _ 0 _ (2 ^ s.h + i) : Int) = -1
        rw [upd_ne _ _ _ _ (show 2 ^ s.h + i ≠ 0 from by omega),
          hl3 (2 ^ s.h + i) (by omega)]
        by_cases hif : i = f
        · subst hif
          rw [Nat.add_comm (2 ^ s.h) i, upd_self]
        · rw [upd_ne _ _ _ _ (by omega)]
          exact hcon
    · refine remaining_perm_extract _ _ f hfk rfl ?_ ?_
      · intro i hi hif
        have hhp : upd (adjustLoopN cmp s.fronts s.h (f + 2 ^ s.h)
              (upd s.heap (f + 2 ^ s.h) (-1)) (-1)).1 0
              (adjustLoopN cmp s.fronts s.h (f + 2 ^ s.h)
                (upd s.heap (f + 2 ^ s.h) (-1)) (-1)).2 (2 ^ s.h + i)
            = s.heap (2 ^ s.h + i) := by
          rw [upd_ne _ _ _ _ (show 2 ^ s.h + i ≠ 0 from by omega),
            hl3 (2 ^ s.h + i) (by omega), upd_ne _ _ _ _ (by omega)]
        simp only [remSlot, hhp]
      · have hhp : upd (adjustLoopN cmp s.fronts s.h (f + 2 ^ s.h)
              (upd s.heap (f + 2 ^ s.h) (-1)) (-1)).1 0
              (adjustLoopN cmp s.fronts s.h (f + 2 ^ s.h)
                (upd s.heap (f + 2 ^ s.h) (-1)) (-1)).2 (2 ^ s.h + f)
            = -1 := by
          rw [upd_ne _ _ _ _ (show 2 ^ s.h + f ≠ 0 from by omega),
            hl3 (2 ^ s.h + f) (by omega), Nat.add_comm (2 ^ s.h) f, upd_self]
        simp only [remSlot, hhp, hrf]
        rw [if_neg (show ¬s.heap (2 ^ s.h + f) = -1 from by rw [hfleaf]; omega)]
        simp
  · rw [adjust_eq_refill cmp s f x xs hf0 hrf]
    have hA1 : ∀ i, 1 ≤ i → i < 2 ^ s.h → ¬ properAnc (f + 2 ^ s.h) i →
        nodeOK cmp (upd s.fronts f x) s.heap w i := by
      intro i hi1 hi2 hnpi
      exact offpath_nodeOK cmp s.fronts s.h s.k f s.heap w x htot htrans hLT
        hM.leafval hM.dummy i hi1 hi2 hnpi
    have hA2 : ∀ j, 2 ^ s.h ≤ j → j < 2 ^ (s.h + 1) → w j = s.heap j :=
      fun j hj1 hj2 => hLT.leaf_eq j hj1 hj2
    have hA3 : w (f + 2 ^ s.h) = ((f : Nat) : Int) := by
      rw [hLT.leaf_eq (f + 2 ^ s.h) hL1 hLlt]
      exact hfleafL
    have hA4 : ∀ d, 1 ≤ d → 1 ≤ (f + 2 ^ s.h) / 2 ^ d →
        s.heap ((f + 2 ^ s.h) / 2 ^ d) = w (sib ((f + 2 ^ s.h) / 2 ^ (d - 1))) := by
      intro d hd hd1
      exact hpath d hd (hH4gen d hd hd1)
    obtain ⟨wl, hl1, hl2, hl3⟩ := adjustLoop_ok cmp (upd s.fronts f x) s.h htot s.h
      (f + 2 ^ s.h) s.heap ((f : Nat) : Int) w hL1 hLlt (le_refl _) hA1 hA2 hA3 hA4
    constructor
    · constructor
      · exact hM.hk
      · refine ⟨wl, ⟨?_, ?_⟩, ?_⟩
        · intro j hj1 hj2
          show wl j = upd _ 0 _ j
          rw [upd_ne _ _ _ _ (show j ≠ 0 from by omega)]
          exact hl1.leaf_eq j hj1 hj2
        · intro i hi1 hi2
          exact nodeOK_upd_heap cmp (upd s.fronts f x) _ wl i 0 _ (hl1.node i hi1 hi2) (by omega)
        · dsimp only
          rw [upd_self]
          exact hl2.symm
      · intro i hi
        show upd _ 0 _ (2 ^ s.h + i) = (i : Int) ∨ upd _ 0 _ (2 ^ s.h + i) = -1
        rw [upd_ne _ _ _ _ (show 2 ^ s.h + i ≠ 0 from by omega),
          hl3 (2 ^ s.h + i) (by omega)]
        exact hM.leafval i hi
      · intro j hj1 hj2
        dsimp only at hj1 hj2
        show (upd _ 0 _ j : Int) = -1
        rw [upd_ne _ _ _ _ (show j ≠ 0 from by omega), hl3 j (by omega)]
        exact hM.dummy j hj1 hj2
      · intro i hi hact
        have hacts : s.heap (2 ^ s.h + i) ≠ -1 := by
          intro hcon
          apply hact
          show (upd _ 0 _ (2 ^ s.h + i) : Int) = -1
          rw [upd_ne _ _ _ _ (show 2 ^ s.h + i ≠ 0 from by omega),
            hl3 (2 ^ s.h + i) (by omega)]
          exact hcon
        have hsorted := hM.sorted i hi hacts
        by_cases hif : i = f
        · subst hif
          show ((upd s.fronts i x) i :: (upd s.rems i xs) i).Pairwise _
          rw [upd_self, upd_self]
          rw [hrf] at hsorted
          exact hsorted.of_cons
        · show ((upd s.fronts f x) i :: (upd s.rems f xs) i).Pairwise _
          rw [upd_ne _ _ _ _ hif, upd_ne _ _ _ _ hif]
          exact hsorted
    · refine remaining_perm_extract _ _ f hfk rfl ?_ ?_
      · intro i hi hif
        have hhp : upd (adjustLoopN cmp (upd s.fronts f x) s.h (f + 2 ^ s.h) s.heap
              ((f : Nat) : Int)).1 0
              (adjustLoopN cmp (upd s.fronts f x) s.h (f + 2 ^ s.h) s.heap
                ((f : Nat) : Int)).2 (2 ^ s.h + i)
            = s.heap (2 ^ s.h + i) := by
          rw [upd_ne _ _ _ _ (show 2 ^ s.h + i ≠ 0 from by omega),
            hl3 (2 ^ s.h + i) (by omega)]
        simp only [remSlot, hhp]
        by_cases hdum : s.heap (2 ^ s.h + i) = -1
        · rw [if_pos hdum, if_pos hdum]
        · rw [if_neg hdum, if_neg hdum, upd_ne _ _ _ _ hif, upd_ne _ _ _ _ hif]
      · have hhp : upd (adjustLoopN cmp (upd s.fronts f x) s.h (f + 2 ^ s.h) s.heap
              ((f : Nat) : Int)).1 0
              (adjustLoopN cmp (upd s.fronts f x) s.h (f + 2 ^ s.h) s.heap
                ((f : Nat) : Int)).2 (2 ^ s.h + f)
            = s.heap (2 ^ s.h + f) := by
          rw [upd_ne _ _ _ _ (show 2 ^ s.h + f ≠ 0 from by omega),
            hl3 (2 ^ s.h + f) (by omega)]
        simp only [remSlot, hhp, hrf]
        rw [if_neg (show ¬s.heap (2 ^ s.h + f) = -1 from by rw [hfleaf]; omega),
          if_neg (show ¬s.heap (2 ^ s.h + f) = -1 from by rw [hfleaf]; omega),
          upd_self, upd_self]

/-- Partial correctness of the bottom-up build: the leaves are still as
initialised, and every already-processed internal node (above `n`) is
locally consistent. -/
def hwOK {α : Type} [Inhabited α] (cmp : α → α → Int) (fr : Nat → α) (hh k n : Nat)
    (hw : (Nat → Int) × (Nat → Int)) : Prop :=
  (∀ j, 2 ^ hh ≤ j → j < 2 ^ (hh + 1) →
    hw.1 j = initHeap k hh j ∧ hw.2 j = initHeap k hh j)
  ∧ (∀ i, n < i → i < 2 ^ hh → nodeOK cmp fr hw.1 hw.2 i)

lemma buildStep_ok {α : Type} [Inhabited α] (cmp : α → α → Int) (fr : Nat → α) (hh k : Nat)
    (htot : ∀ a b, cmp a b ≤ 0 ∨ cmp b a ≤ 0)
    (i : Nat) (hw : (Nat → Int) × (Nat → Int))
    (hi1 : 1 ≤ i) (hi : i < 2 ^ hh) (hOK : hwOK cmp fr hh k i hw) :
    hwOK cmp fr hh k (i - 1) (buildStep cmp fr hw i) := by
  obtain ⟨hleaf, hnodes⟩ := hOK
  unfold buildStep
  dsimp only
  by_cases hC : hw.2 (2 * i) ≠ -1 ∧ (hw.2 (2 * i + 1) = -1 ∨
      cmp (fr (hw.2 (2 * i)).toNat) (fr (hw.2 (2 * i + 1)).toNat) ≤ 0)
  · rw [if_pos hC]
    unfold hwOK
    dsimp only
    constructor
    · intro j hj1 hj2
      have hji : j ≠ i := by omega
      rw [upd_ne _ _ _ _ hji, upd_ne _ _ _ _ hji]
      exact hleaf j hj1 hj2
    · intro i2 hi21 hi22
      by_cases hi2i : i2 = i
      · subst hi2i
        constructor
        · left
          constructor
          · rw [upd_self, upd_ne _ _ _ _ (show 2 * i2 ≠ i2 from by omega)]
          · rw [upd_self, upd_ne _ _ _ _ (show 2 * i2 + 1 ≠ i2 from by omega)]
        · rw [upd_self, upd_self]
          obtain ⟨hl, hOr⟩ := hC
          rcases hOr with hOr | hOr
          · exact Or.inl hOr
          · exact Or.inr ⟨hl, hOr⟩
      · exact nodeOK_upd_w cmp fr (upd hw.1 i (hw.2 (2 * i + 1))) hw.2 i2 i (hw.2 (2 * i))
          (nodeOK_upd_heap cmp fr hw.1 hw.2 i2 i (hw.2 (2 * i + 1))
            (hnodes i2 (by omega) hi22) hi2i)
          hi2i (by omega) (by omega)
  · rw [if_neg hC]
    unfold hwOK
    dsimp only
    have hbeats : beats cmp fr (hw.2 (2 * i + 1)) (hw.2 (2 * i)) := by
      by_cases hl : hw.2 (2 * i) = -1
      · exact Or.inl hl
      · have hnot : ¬(hw.2 (2 * i + 1) = -1 ∨
            cmp (fr (hw.2 (2 * i)).toNat) (fr (hw.2 (2 * i + 1)).toNat) ≤ 0) := by
          intro hcon
          exact hC ⟨hl, hcon⟩
        push_neg at hnot
        obtain ⟨hrne, hgt⟩ := hnot
        refine Or.inr ⟨hrne, ?_⟩
        rcases htot (fr (hw.2 (2 * i + 1)).toNat) (fr (hw.2 (2 * i)).toNat) with hc | hc
        · exact hc
        · omega
    constructor
    · intro j hj1 hj2
      have hji : j ≠ i := by omega
      rw [upd_ne _ _ _ _ hji, upd_ne _ _ _ _ hji]
      exact hleaf j hj1 hj2
    · intro i2 hi21 hi22
      by_cases hi2i : i2 = i
      · subst hi2i
        constructor
        · right
          constructor
          · rw [upd_self, upd_ne _ _ _ _ (show 2 * i2 + 1 ≠ i2 from by omega)]
          · rw [upd_self, upd_ne _ _ _ _ (show 2 * i2 ≠ i2 from by omega)]
        · rw [upd_self, upd_self]
          exact hbeats
      · exact nodeOK_upd_w cmp fr (upd hw.1 i (hw.2 (2 * i))) hw.2 i2 i (hw.2 (2 * i + 1))
          (nodeOK_upd_heap cmp fr hw.1 hw.2 i2 i (hw.2 (2 * i))
            (hnodes i2 (by omega) hi22) hi2i)
          hi2i (by omega) (by omega)

lemma buildDown_ok {α : Type} [Inhabited α] (cmp : α → α → Int) (fr : Nat → α) (hh k : Nat)
    (htot : ∀ a b, cmp a b ≤ 0 ∨ cmp b a ≤ 0) :
    ∀ n hw, n < 2 ^ hh → hwOK cmp fr hh k n hw →
      hwOK cmp fr hh k 0 (buildDown cmp fr n hw) := by
  intro n
  induction n with
  | zero => intro hw _ hOK; exact hOK
  | succ n ih =>
    intro hw hn hOK
    show hwOK cmp fr hh k 0 (buildDown cmp fr n (buildStep cmp fr hw (n + 1)))
    apply ih _ (by omega)
    exact buildStep_ok cmp fr hh k htot (n + 1) hw (by omega) hn hOK

lemma initHeap_leaf1 (k hh j : Nat) (h1 : 2 ^ hh ≤ j) (h2 : j < 2 ^ hh + k) :
    initHeap k hh j = ((j - 2 ^ hh : Nat) : Int) := by
  rw [initHeap, if_pos ⟨h1, h2⟩]

lemma initHeap_leaf2 (k hh j : Nat) (h1 : 2 ^ hh + k ≤ j) (h2 : j < 2 ^ (hh + 1)) :
    initHeap k hh j = -1 := by
  rw [initHeap, if_neg (by omega), if_pos ⟨h1, h2⟩]

lemma mkMerge_def {α : Type} [Inhabited α] (cmp : α → α → Int) (runs : List (List α)) :
    mkMerge cmp runs = ⟨runs.length, clog2 runs.length,
      upd (buildDown cmp (fun i => (runs.getD i []).headD default)
        (2 ^ clog2 runs.length - 1)
        (initHeap runs.length (clog2 runs.length),
          initHeap runs.length (clog2 runs.length))).1 0
        ((buildDown cmp (fun i => (runs.getD i []).headD default)
        (2 ^ clog2 runs.length - 1)
        (initHeap runs.length (clog2 runs.length),
          initHeap runs.length (clog2 runs.length))).2 1),
      fun i => (runs.getD i []).headD default,
      fun i => (runs.getD i []).tail⟩ := rfl

lemma flatMap_range_getD {β : Type} :
    ∀ l : List (List β), (List.range l.length).flatMap (fun i => l.getD i []) = l.flatten := by
  intro l
  induction l with
  | nil => rfl
  | cons r rs ih =>
    have hcomp : ((List.range rs.length).map Nat.succ).flatMap
        (fun i => (r :: rs).getD i []) = (List.range rs.length).flatMap
        (fun i => rs.getD i []) := by
      rw [List.flatMap_map]
      rfl
    rw [List.length_cons, List.range_succ_eq_map, List.flatMap_cons, hcomp, ih,
      List.flatten_cons]
    rfl

/-- `beginRead`'s tree construction establishes the merge invariant,
with all records of the runs unread. -/
lemma mkMerge_ok {α : Type} [Inhabited α] (cmp : α → α → Int) (runs : List (List α))
    (htot : ∀ a b, cmp a b ≤ 0 ∨ cmp b a ≤ 0)
    (hruns : ∀ r, r ∈ runs → r ≠ [] ∧ r.Pairwise (fun a b => cmp a b ≤ 0)) :
    MInv cmp (mkMerge cmp runs)
    ∧ remaining (mkMerge cmp runs) = runs.flatten := by
  rw [mkMerge_def]
  set k := runs.length with hkdef
  set hh := clog2 runs.length with hhdef
  set fr : Nat → α := fun i => (runs.getD i []).headD default with hfrdef
  set hw := buildDown cmp fr (2 ^ hh - 1) (initHeap k hh, initHeap k hh) with hwdef
  have hppos : 1 ≤ 2 ^ hh := Nat.two_pow_pos hh
  have hpp : 2 ^ (hh + 1) = 2 ^ hh + 2 ^ hh := by rw [pow_succ]; ring
  have hk2 : k ≤ 2 ^ hh := by rw [hkdef, hhdef]; exact clog2_ge runs.length
  obtain ⟨hleafOK, hnodesOK⟩ := buildDown_ok cmp fr hh k htot (2 ^ hh - 1)
    (initHeap k hh, initHeap k hh) (by omega)
    ⟨fun j h1 h2 => ⟨rfl, rfl⟩, fun i hi1 hi2 => absurd hi2 (by omega)⟩
  have hleafH : ∀ j, 2 ^ hh ≤ j → j < 2 ^ (hh + 1) →
      upd hw.1 0 (hw.2 1) j = initHeap k hh j := by
    intro j h1 h2
    rw [upd_ne _ _ _ _ (show j ≠ 0 from by omega)]
    exact (hleafOK j h1 h2).1
  have hrunmem : ∀ i, i < k → runs.getD i [] ∈ runs := by
    intro i hik
    have hgd : runs.getD i [] = runs[i] := List.getD_eq_getElem runs [] (by omega)
    rw [hgd]
    exact List.getElem_mem _
  constructor
  · constructor
    · exact hk2
    · refine ⟨hw.2, ⟨?_, ?_⟩, ?_⟩
      · intro j h1 h2
        dsimp only at h1 h2 ⊢
        rw [hleafH j h1 h2]
        exact (hleafOK j h1 h2).2
      · intro i hi1 hi2
        dsimp only at hi1 hi2 ⊢
        exact nodeOK_upd_heap cmp fr hw.1 hw.2 i 0 (hw.2 1)
          (hnodesOK i (by omega) hi2) (by omega)
      · dsimp only
        rw [upd_self]
    · intro i hik
      dsimp only at hik ⊢
      left
      rw [hleafH (2 ^ hh + i) (by omega) (by omega),
        initHeap_leaf1 k hh _ (by omega) (by omega),
        show 2 ^ hh + i - 2 ^ hh = i from by omega]
    · intro j hj1 hj2
      dsimp only at hj1 hj2 ⊢
      rw [hleafH j (by omega) hj2]
      exact initHeap_leaf2 k hh j hj1 hj2
    · intro i hik hact
      dsimp only at hik
      obtain ⟨hne, hpw⟩ := hruns (runs.getD i []) (hrunmem i hik)
      show ((runs.getD i []).headD default :: (runs.getD i []).tail).Pairwise _
      rw [headD_cons_tail _ _ hne]
      exact hpw
  · rw [remaining]
    have hslot : ∀ i, i < k → remSlot ⟨k, hh, upd hw.1 0 (hw.2 1), fr,
        fun i => (runs.getD i []).tail⟩ i = runs.getD i [] := by
      intro i hik
      rw [remSlot]
      dsimp only
      rw [hleafH (2 ^ hh + i) (by omega) (by omega),
        initHeap_leaf1 k hh _ (by omega) (by omega),
        show 2 ^ hh + i - 2 ^ hh = i from by omega]
      rw [if_neg (by omega)]
      obtain ⟨hne, _⟩ := hruns (runs.getD i []) (hrunmem i hik)
      exact headD_cons_tail _ _ hne
    rw [flatMap_range_congr _ _ k hslot]
    rw [hkdef]
    exact flatMap_range_getD runs

/-- `readN` over a valid merge state emits a sorted permutation of the
remaining records. -/
lemma readN_correct {α : Type} [Inhabited α] (cmp : α → α → Int)
    (htot : ∀ a b, cmp a b ≤ 0 ∨ cmp b a ≤ 0)
    (htrans : ∀ a b c, cmp a b ≤ 0 → cmp b c ≤ 0 → cmp a c ≤ 0) :
    ∀ n (s : MergeState α), MInv cmp s → (remaining s).length = n →
      List.Perm (readN cmp n s).1 (remaining s)
      ∧ (readN cmp n s).1.Pairwise (fun a b => cmp a b ≤ 0) := by
  intro n
  induction n with
  | zero =>
    intro s _ hlen
    have hemp : remaining s = [] := List.length_eq_zero.mp hlen
    rw [hemp]
    exact ⟨List.Perm.refl _, List.Pairwise.nil⟩
  | succ n ih =>
    intro s hM hlen
    have hne0 : s.heap 0 ≠ -1 := by
      intro hcon
      rw [remaining_eq_nil cmp s htot htrans hM hcon] at hlen
      simp at hlen
    obtain ⟨f, hfk, hf, hfleaf⟩ := champion cmp s htot htrans hM hne0
    obtain ⟨hM2, hperm⟩ := adjust_ok cmp s htot htrans hM f hfk hf hfleaf
    have hmin := root_min cmp s htot htrans hM f hfk hf
    have hlen2 : (remaining (adjust cmp s)).length = n := by
      have hle := hperm.length_eq
      rw [hlen] at hle
      simp at hle
      omega
    obtain ⟨ihp, ihs⟩ := ih (adjust cmp s) hM2 hlen2
    have hread : (readN cmp (n + 1) s).1
        = s.fronts f :: (readN cmp n (adjust cmp s)).1 := by
      show (emsRead cmp s).1 :: (readN cmp n (emsRead cmp s).2).1 = _
      have h1 : (emsRead cmp s).1 = s.fronts f := by
        show s.fronts (s.heap 0).toNat = s.fronts f
        rw [hf, Int.toNat_natCast]
      have h2 : (emsRead cmp s).2 = adjust cmp s := rfl
      rw [h1, h2]
    rw [hread]
    constructor
    · exact (ihp.cons (s.fronts f)).trans hperm.symm
    · rw [List.pairwise_cons]
      constructor
      · intro y hy
        have hy2 : y ∈ remaining (adjust cmp s) := (ihp.mem_iff).mp hy
        have hy3 : y ∈ remaining s := by
          rw [hperm.mem_iff]
          exact List.mem_cons_of_mem _ hy2
        exact hmin y hy3
      · exact ihs

/-- Write-phase invariant: flushed runs plus the open mapping hold a
permutation of everything written so far; flushed runs are sorted and
nonempty; a closed mapping means nothing was ever written. -/
def WInv {α : Type} (cmp : α → α → Int) (l : List α) (s : EMSWriter α) : Prop :=
  List.Perm (s.runs.flatten ++ s.cur) l
  ∧ (∀ r, r ∈ s.runs → r ≠ [] ∧ r.Pairwise (fun a b => cmp a b ≤ 0))
  ∧ (s.dataOpen = false → s.runs = [] ∧ s.cur = [] ∧ s.isFull = true)
  ∧ (s.dataOpen = true → s.cur ≠ [])

lemma qsortModel_perm {α : Type} (cmp : α → α → Int) (l : List α) :
    List.Perm (qsortModel cmp l) l := List.perm_insertionSort _ l

lemma qsortModel_sorted {α : Type} (cmp : α → α → Int)
    (htot : ∀ a b, cmp a b ≤ 0 ∨ cmp b a ≤ 0)
    (htrans : ∀ a b c, cmp a b ≤ 0 → cmp b c ≤ 0 → cmp a c ≤ 0) (l : List α) :
    (qsortModel cmp l).Pairwise (fun a b => cmp a b ≤ 0) := by
  letI : IsTotal α (fun a b => cmp a b ≤ 0) := ⟨htot⟩
  letI : IsTrans α (fun a b => cmp a b ≤ 0) := ⟨htrans⟩
  exact List.sorted_insertionSort _ l

lemma qsortModel_ne_nil {α : Type} (cmp : α → α → Int) (l : List α) (h : l ≠ []) :
    qsortModel cmp l ≠ [] := by
  intro hcon
  apply h
  have hp := (qsortModel_perm cmp l).symm
  rw [hcon] at hp
  exact hp.eq_nil

lemma emsWrite_ok {α : Type} (cmp : α → α → Int) (nrpf : Nat)
    (htot : ∀ a b, cmp a b ≤ 0 ∨ cmp b a ≤ 0)
    (htrans : ∀ a b c, cmp a b ≤ 0 → cmp b c ≤ 0 → cmp a c ≤ 0)
    (l : List α) (s : EMSWriter α) (r : α)
    (hW : WInv cmp l s) : WInv cmp (l ++ [r]) (emsWrite cmp nrpf s r) := by
  obtain ⟨runs0, cur0, dataOpen0, isFull0⟩ := s
  obtain ⟨hperm, hsorted, hclosed, hopen⟩ := hW
  dsimp only at hperm hsorted hclosed hopen
  rcases isFull0 with _ | _
  · refine ⟨?_, ?_, ?_, ?_⟩
    · show List.Perm (runs0.flatten ++ (cur0 ++ [r])) (l ++ [r])
      rw [← List.append_assoc]
      exact hperm.append_right [r]
    · exact hsorted
    · intro hcon
      obtain ⟨_, _, hfull⟩ := hclosed hcon
      cases hfull
    · intro _
      show cur0 ++ [r] ≠ []
      simp
  · rcases dataOpen0 with _ | _
    · obtain ⟨hr0, hc0, _⟩ := hclosed rfl
      subst hr0
      subst hc0
      have hl0 : l = [] := by
        have hp := hperm.symm
        simp at hp
        rw [hp]
      subst hl0
      refine ⟨?_, ?_, ?_, ?_⟩
      · show List.Perm (List.flatten [] ++ ([] ++ [r])) ([] ++ [r])
        exact List.Perm.refl _
      · exact hsorted
      · intro hcon
        cases hcon
      · intro _
        show ([] : List α) ++ [r] ≠ []
        simp
    · refine ⟨?_, ?_, ?_, ?_⟩
      · show List.Perm ((runs0 ++ [qsortModel cmp cur0]).flatten ++ ([] ++ [r])) (l ++ [r])
        simp only [List.flatten_append, List.flatten_cons, List.flatten_nil,
          List.append_nil, List.nil_append, List.append_assoc]
        have h1 : List.Perm (qsortModel cmp cur0 ++ [r]) (cur0 ++ [r]) :=
          (qsortModel_perm cmp cur0).append_right [r]
        have h2 := h1.append_left runs0.flatten
        refine h2.trans ?_
        rw [← List.append_assoc]
        exact hperm.append_right [r]
      · intro r2 hr2
        have hr2b : r2 ∈ runs0 ++ [qsortModel cmp cur0] := hr2
        rw [List.mem_append] at hr2b
        rcases hr2b with hr2b | hr2b
        · exact hsorted r2 hr2b
        · rw [List.mem_singleton] at hr2b
          subst hr2b
          exact ⟨qsortModel_ne_nil cmp cur0 (hopen rfl),
            qsortModel_sorted cmp htot htrans cur0⟩
      · intro hcon
        have hcon2 : true = false := hcon
        cases hcon2
      · intro _
        show ([] : List α) ++ [r] ≠ []
        simp

lemma emsWriteFold_ok {α : Type} (cmp : α → α → Int) (nrpf : Nat)
    (htot : ∀ a b, cmp a b ≤ 0 ∨ cmp b a ≤ 0)
    (htrans : ∀ a b c, cmp a b ≤ 0 → cmp b c ≤ 0 → cmp a c ≤ 0) :
    ∀ (input : List α) (l : List α) (s : EMSWriter α), WInv cmp l s →
      WInv cmp (l ++ input) (input.foldl (emsWrite cmp nrpf) s) := by
  intro input
  induction input with
  | nil =>
    intro l s h
    simpa using h
  | cons r rs ih =>
    intro l s h
    have h2 := emsWrite_ok cmp nrpf htot htrans l s r h
    have h3 := ih (l ++ [r]) _ h2
    rw [List.append_assoc] at h3
    simpa using h3

lemma emsEndWrite_ok {α : Type} (cmp : α → α → Int)
    (htot : ∀ a b, cmp a b ≤ 0 ∨ cmp b a ≤ 0)
    (htrans : ∀ a b c, cmp a b ≤ 0 → cmp b c ≤ 0 → cmp a c ≤ 0)
    (l : List α) (s : EMSWriter α)
    (hW : WInv cmp l s) (hl : l ≠ []) :
    emsEndWrite cmp s ≠ []
    ∧ (∀ r, r ∈ emsEndWrite cmp s → r ≠ [] ∧ r.Pairwise (fun a b => cmp a b ≤ 0))
    ∧ List.Perm (emsEndWrite cmp s).flatten l := by
  obtain ⟨hperm, hsorted, hclosed, hopen⟩ := hW
  rw [emsEndWrite]
  by_cases hdo : s.dataOpen = true
  · rw [if_pos hdo]
    refine ⟨by simp, ?_, ?_⟩
    · intro r2 hr2
      rw [List.mem_append] at hr2
      rcases hr2 with hr2 | hr2
      · exact hsorted r2 hr2
      · rw [List.mem_singleton] at hr2
        subst hr2
        exact ⟨qsortModel_ne_nil cmp s.cur (hopen hdo),
          qsortModel_sorted cmp htot htrans s.cur⟩
    · simp only [List.flatten_append, List.flatten_cons, List.flatten_nil, List.append_nil]
      exact ((qsortModel_perm cmp s.cur).append_left s.runs.flatten).trans hperm
  · exfalso
    apply hl
    obtain ⟨hr0, hc0, _⟩ := hclosed (by
      rcases hdo2 : s.dataOpen with _ | _
      · rfl
      · exact absurd hdo2 hdo)
    rw [hr0, hc0] at hperm
    have hp := hperm.symm
    simp at hp
    exact hp

lemma emsSort_eq_readN {α : Type} [Inhabited α] (cmp : α → α → Int) (nrpf : Nat)
    (input : List α)
    (hne : emsEndWrite cmp (input.foldl (emsWrite cmp nrpf) emsInit) ≠ []) :
    emsSort cmp nrpf input = (readN cmp input.length
      (mkMerge cmp (emsEndWrite cmp (input.foldl (emsWrite cmp nrpf) emsInit)))).1 := by
  have hk0 : (emsEndWrite cmp (input.foldl (emsWrite cmp nrpf) emsInit)).length ≠ 0 := by
    intro hcon
    exact hne (List.length_eq_zero.mp hcon)
  simp only [emsSort, beginRead, heightOfK, if_neg hk0, Option.map_some']

/-- C1: for every comparator `cmp` whose order `cmp a b ≤ 0` is total
and transitive, and every input of `N ≥ 1` records, the full
`ExternalMergeSorter` session — `N` `write` calls, `end_write`,
`begin_read`, then `N` `read` calls — returns a permutation of the
input that is non-decreasing under the comparator. -/
theorem ems_sort_correct {α : Type} [Inhabited α] (cmp : α → α → Int) (nrpf : Nat)
    (input : List α)
    (htot : ∀ a b, cmp a b ≤ 0 ∨ cmp b a ≤ 0)
    (htrans : ∀ a b c, cmp a b ≤ 0 → cmp b c ≤ 0 → cmp a c ≤ 0)
    (hN : 1 ≤ input.length) :
    List.Perm (emsSort cmp nrpf input) input
    ∧ (emsSort cmp nrpf input).Pairwise (fun a b => cmp a b ≤ 0) := by
  have hWinit : WInv cmp [] (emsInit : EMSWriter α) :=
    ⟨List.Perm.refl _, fun r hr => absurd hr (List.not_mem_nil r),
      fun _ => ⟨rfl, rfl, rfl⟩, fun h => nomatch h⟩
  have hW := emsWriteFold_ok cmp nrpf htot htrans input [] emsInit hWinit
  rw [List.nil_append] at hW
  have hinne : input ≠ [] := by
    intro hcon
    rw [hcon] at hN
    simp at hN
  obtain ⟨hrne, hrsorted, hrperm⟩ := emsEndWrite_ok cmp htot htrans input _ hW hinne
  obtain ⟨hM, hrem⟩ := mkMerge_ok cmp
    (emsEndWrite cmp (input.foldl (emsWrite cmp nrpf) emsInit)) htot hrsorted
  rw [emsSort_eq_readN cmp nrpf input hrne]
  have hlen : (remaining (mkMerge cmp
      (emsEndWrite cmp (input.foldl (emsWrite cmp nrpf) emsInit)))).length
      = input.length := by
    rw [hrem]
    exact hrperm.length_eq
  obtain ⟨hp, hs⟩ := readN_correct cmp htot htrans input.length _ hM hlen
  refine ⟨hp.trans ?_, hs⟩
  rw [hrem]
  exact hrperm

theorem ems_sort_correct_witness :
    List.Perm (emsSort (fun a b : Fin 3 => ((a : Nat) : Int) - ((b : Nat) : Int)) 2
        [2, 0, 1]) [2, 0, 1]
    ∧ (emsSort (fun a b : Fin 3 => ((a : Nat) : Int) - ((b : Nat) : Int)) 2
        [2, 0, 1]).Pairwise
      (fun a b : Fin 3 => ((a : Nat) : Int) - ((b : Nat) : Int) ≤ 0) :=
  ems_sort_correct (fun a b : Fin 3 => ((a : Nat) : Int) - ((b : Nat) : Int)) 2 [2, 0, 1]
    (by decide) (by decide) (by decide)
